import Mathlib

/-!
Verification development for the two dynamic-memory allocators of this
repository: the implicit-free-list variant (mm-baseline.c, shipped as an
unnamed source file) and the segregated-fits variant
(src/labs/malloc-lab/mm-segregated.c).

Modelling.  The heap is the list of blocks lying strictly between the
prologue block and the epilogue header, in address order; a block records
the size field stored in its header and footer, its allocation bit, and
its payload bytes.  Block addresses are byte offsets from the start of the
backing region (the region base is 16-byte aligned, which the spec states
is where payload alignment is enforced): the first real block of the
segregated heap starts right after the sixteen class-head slots and the
prologue, the first real block of the implicit heap right after the 4
padding bytes and the prologue.  Since header == footer everywhere in a
well-formed heap (invariant H=F) and both are derived from (size, alloc),
the block list carries exactly the information of the boundary-tag bytes;
navigation by find_next / find_prev becomes stepping along the list.

The sixteen circular doubly-linked free lists of the segregated variant
are modelled as sixteen lists of block addresses in succ-order from each
class head: LIFO insertion is consing the address, the unlink splice is
erasing it.  The raw pointer surgery of insert_free_block and
remove_from_free_list is additionally modelled verbatim, statement by
statement, on a pred/succ field store (structure Links below).

The backing region (memlib, an external collaborator of the spec) is a
budget of bytes still available to mem_sbrk; mem_sbrk n succeeds exactly
when n bytes remain.  Fallible operations return Option: the outer none is
the crash that the source exhibits when it dereferences a NULL heap
pointer, an inner none is a NULL return value.

Free blocks' payload area holds scratch data in the source (the segregated
variant keeps its pred/succ pointers there); no claim depends on it, and
the model materialises it as zero bytes.
-/

/-- A heap block: the size recorded in header and footer (a multiple of 8
in any well-formed heap), the allocation bit, and the payload bytes. -/
structure Blk where
  size : Nat
  alloc : Bool
  bytes : List Nat
  deriving DecidableEq

/-- Sum of the size fields of a list of blocks. -/
def totalSize (bs : List Blk) : Nat := (bs.map Blk.size).sum

/-- Allocation bit of the first block of a list; the empty list stands for
the adjacent sentinel (prologue or epilogue), which is allocated. -/
def headAlloc : List Blk → Bool
  | [] => true
  | x :: _ => x.alloc

/-- Size of the first block of a list (the previous-neighbour size read
from its footer by find_prev); unused when the list is empty. -/
def prevSize : List Blk → Nat
  | [] => 0
  | p :: _ => p.size

/-- The block starting exactly at address a, where base is the address of
the first block of the list (find_next arithmetic: each block starts
size-of-predecessor bytes after its predecessor). -/
def blkAt : List Blk → Nat → Nat → Option Blk
  | [], _, _ => none
  | b :: t, base, a => if a = base then some b else blkAt t (base + b.size) a

/-- Zipper onto the block starting at address a: the blocks before it
(nearest first), the block itself, and the blocks after it. -/
def zipTo : List Blk → Nat → Nat → Option (List Blk × Blk × List Blk)
  | [], _, _ => none
  | b :: t, base, a =>
    if a = base then some ([], b, t)
    else (zipTo t (base + b.size) a).map fun w => (w.1 ++ [b], w.2.1, w.2.2)

/-- Reassemble a zipper (pre nearest-first, block, post) into a block list. -/
def recombine (pre : List Blk) (b : Blk) (post : List Blk) : List Blk :=
  pre.reverse ++ b :: post

/-- Two heap-adjacent blocks respect the no-adjacent-free invariant when at
least one of them is allocated. -/
def okB (x y : Blk) : Bool := x.alloc || y.alloc

/-- Invariant I3 of the spec: no two adjacent blocks are both free. -/
def noAdjFreeB : List Blk → Bool
  | [] => true
  | [_] => true
  | x :: y :: t => okB x y && noAdjFreeB (y :: t)

/-- A fused free block of the given total size; ov is the variant's payload
overhead (header words plus footer word), fixing the payload length.
coalesce never touches payload bytes; the scratch content is zeroes. -/
def mergedFree (ov sz : Nat) : Blk :=
  { size := sz, alloc := false, bytes := List.replicate (sz - ov) 0 }

/-- Shape of coalesce, shared by both variants (mm-segregated.c 364-409,
mm-baseline.c 303-336): examine the allocation bits of the previous and the
next block and fuse with the free neighbour(s); the result is the zipper of
the coalesced block.  The fall-through arms (a neighbour reported free
although the list is empty) are unreachable because headAlloc returns true
on the empty list. -/
def coalesce_blocks (ov : Nat) (pre : List Blk) (b : Blk) (post : List Blk) :
    List Blk × Blk × List Blk :=
  let prev_alloc := headAlloc pre
  let next_alloc := headAlloc post
  if prev_alloc && next_alloc then (pre, b, post)
  else if prev_alloc && !next_alloc then
    match post with
    | n :: post2 => (pre, mergedFree ov (b.size + n.size), post2)
    | [] => (pre, b, post)
  else if !prev_alloc && next_alloc then
    match pre with
    | p :: pre2 => (pre2, mergedFree ov (p.size + b.size), post)
    | [] => (pre, b, post)
  else
    match pre, post with
    | p :: pre2, n :: post2 => (pre2, mergedFree ov (b.size + n.size + p.size), post2)
    | _, _ => (pre, b, post)

/-- round_up (both variants): round size up to the next multiple of n.
The C computes in size_t, so the addition size + (n - 1) wraps mod 2^64;
the quotient is then below 2^64 / n, so the final product cannot wrap. -/
def round_up (size n : Nat) : Nat := n * ((size + (n - 1)) % 2 ^ 64 / n)

/-- Payload pointer of an operation result (none when the operation
crashed; some none is a NULL return). -/
def retPtr {α : Type} (r : Option (α × Option Nat)) : Option (Option Nat) :=
  r.map fun x => x.2

namespace Seg

/-- Word and header size in bytes (sizeof(uint32_t)). -/
def wsize : Nat := 4

/-- Double word size. -/
def dsize : Nat := 2 * wsize

/-- Triple word size: header word + padding word + footer word. -/
def tsize : Nat := 3 * wsize

/-- sizeof(char *). -/
def ptr_size : Nat := 8

/-- Number of size classes. -/
def size_class_cnt : Nat := 16

/-- Default heap-extension unit. -/
def chunksize : Nat := 4096

/-- Minimum block size: header + footer + two pointers + padding words. -/
def min_block_size : Nat := 2 * wsize + 2 * ptr_size + 2 * wsize

/-- sizeof(block_t): header word, padding word, pred and succ pointers,
trailing padding word = 28 bytes, rounded up to the 8-byte alignment of the
pointer members. -/
def block_size : Nat := 32

/-- Prologue block size (mm-segregated.c 48). -/
def prologue_size : Nat := min_block_size

/-- Epilogue slot size used by mm_init and extend_heap (mm-segregated.c 52):
a double word, although only one header word is written into it. -/
def epilogue_size : Nat := dsize

/-- Offset of the first real block: after the sixteen class-head slots and
the prologue block. -/
def heap_base : Nat := size_class_cnt * block_size + prologue_size

/-- Fuel-indexed form of the do-while loop of get_highest_1bit_idx
(mm-segregated.c 684-692): shift right and count until the value reaches
zero.  The fuel only bounds the recursion; calls keep fuel at least num, so
the fuel-0 arm (then num = 0, and the loop body runs once) is consistent. -/
def ghbiGo : Nat → Nat → Nat
  | _, 0 => 1
  | num, fuel + 1 => if num ≤ 1 then 1 else ghbiGo (num / 2) fuel + 1

/-- get_highest_1bit_idx (mm-segregated.c 684-692): the 1-based index of
the highest set bit of its uint32_t argument (1 for inputs 0 and 1). -/
def get_highest_1bit_idx (num : Nat) : Nat := ghbiGo num num

/-- get_seglist_idx (mm-segregated.c 658-679): the size class of a block
size.  The C passes size (a size_t) to get_highest_1bit_idx, whose uint32_t
parameter truncates it to 32 bits.  The upper-boundary test compares size
with (size_t)(1 << (idx - 1)), modelled as 2 ^ (idx - 1); for idx = 32 the
C shift overflows int and the reference platform's comparison differs from
the model's, but both sides then clamp to class 15, so the final function
values agree at every input. -/
def get_seglist_idx (size : Nat) : Nat :=
  let h0 := get_highest_1bit_idx (size % 2 ^ 32)
  let h := if size = 2 ^ (h0 - 1) then h0 - 1 else h0
  if h ≤ 5 then 0 else if 20 ≤ h then 15 else h - 5

/-- get_asize (mm-segregated.c 633-635): adjusted block size,
max(round_up(size + tsize, dsize), min_block_size) computed in size_t: the
sum size + tsize wraps mod 2^64 (as does the addition inside round_up), so
huge requests can come out as the minimum block size. -/
def get_asize (size : Nat) : Nat :=
  max (round_up ((size + tsize) % 2 ^ 64) dsize) min_block_size

/-- The sixteen per-class free lists, each in succ-order from its head. -/
abbrev Seglist := List (List Nat)

/-- insert_free_block (mm-segregated.c 607-620) at the list level: LIFO,
push the block's address at the front of the class list chosen by its
size. -/
def insertAddr (sl : Seglist) (a sz : Nat) : Seglist :=
  let idx := get_seglist_idx sz
  sl.set idx (a :: sl.getD idx [])

/-- remove_from_free_list (mm-segregated.c 625-628) at the list level:
splice the address out of whichever class list holds it. -/
def eraseAddr (sl : Seglist) (a : Nat) : Seglist := sl.map fun l => l.erase a

/-- Allocator state: the heap blocks between prologue and epilogue, the
class lists, the bytes the backing region can still provide, and whether
heap_listp/seglist have been set up. -/
structure State where
  blocks : List Blk
  seglist : Seglist
  budget : Nat
  initialized : Bool
  deriving DecidableEq

/-- coalesce (mm-segregated.c 364-409): fuse the free block b at address a
with its free neighbours, maintaining the free lists: fused neighbours are
spliced out and the result block is inserted into the class of its new
size.  pre and post are the blocks before (nearest first) and after b.
Returns the updated lists, the zipper of the result block, and its
address. -/
def coalesce (sl : Seglist) (a : Nat) (pre : List Blk) (b : Blk) (post : List Blk) :
    Seglist × (List Blk × Blk × List Blk) × Nat :=
  let prev_alloc := headAlloc pre
  let next_alloc := headAlloc post
  let trip := coalesce_blocks tsize pre b post
  let sl2 :=
    if prev_alloc && next_alloc then sl
    else if prev_alloc && !next_alloc then eraseAddr sl (a + b.size)
    else if !prev_alloc && next_alloc then eraseAddr sl (a - prevSize pre)
    else eraseAddr (eraseAddr sl (a - prevSize pre)) (a + b.size)
  let a2 := if prev_alloc then a else a - prevSize pre
  (insertAddr sl2 a2 trip.2.1.size, trip, a2)

/-- free (mm-segregated.c 260-273): recover the block from the payload
pointer (payload sits dsize bytes into the block), clear the allocation
bit, coalesce.  NULL is a no-op.  An invalid pointer is undefined
behaviour in the source; the model leaves the state unchanged. -/
def free (s : State) (p : Option Nat) : State :=
  match p with
  | none => s
  | some pp =>
    match zipTo s.blocks heap_base (pp - dsize) with
    | none => s
    | some (pre, b, post) =>
      let b2 : Blk := { size := b.size, alloc := false,
                        bytes := List.replicate (b.size - tsize) 0 }
      match coalesce s.seglist (pp - dsize) pre b2 post with
      | (sl2, (pre2, b3, post2), _) =>
        { s with blocks := recombine pre2 b3 post2, seglist := sl2 }

/-- split_block (mm-segregated.c 644-653): shrink the block at a to asize
(allocated), turn the remainder into a free block and insert it into its
class list.  The allocated part keeps its first asize - tsize payload bytes
(its new footer lands right after them); the remainder's payload is
scratch. -/
def split_block (s : State) (a asize : Nat) : State :=
  match zipTo s.blocks heap_base a with
  | none => s
  | some (pre, b, post) =>
    let b1 : Blk := { size := asize, alloc := true, bytes := b.bytes.take (asize - tsize) }
    let b2 : Blk := { size := b.size - asize, alloc := false,
                      bytes := List.replicate (b.size - asize - tsize) 0 }
    { s with blocks := recombine pre b1 (b2 :: post),
             seglist := insertAddr s.seglist (a + asize) (b.size - asize) }

/-- place (mm-segregated.c 419-430): take the block at a off its free list;
split when the remainder reaches min_block_size, else allocate it whole. -/
def place (s : State) (a asize : Nat) : State :=
  let s1 : State := { s with seglist := eraseAddr s.seglist a }
  match zipTo s1.blocks heap_base a with
  | none => s1
  | some (pre, b, post) =>
    if min_block_size ≤ b.size - asize then split_block s1 a asize
    else { s1 with blocks := recombine pre { b with alloc := true } post }

/-- Inner loop of find_fit: walk one class list in succ-order, return the
first member whose size fits.  (Listed addresses always name blocks in a
well-formed state; a dangling address is skipped to keep the model
total.) -/
def findInBucket (blocks : List Blk) (asize : Nat) : List Nat → Option Nat
  | [] => none
  | a :: t =>
    match blkAt blocks heap_base a with
    | some b => if asize ≤ b.size then some a else findInBucket blocks asize t
    | none => findInBucket blocks asize t

/-- Outer loop of find_fit: escalate through the remaining class lists. -/
def find_fit_go (blocks : List Blk) (asize : Nat) : List (List Nat) → Option Nat
  | [] => none
  | l :: rest =>
    match findInBucket blocks asize l with
    | some a => some a
    | none => find_fit_go blocks asize rest

/-- find_fit (mm-segregated.c 436-458): first fit over the class lists,
from the class of asize upward. -/
def find_fit (s : State) (asize : Nat) : Option Nat :=
  find_fit_go s.blocks asize (s.seglist.drop (get_seglist_idx asize))

/-- extend_heap (mm-segregated.c 334-354): mem_sbrk the rounded size
(failure yields none), reuse the old epilogue slot as the header of a new
free block starting where the epilogue stood, write a fresh epilogue after
it, and coalesce with the previous block.  Returns the new state and the
address of the coalesced block. -/
def extend_heap (s : State) (size : Nat) : Option (State × Nat) :=
  let sz := round_up size dsize
  if sz ≤ s.budget then
    let a := heap_base + totalSize s.blocks
    let b : Blk := { size := sz, alloc := false, bytes := List.replicate (sz - tsize) 0 }
    match coalesce s.seglist a s.blocks.reverse b [] with
    | (sl2, (pre2, b2, post2), a2) =>
      some ({ s with
                blocks := recombine pre2 b2 post2
                seglist := sl2
                budget := s.budget - sz }, a2)
  else none

/-- The byte count mm_init requests from the backing region for the class
heads, the prologue block and the epilogue slot (mm-segregated.c 160). -/
def init_request : Nat := size_class_cnt * block_size + prologue_size + epilogue_size

/-- mm_init (mm-segregated.c 158-197): request room for the sixteen
class-head slots, the prologue block and the epilogue slot; set up the
(empty) circular class lists and the sentinels; then extend by chunksize.
Returns the state and whether init reported success.  heap_listp and
seglist are set before the extension, so a failed extension still leaves
the allocator marked initialized (while mm_init returns -1). -/
def mm_init (budget : Nat) : State × Bool :=
  let req := init_request
  if req ≤ budget then
    let s1 : State := { blocks := [], seglist := List.replicate 16 [],
                        budget := budget - req, initialized := true }
    match extend_heap s1 chunksize with
    | some (s2, _) => (s2, true)
    | none => (s1, false)
  else ({ blocks := [], seglist := [], budget := budget, initialized := false }, false)

/-- malloc (mm-segregated.c 212-252).  The outer none is the crash the
source runs into when initialization failed outright: malloc ignores
mm_init's return value, and find_fit then dereferences the NULL seglist.
An inner none is a NULL return.  On a fit miss the heap is extended by
max(asize, chunksize) and the block placed there. -/
def malloc (s : State) (size : Nat) : Option (State × Option Nat) :=
  if size = 0 then some (s, none)
  else
    let s1 := if s.initialized then s else (mm_init s.budget).1
    if s1.initialized then
      let asize := get_asize size
      match find_fit s1 asize with
      | some a => some (place s1 a asize, some (a + dsize))
      | none =>
        match extend_heap s1 (max asize chunksize) with
        | none => some (s1, none)
        | some (s2, a) => some (place s2 a asize, some (a + dsize))
    else none

/-- Overwrite the payload bytes of the block at address a (memcpy/memset
target arithmetic), with no bounds discipline. -/
def setBytes (s : State) (a : Nat) (f : List Nat → List Nat) : State :=
  match zipTo s.blocks heap_base a with
  | none => s
  | some (pre, b, post) =>
    { s with blocks := recombine pre { b with bytes := f b.bytes } post }

/-- A memcpy/memset into the block at address a.  A write that does not
stay within the block's payload extent (or a write through a wild pointer)
runs off the block into neighbouring metadata or unmapped memory: undefined
behaviour in the source, modelled as the distinguished crash outcome. -/
def setPayload (s : State) (a : Nat) (f : List Nat → List Nat) : Option State :=
  match zipTo s.blocks heap_base a with
  | none => none
  | some (_, b, _) =>
    if (f b.bytes).length = b.bytes.length then some (setBytes s a f) else none

/-- realloc (mm-segregated.c 278-312): free on size 0; malloc on a NULL
pointer; when the current block already holds the adjusted size, shrink in
place (splitting off the tail once it reaches min_block_size - the
remainder is inserted into a free list without coalescing); otherwise
malloc a new block, memcpy the whole old payload (get_payload_size bytes),
free the old block. -/
def realloc (s : State) (p : Option Nat) (size : Nat) : Option (State × Option Nat) :=
  if size = 0 then some (free s p, none)
  else
    match p with
    | none => malloc s size
    | some pp =>
      match blkAt s.blocks heap_base (pp - dsize) with
      | none => none
      | some old =>
        let asize := get_asize size
        if asize ≤ old.size then
          if min_block_size ≤ old.size - asize then
            some (split_block s (pp - dsize) asize, some pp)
          else some (s, some pp)
        else
          match malloc s size with
          | none => none
          | some (s1, none) => some (s1, none)
          | some (s1, some np) =>
            match blkAt s1.blocks heap_base (pp - dsize) with
            | none => none
            | some ob =>
              let cop := ob.size - tsize
              match setPayload s1 (np - dsize) fun bs => ob.bytes.take cop ++ bs.drop cop with
              | none => none
              | some s2 => some (free s2 (some pp), some np)

/-- calloc (mm-segregated.c 317-324): bytes = nmemb * size with size_t
wraparound and no overflow check; malloc those bytes; memset the first
bytes bytes of the payload to zero on success. -/
def calloc (s : State) (nmemb size : Nat) : Option (State × Option Nat) :=
  let bytes := nmemb * size % 2 ^ 64
  match malloc s bytes with
  | none => none
  | some (s1, none) => some (s1, none)
  | some (s1, some np) =>
    match setPayload s1 (np - dsize)
        (fun bs => List.replicate bytes 0 ++ bs.drop bytes) with
    | none => none
    | some s2 => some (s2, some np)

/-- The pred and succ fields of every list node (class heads and free
blocks), indexed by node address: the raw memory the circular-list splices
of mm-segregated.c write through. -/
structure Links where
  pred : Nat → Nat
  succ : Nat → Nat

/-- insert_free_block (mm-segregated.c 607-620), statement by statement:
heads idx is the address of the class-idx head, sz the stored size of the
inserted block b.  Lines in order: bp.pred = head; bp.succ = head.succ;
bp.pred.succ = bp; bp.succ.pred = bp. -/
def insert_free_block (heads : Nat → Nat) (L : Links) (sz b : Nat) : Links :=
  let idx := get_seglist_idx sz
  let L1 : Links := { L with pred := Function.update L.pred b (heads idx) }
  let L2 : Links := { L1 with succ := Function.update L1.succ b (L1.succ (heads idx)) }
  let L3 : Links := { L2 with succ := Function.update L2.succ (L2.pred b) b }
  let L4 : Links := { L3 with pred := Function.update L3.pred (L3.succ b) b }
  L4

/-- remove_from_free_list (mm-segregated.c 625-628), statement by
statement: bp.pred.succ = bp.succ; bp.succ.pred = bp.pred. -/
def remove_from_free_list (L : Links) (b : Nat) : Links :=
  let L1 : Links := { L with succ := Function.update L.succ (L.pred b) (L.succ b) }
  let L2 : Links := { L1 with pred := Function.update L1.pred (L1.succ b) (L1.pred b) }
  L2

/-- Every block size is a multiple of 8 and at least minsz. -/
def sizesOkB (minsz : Nat) (bs : List Blk) : Bool :=
  bs.all fun b => b.size % 8 == 0 && decide (minsz ≤ b.size)

/-- Payload byte bookkeeping matches the block sizes (ov bytes of block
overhead). -/
def bytesLenOkB (ov : Nat) (bs : List Blk) : Bool :=
  bs.all fun b => b.bytes.length == b.size - ov

/-- Address a, listed in class i, names a free block of matching class. -/
def listedEntryOkB (blocks : List Blk) (i a : Nat) : Bool :=
  match blkAt blocks heap_base a with
  | some b => !b.alloc && get_seglist_idx b.size == i
  | none => false

/-- Well-formed segregated allocator state: initialized, sixteen class
lists, every listed address names a free block of the matching class and
appears at most once (the doubly-linked lists thread each free block
through exactly one node), block sizes are 8-multiples of at least
min_block_size, payload byte bookkeeping matches the sizes, and the heap
footprint plus the remaining backing region stay below 2^31 bytes
(memlib's region is far smaller, which keeps every size representable in
a 32-bit header). -/
def WF (s : State) : Prop :=
  s.initialized = true ∧
  s.seglist.length = 16 ∧
  sizesOkB min_block_size s.blocks = true ∧
  bytesLenOkB tsize s.blocks = true ∧
  totalSize s.blocks + s.budget ≤ 2 ^ 31 ∧
  (∀ i < s.seglist.length, ∀ a ∈ s.seglist.getD i [], listedEntryOkB s.blocks i a = true) ∧
  ∀ i < s.seglist.length, (s.seglist.getD i []).Nodup

end Seg

namespace Impl

/-- Word and header size in bytes. -/
def wsize : Nat := 4

/-- Double word size. -/
def dsize : Nat := 2 * wsize

/-- Minimum block size (mm-baseline.c 44). -/
def min_block_size : Nat := 2 * dsize

/-- Default heap-extension unit. -/
def chunksize : Nat := 4096

/-- Offset of the first real block: alignment padding word, prologue header
word, prologue footer word. -/
def heap_base : Nat := 12

/-- Allocator state of the implicit variant: heap blocks, remaining backing
region, and whether heap_listp has been set. -/
structure State where
  blocks : List Blk
  budget : Nat
  initialized : Bool
  deriving DecidableEq

/-- coalesce (mm-baseline.c 303-336): pure boundary-tag fusion, no list
bookkeeping; the payload overhead of this variant is dsize. -/
def coalesce (pre : List Blk) (b : Blk) (post : List Blk) :
    List Blk × Blk × List Blk :=
  coalesce_blocks dsize pre b post

/-- free (mm-baseline.c 185-198): payload sits wsize bytes into the block;
clear the allocation bit, coalesce.  NULL is a no-op. -/
def free (s : State) (p : Option Nat) : State :=
  match p with
  | none => s
  | some pp =>
    match zipTo s.blocks heap_base (pp - wsize) with
    | none => s
    | some (pre, b, post) =>
      let b2 : Blk := { size := b.size, alloc := false,
                        bytes := List.replicate (b.size - dsize) 0 }
      match coalesce pre b2 post with
      | (pre2, b3, post2) => { s with blocks := recombine pre2 b3 post2 }

/-- place (mm-baseline.c 343-358): split when the remainder reaches
min_block_size, else allocate the block whole. -/
def place (s : State) (a asize : Nat) : State :=
  match zipTo s.blocks heap_base a with
  | none => s
  | some (pre, b, post) =>
    if min_block_size ≤ b.size - asize then
      let b1 : Blk := { size := asize, alloc := true, bytes := b.bytes.take (asize - dsize) }
      let b2 : Blk := { size := b.size - asize, alloc := false,
                        bytes := List.replicate (b.size - asize - dsize) 0 }
      { s with blocks := recombine pre b1 (b2 :: post) }
    else { s with blocks := recombine pre { b with alloc := true } post }

/-- Scan loop of find_fit (mm-baseline.c 364-373): first free block, in
address order, whose size fits.  (The source starts its scan at the
prologue, which is allocated and hence stepped over.) -/
def find_fit_go (asize : Nat) : List Blk → Nat → Option Nat
  | [], _ => none
  | b :: t, base =>
    if !b.alloc && decide (asize ≤ b.size) then some base
    else find_fit_go asize t (base + b.size)

/-- find_fit (mm-baseline.c 364-373). -/
def find_fit (s : State) (asize : Nat) : Option Nat :=
  find_fit_go asize s.blocks heap_base

/-- extend_heap (mm-baseline.c 275-296): mem_sbrk the rounded size, turn
the old epilogue into the header of a new free block, write a fresh
epilogue, coalesce with the previous block. -/
def extend_heap (s : State) (size : Nat) : Option (State × Nat) :=
  let sz := round_up size dsize
  if sz ≤ s.budget then
    let a := heap_base + totalSize s.blocks
    let b : Blk := { size := sz, alloc := false, bytes := List.replicate (sz - dsize) 0 }
    let a2 := if headAlloc s.blocks.reverse then a else a - prevSize s.blocks.reverse
    match coalesce s.blocks.reverse b [] with
    | (pre2, b2, post2) =>
      some ({ s with blocks := recombine pre2 b2 post2, budget := s.budget - sz }, a2)
  else none

/-- mm_init (mm-baseline.c 106-125): request 4 words for padding, prologue
header and footer, and epilogue header; then extend by chunksize.
heap_listp is set before the extension. -/
def mm_init (budget : Nat) : State × Bool :=
  if 4 * wsize ≤ budget then
    let s1 : State := { blocks := [], budget := budget - 4 * wsize, initialized := true }
    match extend_heap s1 chunksize with
    | some (s2, _) => (s2, true)
    | none => (s1, false)
  else ({ blocks := [], budget := budget, initialized := false }, false)

/-- malloc (mm-baseline.c 138-179).  asize = round_up(size, dsize) + dsize.
The outer none is the crash when initialization failed outright (malloc
ignores mm_init's result and find_fit reads through the NULL heap_listp). -/
def malloc (s : State) (size : Nat) : Option (State × Option Nat) :=
  if size = 0 then some (s, none)
  else
    let s1 := if s.initialized then s else (mm_init s.budget).1
    if s1.initialized then
      let asize := (round_up size dsize + dsize) % 2 ^ 64
      match find_fit s1 asize with
      | some a => some (place s1 a asize, some (a + wsize))
      | none =>
        match extend_heap s1 (max asize chunksize) with
        | none => some (s1, none)
        | some (s2, a) => some (place s2 a asize, some (a + wsize))
    else none

/-- Overwrite the payload bytes of the block at address a, with no bounds
discipline. -/
def setBytes (s : State) (a : Nat) (f : List Nat → List Nat) : State :=
  match zipTo s.blocks heap_base a with
  | none => s
  | some (pre, b, post) =>
    { s with blocks := recombine pre { b with bytes := f b.bytes } post }

/-- A memcpy/memset into the block at address a; a write beyond the
payload extent (or through a wild pointer) is undefined behaviour,
modelled as the crash outcome. -/
def setPayload (s : State) (a : Nat) (f : List Nat → List Nat) : Option State :=
  match zipTo s.blocks heap_base a with
  | none => none
  | some (_, b, _) =>
    if (f b.bytes).length = b.bytes.length then some (setBytes s a f) else none

/-- realloc (mm-baseline.c 208-242): free on size 0, malloc on NULL;
otherwise malloc a new block (on failure return NULL with the original
untouched), copy min(old payload size, size) bytes, free the old block. -/
def realloc (s : State) (p : Option Nat) (size : Nat) : Option (State × Option Nat) :=
  if size = 0 then some (free s p, none)
  else
    match p with
    | none => malloc s size
    | some pp =>
      match malloc s size with
      | none => none
      | some (s1, none) => some (s1, none)
      | some (s1, some np) =>
        match blkAt s1.blocks heap_base (pp - wsize) with
        | none => none
        | some ob =>
          let cop := min (ob.size - dsize) size
          match setPayload s1 (np - wsize) fun bs => ob.bytes.take cop ++ bs.drop cop with
          | none => none
          | some s2 => some (free s2 (some pp), some np)

/-- calloc (mm-baseline.c 249-265): asize = nmemb * size with size_t
wraparound; return NULL when asize / nmemb differs from size (the overflow
test; for nmemb = 0 the C division is undefined and no claim reaches it);
else malloc and zero asize bytes. -/
def calloc (s : State) (nmemb size : Nat) : Option (State × Option Nat) :=
  let asize := nmemb * size % 2 ^ 64
  if asize / nmemb ≠ size then some (s, none)
  else
    match malloc s asize with
    | none => none
    | some (s1, none) => some (s1, none)
    | some (s1, some np) =>
      match setPayload s1 (np - wsize)
          (fun bs => List.replicate asize 0 ++ bs.drop asize) with
      | none => none
      | some s2 => some (s2, some np)

/-- Well-formed implicit-variant state. -/
def WF (s : State) : Prop :=
  s.initialized = true ∧
  Seg.sizesOkB min_block_size s.blocks = true ∧
  Seg.bytesLenOkB dsize s.blocks = true ∧
  totalSize s.blocks + s.budget ≤ 2 ^ 31

end Impl

/-- A freshly initialized segregated heap over a 100000-byte backing
region. -/
def seg0 : Seg.State := (Seg.mm_init 100000).1

/-- A freshly initialized implicit heap over a 100000-byte backing
region. -/
def impl0 : Impl.State := (Impl.mm_init 100000).1

/-- The segregated heap after a first malloc of 21 bytes (whose payload
lands at offset 552). -/
def segS : Seg.State := ((Seg.malloc seg0 21).getD (seg0, none)).1

/-- The implicit heap after a first malloc of 21 bytes (whose payload
lands at offset 16). -/
def implS : Impl.State := ((Impl.malloc impl0 21).getD (impl0, none)).1

/-- The segregated heap after a first malloc of 52 bytes: one allocated
64-byte block (52 payload bytes) followed by the free remainder. -/
def segC : Seg.State := ((Seg.malloc seg0 52).getD (seg0, none)).1

/-! Helper lemmas on the bit-index arithmetic of the segregated variant. -/

theorem ghbiGo_one_le (num fuel : Nat) : 1 ≤ Seg.ghbiGo num fuel := by
  cases fuel with
  | zero => simp [Seg.ghbiGo]
  | succ f =>
    simp only [Seg.ghbiGo]
    split
    · exact le_rfl
    · omega

theorem ghbiGo_bounds (fuel : Nat) : ∀ num, num ≤ fuel → 1 ≤ num →
    2 ^ (Seg.ghbiGo num fuel - 1) ≤ num ∧ num < 2 ^ Seg.ghbiGo num fuel := by
  induction fuel with
  | zero => intro num h h1; omega
  | succ f ih =>
    intro num hle h1
    by_cases hsmall : num ≤ 1
    · have hn : num = 1 := by omega
      subst hn
      simp [Seg.ghbiGo]
    · have hrec : Seg.ghbiGo num (f + 1) = Seg.ghbiGo (num / 2) f + 1 := by
        simp [Seg.ghbiGo, hsmall]
      have hhalf : 1 ≤ num / 2 := by omega
      have hfu : num / 2 ≤ f := by omega
      obtain ⟨ihl, ihr⟩ := ih (num / 2) hfu hhalf
      have hg1 : 1 ≤ Seg.ghbiGo (num / 2) f := ghbiGo_one_le _ _
      rw [hrec]
      have e1 : 2 ^ Seg.ghbiGo (num / 2) f = 2 ^ (Seg.ghbiGo (num / 2) f - 1) * 2 := by
        rw [← pow_succ]
        congr 1
        omega
      have e2 : 2 ^ (Seg.ghbiGo (num / 2) f + 1) = 2 ^ Seg.ghbiGo (num / 2) f * 2 :=
        pow_succ 2 _
      constructor
      · simp only [Nat.add_sub_cancel]
        omega
      · omega

theorem get_highest_1bit_idx_bounds (num : Nat) (h : 1 ≤ num) :
    2 ^ (Seg.get_highest_1bit_idx num - 1) ≤ num ∧
    num < 2 ^ Seg.get_highest_1bit_idx num :=
  ghbiGo_bounds num num le_rfl h

theorem get_highest_1bit_idx_one_le (num : Nat) : 1 ≤ Seg.get_highest_1bit_idx num :=
  ghbiGo_one_le num num

/-- The clamped class formula applied to any exponent h bracketing s the way
get_seglist_idx computes it. -/
theorem seg_idx_formula (s h : Nat) (h1 : 1 ≤ s) (hup : s ≤ 2 ^ h)
    (hlow : h = 0 ∨ 2 ^ (h - 1) < s) :
    ((if h ≤ 5 then 0 else if 20 ≤ h then 15 else h - 5) = 0 ↔ s ≤ 32) ∧
    (∀ i, 1 ≤ i → i ≤ 14 → 2 ^ (i + 4) < s → s ≤ 2 ^ (i + 5) →
      (if h ≤ 5 then 0 else if 20 ≤ h then 15 else h - 5) = i) ∧
    ((if h ≤ 5 then 0 else if 20 ≤ h then 15 else h - 5) = 15 ↔ 2 ^ 19 < s) ∧
    (if h ≤ 5 then 0 else if 20 ≤ h then 15 else h - 5) ≤ 15 := by
  have hh5 : h ≤ 5 → s ≤ 32 := by
    intro hh
    calc s ≤ 2 ^ h := hup
    _ ≤ 2 ^ 5 := Nat.pow_le_pow_right (by norm_num) hh
    _ = 32 := by norm_num
  have hh5r : s ≤ 32 → h ≤ 5 := by
    intro hs
    rcases hlow with h0 | hlow
    · omega
    · by_contra hcon
      have h6 : 6 ≤ h := by omega
      have : (32 : Nat) ≤ 2 ^ (h - 1) := by
        calc (32 : Nat) = 2 ^ 5 := by norm_num
        _ ≤ 2 ^ (h - 1) := Nat.pow_le_pow_right (by norm_num) (by omega)
      omega
  refine ⟨?_, ?_, ?_, ?_⟩
  · constructor
    · intro hz
      by_cases hh : h ≤ 5
      · exact hh5 hh
      · simp only [if_neg hh] at hz
        split at hz <;> omega
    · intro hs
      simp [hh5r hs]
  · intro i hi1 hi14 hsl hsu
    have hgt32 : 32 < s := by
      have : (32 : Nat) ≤ 2 ^ (i + 4) := by
        calc (32 : Nat) = 2 ^ 5 := by norm_num
        _ ≤ 2 ^ (i + 4) := Nat.pow_le_pow_right (by norm_num) (by omega)
      omega
    have hh6 : ¬ h ≤ 5 := fun hh => by have := hh5 hh; omega
    have hne : h ≠ 0 := by omega
    have hlow2 : 2 ^ (h - 1) < s := by tauto
    -- uniqueness of the bracketing exponent
    have heq : h = i + 5 := by
      by_contra hcon
      rcases Nat.lt_or_ge h (i + 5) with hlt | hge
      · have : 2 ^ h ≤ 2 ^ (i + 4) := Nat.pow_le_pow_right (by norm_num) (by omega)
        omega
      · have hgt : i + 5 < h := by omega
        have : 2 ^ (i + 5) ≤ 2 ^ (h - 1) := Nat.pow_le_pow_right (by norm_num) (by omega)
        omega
    have h20 : ¬ 20 ≤ h := by omega
    simp [hh6, h20]
    omega
  · constructor
    · intro h15
      by_cases hh : h ≤ 5
      · simp [hh] at h15
      · simp only [if_neg hh] at h15
        by_cases h20 : 20 ≤ h
        · have : 2 ^ 19 ≤ 2 ^ (h - 1) := Nat.pow_le_pow_right (by norm_num) (by omega)
          have hlow2 : 2 ^ (h - 1) < s := by
            rcases hlow with h0 | hl
            · omega
            · exact hl
          omega
        · simp only [if_neg h20] at h15
          omega
    · intro hs
      have hh : ¬ h ≤ 5 := by
        intro hh
        have := hh5 hh
        omega
      have h20 : 20 ≤ h := by
        by_contra hcon
        have hle19 : h ≤ 19 := by omega
        have : 2 ^ h ≤ 2 ^ 19 := Nat.pow_le_pow_right (by norm_num) hle19
        omega
      simp [hh, h20]
  · split
    · omega
    · split <;> omega

/-- The two bracketing facts get_seglist_idx establishes about its adjusted
exponent h, for arguments below 2^32 (no truncation). -/
theorem get_seglist_idx_eq (s : Nat) (h1 : 1 ≤ s) (h2 : s < 2 ^ 32) :
    ∃ h, Seg.get_seglist_idx s = (if h ≤ 5 then 0 else if 20 ≤ h then 15 else h - 5) ∧
      s ≤ 2 ^ h ∧ (h = 0 ∨ 2 ^ (h - 1) < s) := by
  have hmod : s % 2 ^ 32 = s := Nat.mod_eq_of_lt h2
  obtain ⟨hl, hr⟩ := get_highest_1bit_idx_bounds s h1
  have h01 : 1 ≤ Seg.get_highest_1bit_idx s := get_highest_1bit_idx_one_le s
  by_cases hpow : s = 2 ^ (Seg.get_highest_1bit_idx s - 1)
  · refine ⟨Seg.get_highest_1bit_idx s - 1, ?_, ?_, ?_⟩
    · simp only [Seg.get_seglist_idx, hmod]
      rw [if_pos hpow]
    · omega
    · by_cases hz : Seg.get_highest_1bit_idx s - 1 = 0
      · exact Or.inl hz
      · refine Or.inr ?_
        have : 2 ^ (Seg.get_highest_1bit_idx s - 1 - 1) < 2 ^ (Seg.get_highest_1bit_idx s - 1) :=
          Nat.pow_lt_pow_right (by norm_num) (by omega)
        omega
  · refine ⟨Seg.get_highest_1bit_idx s, ?_, by omega, Or.inr (by omega)⟩
    simp only [Seg.get_seglist_idx, hmod]
    rw [if_neg hpow]

/-- C5 counterexample: the claim demands that get_seglist_idx return 15 for
every size above 2^19, but the function truncates its size_t argument to
the uint32_t parameter of get_highest_1bit_idx, and at s = 2^32 (which
exceeds 2^19) it returns class 0. -/
theorem C5_counterexample :
    Seg.get_seglist_idx (2 ^ 32) = 0 ∧ 2 ^ 19 < 2 ^ 32 := by decide

/-- C5 (corrected: the characterisation holds for 0 < s < 2^32; larger
sizes are truncated mod 2^32 by the uint32_t parameter).  get_seglist_idx
returns 0 exactly for s ≤ 32, returns i for s in the half-open interval
(2^(i+4), 2^(i+5)] when 1 ≤ i ≤ 14 (so each exact power of two lands in
the lower class), returns 15 exactly when 2^19 < s, and the result always
lies in [0, 15]. -/
theorem C5_get_seglist_idx_classes (s : Nat) (h1 : 1 ≤ s) (h2 : s < 2 ^ 32) :
    (Seg.get_seglist_idx s = 0 ↔ s ≤ 32) ∧
    (∀ i, 1 ≤ i → i ≤ 14 → 2 ^ (i + 4) < s → s ≤ 2 ^ (i + 5) →
      Seg.get_seglist_idx s = i) ∧
    (Seg.get_seglist_idx s = 15 ↔ 2 ^ 19 < s) ∧
    Seg.get_seglist_idx s ≤ 15 := by
  obtain ⟨h, hval, hup, hlow⟩ := get_seglist_idx_eq s h1 h2
  rw [hval]
  exact seg_idx_formula s h h1 hup hlow

/-- C5 witness: 40 lies in (2^5, 2^6], hence class 1, and 2^19 = 524288 is
an exact power of two, hence class 14. -/
theorem C5_witness :
    Seg.get_seglist_idx 40 = 1 ∧ Seg.get_seglist_idx 524288 = 14 ∧
    Seg.get_seglist_idx 524289 = 15 := by
  refine ⟨?_, ?_, ?_⟩
  · exact (C5_get_seglist_idx_classes 40 (by norm_num) (by norm_num)).2.1 1
      (by norm_num) (by norm_num) (by norm_num) (by norm_num)
  · exact (C5_get_seglist_idx_classes 524288 (by norm_num) (by norm_num)).2.1 14
      (by norm_num) (by norm_num) (by norm_num) (by norm_num)
  · exact (C5_get_seglist_idx_classes 524289 (by norm_num) (by norm_num)).2.2.1.2
      (by norm_num)

/-- C6 counterexample: mm_init's request differs from the claimed
16 * sizeof(block) + min_block_size + 4 bytes. -/
theorem C6_counterexample :
    Seg.init_request ≠ Seg.size_class_cnt * Seg.block_size + Seg.min_block_size + 4 := by
  decide

/-- C6 (corrected: the request adds epilogue_size = dsize = 8 bytes for the
epilogue slot, not 4): mm_init requests exactly 16 * sizeof(block) +
min_block_size + 8 = 552 bytes, and that bound is sharp - with only 551
bytes available the bootstrap sbrk fails and the allocator stays
uninitialized, while 552 bytes let it through (the subsequent chunksize
extension then fails, which mm_init reports while leaving heap_listp
set). -/
theorem C6_init_request_bytes :
    Seg.init_request = Seg.size_class_cnt * Seg.block_size + Seg.min_block_size + 8 ∧
    Seg.init_request = 552 ∧
    (Seg.mm_init 551).1.initialized = false ∧
    (Seg.mm_init 552).1.initialized = true := by decide

/-- C9 (confirmed): on a well-formed circular list state - the head's
successor points back to the head, and the inserted block b is not a head
and not on any list (in particular distinct from the head and its
successor in b's class) - insert_free_block followed by
remove_from_free_list restores the pred and succ fields of every node
other than b itself, i.e. every size-class list is exactly as before the
insertion. -/
theorem C9_insert_remove_roundtrip (heads : Nat → Nat) (L : Seg.Links) (sz b : Nat)
    (hb1 : b ≠ heads (Seg.get_seglist_idx sz))
    (hb2 : b ≠ L.succ (heads (Seg.get_seglist_idx sz)))
    (hwf : L.pred (L.succ (heads (Seg.get_seglist_idx sz))) =
      heads (Seg.get_seglist_idx sz)) :
    ∀ x, x ≠ b →
      (Seg.remove_from_free_list (Seg.insert_free_block heads L sz b) b).pred x = L.pred x ∧
      (Seg.remove_from_free_list (Seg.insert_free_block heads L sz b) b).succ x = L.succ x := by
  intro x hx
  simp only [Seg.remove_from_free_list, Seg.insert_free_block, Function.update_apply]
  constructor
  · split_ifs <;> simp_all [Function.update_apply]
  · split_ifs <;> simp_all [Function.update_apply]

/-- C9 witness: a concrete instantiation - heads at their own index, all
links initially pointing at node 0, block 5 of size 32 (class 0); after
insert then remove, node 7's links are back to 0. -/
theorem C9_witness :
    (Seg.remove_from_free_list
      (Seg.insert_free_block (fun i => i) ⟨fun _ => 0, fun _ => 0⟩ 32 5) 5).pred 7 = 0 ∧
    (Seg.remove_from_free_list
      (Seg.insert_free_block (fun i => i) ⟨fun _ => 0, fun _ => 0⟩ 32 5) 5).succ 7 = 0 :=
  C9_insert_remove_roundtrip (fun i => i) ⟨fun _ => 0, fun _ => 0⟩ 32 5
    (by decide) (by decide) rfl 7 (by decide)

/-- C1 (code bug): the segregated calloc computes nmemb * size with size_t
wraparound and performs no overflow check; at nmemb = 2^62 + 1, size = 32
the product is 2^67 + 32, which overflows, the wrapped byte count is 32,
and calloc returns the non-NULL payload 552 on a fresh heap.  The implicit
variant's calloc detects the same overflow through its asize / nmemb test
and returns NULL. -/
theorem C1_seg_calloc_overflow_unchecked :
    2 ^ 64 < (2 ^ 62 + 1) * 32 ∧
    (2 ^ 62 + 1) * 32 % 2 ^ 64 = 32 ∧
    retPtr (Seg.calloc seg0 (2 ^ 62 + 1) 32) = some (some 552) ∧
    retPtr (Impl.calloc impl0 (2 ^ 62 + 1) 32) = some none := by
  refine ⟨by norm_num, by norm_num, ?_, ?_⟩ <;> rfl

/-- C8 (code bug): malloc ignores mm_init's return value.  When the
backing region cannot serve even the bootstrap request, mm_init reports
failure and leaves the heap pointer NULL, and malloc - instead of
returning NULL as claimed - goes on to dereference the NULL heap pointer
in find_fit; the model renders that crash as the outer none, distinct from
a NULL return (some none).  Shown for both variants. -/
theorem C8_init_failure_not_propagated :
    (Seg.mm_init 100).2 = false ∧
    Seg.malloc { blocks := [], seglist := [], budget := 100, initialized := false } 1 = none ∧
    (Impl.mm_init 10).2 = false ∧
    Impl.malloc { blocks := [], budget := 10, initialized := false } 1 = none := by
  refine ⟨rfl, rfl, rfl, rfl⟩

/-- C2 counterexample: from a fresh segregated heap, malloc 52 returns
payload 552 (a 64-byte block followed by the free remainder of the first
chunk), and the state satisfies the no-adjacent-free invariant; the
in-place shrink realloc(552, 8) then splits the 64-byte block and inserts
the 32-byte remainder into a free list without coalescing, leaving it
adjacent to the following free block - two adjacent free blocks right
after a public operation returned. -/
theorem C2_counterexample :
    retPtr (Seg.malloc seg0 52) = some (some 552) ∧
    (Seg.malloc seg0 52).map (fun x => noAdjFreeB x.1.blocks) = some true ∧
    ((Seg.malloc seg0 52).bind fun x => Seg.realloc x.1 (some 552) 8).map
      (fun y => (y.2, noAdjFreeB y.1.blocks)) = some (some 552, false) := by
  refine ⟨rfl, rfl, rfl⟩

/-- C3 counterexample: the claim quantifies over every heap state whose
input block is marked free and asserts that the blocks on both sides of
coalesce's result are allocated; with a free block followed by two free
blocks (a state the segregated variant actually reaches through realloc's
uncoalesced shrink), coalesce fuses only the input with its next
neighbour, and the block immediately after the returned block is still
free. -/
theorem C3_counterexample :
    (⟨32, false, List.replicate 20 0⟩ : Blk).alloc = false ∧
    headAlloc (coalesce_blocks 12 [] ⟨32, false, List.replicate 20 0⟩
      [⟨32, false, List.replicate 20 0⟩, ⟨32, false, List.replicate 20 0⟩]).2.2 = false := by
  refine ⟨rfl, rfl⟩

/-- C4 counterexample: block sizes are only 8-aligned (malloc 21 gets the
adjusted block size 40, a multiple of 8 but not of 16), so payload
pointers cannot all be 16-byte aligned: on a fresh segregated heap the
first two mallocs return payloads 552 and 592 (offsets from the 16-aligned
region base at which the spec says alignment is enforced); 552 is 8 mod
16, and since the two payloads differ by 40, no choice of base alignment
could make both of them 16-aligned. -/
theorem C4_counterexample :
    retPtr (Seg.malloc seg0 21) = some (some 552) ∧
    ((Seg.malloc seg0 21).bind fun x => Seg.malloc x.1 1).map (fun y => y.2) =
      some (some 592) ∧
    552 % 16 = 8 ∧ (592 - 552) % 16 ≠ 0 := by
  refine ⟨rfl, rfl, rfl, by decide⟩

/-- Case analysis of the coalesce shape: with the no-adjacent-free
invariant holding on each side of the free input block, the four-case
table holds and both neighbours of the result are allocated. -/
theorem coalesce_cases_core (ov : Nat) (pre post : List Blk) (b : Blk)
    (hb : b.alloc = false)
    (hpre : noAdjFreeB pre = true)
    (hpost : noAdjFreeB post = true) :
    (headAlloc pre = true → headAlloc post = true →
      coalesce_blocks ov pre b post = (pre, b, post)) ∧
    (headAlloc pre = true → headAlloc post = false →
      (coalesce_blocks ov pre b post).1 = pre ∧
      (coalesce_blocks ov pre b post).2.1.size = b.size + prevSize post ∧
      (coalesce_blocks ov pre b post).2.1.alloc = false ∧
      (coalesce_blocks ov pre b post).2.2 = post.tail) ∧
    (headAlloc pre = false → headAlloc post = true →
      (coalesce_blocks ov pre b post).1 = pre.tail ∧
      (coalesce_blocks ov pre b post).2.1.size = prevSize pre + b.size ∧
      (coalesce_blocks ov pre b post).2.1.alloc = false ∧
      (coalesce_blocks ov pre b post).2.2 = post) ∧
    (headAlloc pre = false → headAlloc post = false →
      (coalesce_blocks ov pre b post).1 = pre.tail ∧
      (coalesce_blocks ov pre b post).2.1.size = prevSize pre + b.size + prevSize post ∧
      (coalesce_blocks ov pre b post).2.1.alloc = false ∧
      (coalesce_blocks ov pre b post).2.2 = post.tail) ∧
    headAlloc (coalesce_blocks ov pre b post).1 = true ∧
    headAlloc (coalesce_blocks ov pre b post).2.2 = true := by
  rcases pre with _ | ⟨p, pre2⟩
  · rcases post with _ | ⟨n, post2⟩
    · simp [coalesce_blocks, headAlloc]
    · cases hn : n.alloc
      · rcases post2 with _ | ⟨m, post3⟩ <;>
          simp_all [coalesce_blocks, headAlloc, noAdjFreeB, okB, mergedFree, prevSize]
      · simp_all [coalesce_blocks, headAlloc, mergedFree, prevSize]
  · rcases post with _ | ⟨n, post2⟩
    · cases hp : p.alloc
      · rcases pre2 with _ | ⟨q, pre3⟩ <;>
          simp_all [coalesce_blocks, headAlloc, noAdjFreeB, okB, mergedFree, prevSize]
      · simp_all [coalesce_blocks, headAlloc, mergedFree, prevSize]
    · cases hp : p.alloc
      · cases hn : n.alloc
        · rcases pre2 with _ | ⟨q, pre3⟩ <;> rcases post2 with _ | ⟨m, post3⟩ <;>
            simp_all [coalesce_blocks, headAlloc, noAdjFreeB, okB, mergedFree, prevSize] <;>
            omega
        · rcases pre2 with _ | ⟨q, pre3⟩ <;>
            simp_all [coalesce_blocks, headAlloc, noAdjFreeB, okB, mergedFree, prevSize]
      · cases hn : n.alloc
        · rcases post2 with _ | ⟨m, post3⟩ <;>
            simp_all [coalesce_blocks, headAlloc, noAdjFreeB, okB, mergedFree, prevSize]
        · simp_all [coalesce_blocks, headAlloc, mergedFree, prevSize]

/-- C3 (corrected: the conclusion that both neighbours of the result are
allocated additionally requires the heap to satisfy the no-adjacent-free
invariant away from the input block - the hypotheses noAdjFreeB pre and
noAdjFreeB post - which is exactly the state free and extend_heap hand to
coalesce when the heap is well formed; without it the conclusion fails,
see the counterexample).  For any block b marked free, coalesce (the
boundary-tag shape shared by mm-segregated.c 364-409 and mm-baseline.c
303-336, with sentinels rendering absent neighbours allocated) implements
the four-case table: both neighbours allocated leaves the zipper
untouched; a free next neighbour only yields the input position with the
sizes summed; a free previous neighbour yields the previous block's
position with the sizes of all fused blocks summed; and the blocks
immediately before and after the returned block are allocated. -/
theorem C3_coalesce_cases (ov : Nat) (pre post : List Blk) (b : Blk)
    (hb : b.alloc = false)
    (hpre : noAdjFreeB pre = true)
    (hpost : noAdjFreeB post = true) :
    (headAlloc pre = true → headAlloc post = true →
      coalesce_blocks ov pre b post = (pre, b, post)) ∧
    (headAlloc pre = true → headAlloc post = false →
      (coalesce_blocks ov pre b post).1 = pre ∧
      (coalesce_blocks ov pre b post).2.1.size = b.size + prevSize post ∧
      (coalesce_blocks ov pre b post).2.1.alloc = false ∧
      (coalesce_blocks ov pre b post).2.2 = post.tail) ∧
    (headAlloc pre = false → headAlloc post = true →
      (coalesce_blocks ov pre b post).1 = pre.tail ∧
      (coalesce_blocks ov pre b post).2.1.size = prevSize pre + b.size ∧
      (coalesce_blocks ov pre b post).2.1.alloc = false ∧
      (coalesce_blocks ov pre b post).2.2 = post) ∧
    (headAlloc pre = false → headAlloc post = false →
      (coalesce_blocks ov pre b post).1 = pre.tail ∧
      (coalesce_blocks ov pre b post).2.1.size = prevSize pre + b.size + prevSize post ∧
      (coalesce_blocks ov pre b post).2.1.alloc = false ∧
      (coalesce_blocks ov pre b post).2.2 = post.tail) ∧
    headAlloc (coalesce_blocks ov pre b post).1 = true ∧
    headAlloc (coalesce_blocks ov pre b post).2.2 = true :=
  coalesce_cases_core ov pre post b hb hpre hpost

/-- C3 witness: an allocated 32-byte block, the free input block of 32
bytes, then a free 40-byte neighbour followed by an allocated block; case
2 fuses input and next into a 72-byte free block whose neighbours are
allocated. -/
theorem C3_witness :
    (coalesce_blocks Seg.tsize [⟨32, true, List.replicate 20 0⟩]
      ⟨32, false, List.replicate 20 0⟩
      [⟨40, false, List.replicate 28 0⟩, ⟨32, true, List.replicate 20 0⟩]).2.1.size = 72 ∧
    headAlloc (coalesce_blocks Seg.tsize [⟨32, true, List.replicate 20 0⟩]
      ⟨32, false, List.replicate 20 0⟩
      [⟨40, false, List.replicate 28 0⟩, ⟨32, true, List.replicate 20 0⟩]).2.2 = true := by
  have h := C3_coalesce_cases Seg.tsize [⟨32, true, List.replicate 20 0⟩]
    [⟨40, false, List.replicate 28 0⟩, ⟨32, true, List.replicate 20 0⟩]
    ⟨32, false, List.replicate 20 0⟩ rfl (by decide) (by decide)
  exact ⟨((h.2.1 (by decide) (by decide)).2.1).trans (by decide), h.2.2.2.2.2⟩

/-! Generic lemmas about block lists, addresses and the zipper. -/

theorem totalSize_nil : totalSize [] = 0 := rfl

theorem totalSize_cons (b : Blk) (l : List Blk) :
    totalSize (b :: l) = b.size + totalSize l := by
  simp [totalSize]

theorem totalSize_append (l1 l2 : List Blk) :
    totalSize (l1 ++ l2) = totalSize l1 + totalSize l2 := by
  simp [totalSize]

theorem totalSize_reverse (l : List Blk) : totalSize l.reverse = totalSize l := by
  simp [totalSize, List.sum_reverse]

theorem blkAt_ge (l : List Blk) : ∀ base a c, blkAt l base a = some c → base ≤ a := by
  induction l with
  | nil => intro base a c h; simp [blkAt] at h
  | cons b t ih =>
    intro base a c h
    simp only [blkAt] at h
    by_cases hab : a = base
    · omega
    · rw [if_neg hab] at h
      have := ih (base + b.size) a c h
      omega

theorem blkAt_bound (l : List Blk) : ∀ base a c, blkAt l base a = some c →
    a + c.size ≤ base + totalSize l := by
  induction l with
  | nil => intro base a c h; simp [blkAt] at h
  | cons b t ih =>
    intro base a c h
    simp only [blkAt] at h
    rw [totalSize_cons]
    by_cases hab : a = base
    · rw [if_pos hab] at h
      injection h with h2
      subst h2
      omega
    · rw [if_neg hab] at h
      have := ih (base + b.size) a c h
      omega

theorem blkAt_none_of_ge (l : List Blk) : ∀ base a, (∀ b ∈ l, 0 < b.size) →
    base + totalSize l ≤ a → blkAt l base a = none := by
  induction l with
  | nil => intro base a _ _; rfl
  | cons b t ih =>
    intro base a hpos hge
    rw [totalSize_cons] at hge
    have hb : 0 < b.size := hpos b (by simp)
    simp only [blkAt]
    rw [if_neg (by omega)]
    exact ih (base + b.size) a (fun x hx => hpos x (by simp [hx])) (by omega)

theorem blkAt_append_left (l1 l2 : List Blk) : ∀ base a c, blkAt l1 base a = some c →
    blkAt (l1 ++ l2) base a = some c := by
  induction l1 with
  | nil => intro base a c h; simp [blkAt] at h
  | cons b t ih =>
    intro base a c h
    simp only [blkAt, List.cons_append] at h ⊢
    by_cases hab : a = base
    · rw [if_pos hab] at h ⊢; exact h
    · rw [if_neg hab] at h ⊢; exact ih _ _ _ h

theorem blkAt_append_right (l1 l2 : List Blk) : ∀ base a, blkAt l1 base a = none →
    blkAt (l1 ++ l2) base a = blkAt l2 (base + totalSize l1) a := by
  induction l1 with
  | nil => intro base a _; simp [totalSize_nil, blkAt]
  | cons b t ih =>
    intro base a h
    simp only [blkAt, List.cons_append] at h ⊢
    by_cases hab : a = base
    · rw [if_pos hab] at h; exact absurd h (by simp)
    · rw [if_neg hab] at h ⊢
      simp only [List.append_eq]
      rw [ih _ _ h, totalSize_cons, Nat.add_assoc]

theorem zipTo_eq (l : List Blk) : ∀ base a pre b post,
    zipTo l base a = some (pre, b, post) →
    l = recombine pre b post ∧ a = base + totalSize pre := by
  induction l with
  | nil => intro base a pre b post h; simp [zipTo] at h
  | cons x t ih =>
    intro base a pre b post h
    simp only [zipTo] at h
    by_cases hab : a = base
    · rw [if_pos hab] at h
      simp only [Option.some.injEq, Prod.mk.injEq] at h
      obtain ⟨h1, h2, h3⟩ := h
      subst h1; subst h2; subst h3
      simp [recombine, totalSize_nil, hab]
    · rw [if_neg hab, Option.map_eq_some'] at h
      obtain ⟨⟨p2, b2, q2⟩, hz, hf⟩ := h
      simp only [Prod.mk.injEq] at hf
      obtain ⟨h1, h2, h3⟩ := hf
      subst h1; subst h2; subst h3
      obtain ⟨ih1, ih2⟩ := ih _ _ _ _ _ hz
      constructor
      · rw [ih1]; simp [recombine]
      · rw [totalSize_append, totalSize_cons, totalSize_nil]
        omega

theorem blkAt_of_zipTo (l : List Blk) : ∀ base a pre b post,
    zipTo l base a = some (pre, b, post) → blkAt l base a = some b := by
  induction l with
  | nil => intro base a pre b post h; simp [zipTo] at h
  | cons x t ih =>
    intro base a pre b post h
    simp only [zipTo] at h
    simp only [blkAt]
    by_cases hab : a = base
    · rw [if_pos hab] at h
      simp only [Option.some.injEq, Prod.mk.injEq] at h
      rw [if_pos hab, h.2.1]
    · rw [if_neg hab, Option.map_eq_some'] at h
      obtain ⟨⟨p2, b2, q2⟩, hz, hf⟩ := h
      simp only [Prod.mk.injEq] at hf
      rw [if_neg hab, ← hf.2.1]
      exact ih _ _ _ _ _ hz

theorem zipTo_of_blkAt (l : List Blk) : ∀ base a c, blkAt l base a = some c →
    ∃ pre post, zipTo l base a = some (pre, c, post) := by
  induction l with
  | nil => intro base a c h; simp [blkAt] at h
  | cons x t ih =>
    intro base a c h
    simp only [blkAt] at h
    simp only [zipTo]
    by_cases hab : a = base
    · rw [if_pos hab] at h
      injection h with h2
      subst h2
      exact ⟨[], t, by rw [if_pos hab]⟩
    · rw [if_neg hab] at h
      obtain ⟨p2, q2, hz⟩ := ih _ _ _ h
      exact ⟨p2 ++ [x], q2, by rw [if_neg hab, hz]; rfl⟩

/-- Replacing a middle segment by one of equal total size and positive
block sizes leaves every block outside the segment readable at its old
address. -/
theorem blkAt_stable (l1 mid mid2 l2 : List Blk) (base a : Nat) (c : Blk)
    (hsz : totalSize mid = totalSize mid2)
    (hpos : ∀ b ∈ mid2, 0 < b.size)
    (h : blkAt (l1 ++ (mid ++ l2)) base a = some c)
    (hout : blkAt mid (base + totalSize l1) a = none) :
    blkAt (l1 ++ (mid2 ++ l2)) base a = some c := by
  cases h1 : blkAt l1 base a with
  | some c1 =>
    have := blkAt_append_left l1 (mid ++ l2) base a c1 h1
    rw [this] at h
    injection h with h2
    subst h2
    exact blkAt_append_left l1 (mid2 ++ l2) base a c1 h1
  | none =>
    rw [blkAt_append_right l1 (mid ++ l2) base a h1] at h
    rw [blkAt_append_right mid l2 _ a hout] at h
    have hge := blkAt_ge l2 _ a c h
    rw [blkAt_append_right l1 (mid2 ++ l2) base a h1]
    rw [blkAt_append_right mid2 l2 _ a (blkAt_none_of_ge mid2 _ a hpos (by omega))]
    rw [show base + totalSize l1 + totalSize mid2 = base + totalSize l1 + totalSize mid by omega]
    exact h

/-! Algebra of the no-adjacent-free predicate. -/

theorem okB_comm (x y : Blk) : okB x y = okB y x := by
  simp [okB, Bool.or_comm]

theorem noAdjFreeB_cons (x : Blk) (l : List Blk) :
    noAdjFreeB (x :: l) = ((x.alloc || headAlloc l) && noAdjFreeB l) := by
  cases l <;> simp [noAdjFreeB, headAlloc, okB]

theorem noAdjB_recombine (pre : List Blk) (x : Blk) (post : List Blk) :
    noAdjFreeB (recombine pre x post) =
      (noAdjFreeB (x :: pre) && noAdjFreeB (x :: post)) := by
  induction pre generalizing x post with
  | nil =>
    show noAdjFreeB (x :: post) = (noAdjFreeB [x] && noAdjFreeB (x :: post))
    simp [noAdjFreeB]
  | cons p pre2 ih =>
    have hsplit : recombine (p :: pre2) x post = recombine pre2 p (x :: post) := by
      simp [recombine]
    rw [hsplit, ih]
    simp only [noAdjFreeB]
    rw [okB_comm x p]
    cases okB p x <;> cases noAdjFreeB (p :: pre2) <;> cases noAdjFreeB (x :: post) <;> rfl

theorem noAdj_of_cons (x : Blk) (l : List Blk) (h : noAdjFreeB (x :: l) = true) :
    noAdjFreeB l = true := by
  rw [noAdjFreeB_cons, Bool.and_eq_true] at h
  exact h.2

theorem noAdj_cons_of_headAlloc (x : Blk) (l : List Blk) (h1 : headAlloc l = true)
    (h2 : noAdjFreeB l = true) : noAdjFreeB (x :: l) = true := by
  rw [noAdjFreeB_cons, h1, h2]
  simp

theorem noAdj_cons_of_alloc (x : Blk) (l : List Blk) (hx : x.alloc = true)
    (h2 : noAdjFreeB l = true) : noAdjFreeB (x :: l) = true := by
  rw [noAdjFreeB_cons, hx, h2]
  simp

theorem headAlloc_of_noAdj_cons (x : Blk) (l : List Blk) (hx : x.alloc = false)
    (h : noAdjFreeB (x :: l) = true) : headAlloc l = true := by
  rw [noAdjFreeB_cons, hx, Bool.and_eq_true] at h
  simpa using h.1

theorem noAdjFreeB_reverse (l : List Blk) : noAdjFreeB l.reverse = noAdjFreeB l := by
  cases l with
  | nil => rfl
  | cons x t =>
    have h1 : (x :: t).reverse = recombine t x [] := by simp [recombine]
    rw [h1, noAdjB_recombine]
    simp [noAdjFreeB]

/-- The no-adjacent-free invariant survives coalescing a free block whose
two flanks each satisfy it. -/
theorem coalesce_blocks_noAdj (ov : Nat) (pre post : List Blk) (b : Blk)
    (hb : b.alloc = false) (hpre : noAdjFreeB pre = true)
    (hpost : noAdjFreeB post = true) :
    noAdjFreeB (recombine (coalesce_blocks ov pre b post).1
      (coalesce_blocks ov pre b post).2.1 (coalesce_blocks ov pre b post).2.2) = true := by
  obtain ⟨hc1, hc2, hc3, hc4, hP, hQ⟩ := coalesce_cases_core ov pre post b hb hpre hpost
  have hnp : noAdjFreeB (coalesce_blocks ov pre b post).1 = true := by
    cases hpa : headAlloc pre
    · cases pre with
      | nil => simp [headAlloc] at hpa
      | cons p pre2 =>
        cases hna : headAlloc post
        · rw [(hc4 hpa hna).1]; exact noAdj_of_cons p pre2 hpre
        · rw [(hc3 hpa hna).1]; exact noAdj_of_cons p pre2 hpre
    · cases hna : headAlloc post
      · rw [(hc2 hpa hna).1]; exact hpre
      · rw [hc1 hpa hna]; exact hpre
  have hnq : noAdjFreeB (coalesce_blocks ov pre b post).2.2 = true := by
    cases hna : headAlloc post
    · cases post with
      | nil => simp [headAlloc] at hna
      | cons n post2 =>
        cases hpa : headAlloc pre
        · rw [(hc4 hpa hna).2.2.2]; exact noAdj_of_cons n post2 hpost
        · rw [(hc2 hpa hna).2.2.2]; exact noAdj_of_cons n post2 hpost
    · cases hpa : headAlloc pre
      · rw [(hc3 hpa hna).2.2.2]; exact hpost
      · rw [hc1 hpa hna]; exact hpost
  rw [noAdjB_recombine, Bool.and_eq_true]
  exact ⟨noAdj_cons_of_headAlloc _ _ hP hnp, noAdj_cons_of_headAlloc _ _ hQ hnq⟩

/-! Small lemmas about the class-list table and the size arithmetic. -/

theorem getD_map_lt (f : List Nat → List Nat) (sl : List (List Nat)) :
    ∀ i, i < sl.length → (sl.map f).getD i [] = f (sl.getD i []) := by
  induction sl with
  | nil => intro i h; simp at h
  | cons l t ih =>
    intro i h
    cases i with
    | zero => rfl
    | succ j => exact ih j (by simpa using h)

theorem getD_nil_of_ge (sl : List (List Nat)) : ∀ i, sl.length ≤ i → sl.getD i [] = [] := by
  induction sl with
  | nil => intro i _; cases i <;> rfl
  | cons l t ih =>
    intro i h
    cases i with
    | zero => simp at h
    | succ j => exact ih j (by simpa using h)

theorem getD_set_self (sl : List (List Nat)) :
    ∀ j x, j < sl.length → (sl.set j x).getD j [] = x := by
  induction sl with
  | nil => intro j x h; simp at h
  | cons l t ih =>
    intro j x h
    cases j with
    | zero => rfl
    | succ i => exact ih i x (by simpa using h)

theorem getD_set_ne (sl : List (List Nat)) :
    ∀ j x i, i ≠ j → (sl.set j x).getD i [] = sl.getD i [] := by
  induction sl with
  | nil => intro j x i _; simp
  | cons l t ih =>
    intro j x i hne
    cases j with
    | zero =>
      cases i with
      | zero => exact absurd rfl hne
      | succ k => rfl
    | succ j2 =>
      cases i with
      | zero => rfl
      | succ k => exact ih j2 x k (by omega)

theorem eraseAddr_length (sl : Seg.Seglist) (x : Nat) :
    (Seg.eraseAddr sl x).length = sl.length := by
  simp [Seg.eraseAddr]

theorem insertAddr_length (sl : Seg.Seglist) (a sz : Nat) :
    (Seg.insertAddr sl a sz).length = sl.length := by
  simp [Seg.insertAddr]

theorem eraseAddr_getD (sl : Seg.Seglist) (x : Nat) (i : Nat) :
    (Seg.eraseAddr sl x).getD i [] = (sl.getD i []).erase x := by
  by_cases h : i < sl.length
  · exact getD_map_lt _ sl i h
  · rw [getD_nil_of_ge _ i (by simpa [eraseAddr_length] using h),
        getD_nil_of_ge _ i (by omega)]
    rfl

theorem mem_eraseAddr (sl : Seg.Seglist) (x a i : Nat)
    (hnd : (sl.getD i []).Nodup)
    (h : a ∈ (Seg.eraseAddr sl x).getD i []) :
    a ≠ x ∧ a ∈ sl.getD i [] := by
  rw [eraseAddr_getD] at h
  exact ⟨(List.Nodup.mem_erase_iff hnd |>.1 h).1, List.mem_of_mem_erase h⟩

theorem nodup_eraseAddr (sl : Seg.Seglist) (x i : Nat)
    (hnd : (sl.getD i []).Nodup) : ((Seg.eraseAddr sl x).getD i []).Nodup := by
  rw [eraseAddr_getD]
  exact List.Nodup.erase x hnd

theorem sizesOk_mem {m : Nat} {l : List Blk} (h : Seg.sizesOkB m l = true) {b : Blk}
    (hb : b ∈ l) : b.size % 8 = 0 ∧ m ≤ b.size := by
  simp only [Seg.sizesOkB, List.all_eq_true] at h
  have := h b hb
  simp only [Bool.and_eq_true, beq_iff_eq, decide_eq_true_eq] at this
  exact this

theorem sizesOk_of_mem {m : Nat} {l : List Blk}
    (h : ∀ b ∈ l, b.size % 8 = 0 ∧ m ≤ b.size) : Seg.sizesOkB m l = true := by
  simp only [Seg.sizesOkB, List.all_eq_true]
  intro b hb
  simp only [Bool.and_eq_true, beq_iff_eq, decide_eq_true_eq]
  exact h b hb

theorem bytesLen_mem {ov : Nat} {l : List Blk} (h : Seg.bytesLenOkB ov l = true) {b : Blk}
    (hb : b ∈ l) : b.bytes.length = b.size - ov := by
  simp only [Seg.bytesLenOkB, List.all_eq_true] at h
  have := h b hb
  simpa using this

theorem bytesLen_of_mem {ov : Nat} {l : List Blk}
    (h : ∀ b ∈ l, b.bytes.length = b.size - ov) : Seg.bytesLenOkB ov l = true := by
  simp only [Seg.bytesLenOkB, List.all_eq_true]
  intro b hb
  simpa using h b hb

theorem round_up_spec (x n : Nat) (hn : 0 < n) (hx : x + (n - 1) < 2 ^ 64) :
    x ≤ round_up x n ∧ n ∣ round_up x n ∧ round_up x n < x + n := by
  unfold round_up
  rw [Nat.mod_eq_of_lt hx]
  have hmod := Nat.mod_lt (x + (n - 1)) hn
  have hdm := Nat.div_add_mod (x + (n - 1)) n
  have h2 : n * ((x + (n - 1)) / n) ≤ x + (n - 1) := Nat.mul_div_le _ _
  exact ⟨by omega, Dvd.intro _ rfl, by omega⟩

theorem round_up_dvd (x n : Nat) : n ∣ round_up x n := Dvd.intro _ rfl

/-- The size_t round_up to a multiple of 8 never exceeds 2^64 - 8. -/
theorem round_up8_le (x : Nat) : round_up x 8 ≤ 2 ^ 64 - 8 := by
  unfold round_up
  have hmod : (x + 7) % 2 ^ 64 < 2 ^ 64 := Nat.mod_lt _ (by norm_num)
  have h2 : 8 * ((x + 7) % 2 ^ 64 / 8) ≤ (x + 7) % 2 ^ 64 := Nat.mul_div_le _ _
  omega

/-- Unconditional facts about the adjusted size: a multiple of 8, at least
the minimum block size, at most 2^64 - 8 (even when the size_t arithmetic
wraps). -/
theorem get_asize_basic (n : Nat) :
    Seg.get_asize n % 8 = 0 ∧ Seg.min_block_size ≤ Seg.get_asize n ∧
    Seg.get_asize n ≤ 2 ^ 64 - 8 := by
  have hm : Seg.min_block_size = 32 := rfl
  have hk8 : round_up ((n + Seg.tsize) % 2 ^ 64) Seg.dsize % 8 = 0 := by
    obtain ⟨k, hk⟩ := round_up_dvd ((n + Seg.tsize) % 2 ^ 64) Seg.dsize
    have h8 : round_up ((n + Seg.tsize) % 2 ^ 64) Seg.dsize = 8 * k := hk
    omega
  have hle := round_up8_le ((n + Seg.tsize) % 2 ^ 64)
  unfold Seg.get_asize
  rcases Nat.le_total (round_up ((n + Seg.tsize) % 2 ^ 64) Seg.dsize) Seg.min_block_size
    with hc | hc
  · rw [Nat.max_eq_right hc]
    refine ⟨by omega, le_rfl, by omega⟩
  · rw [Nat.max_eq_left hc]
    exact ⟨hk8, hc, hle⟩

/-- Below the size_t wrap threshold the adjusted size behaves as the spec
describes: it also covers the request plus its overhead. -/
theorem get_asize_spec (n : Nat) (h64 : n + 20 ≤ 2 ^ 64) :
    Seg.get_asize n % 8 = 0 ∧ Seg.min_block_size ≤ Seg.get_asize n ∧
    n + Seg.tsize ≤ Seg.get_asize n := by
  obtain ⟨b1, b2, _⟩ := get_asize_basic n
  have hts : Seg.tsize = 12 := rfl
  have hmod : (n + Seg.tsize) % 2 ^ 64 = n + Seg.tsize := Nat.mod_eq_of_lt (by omega)
  obtain ⟨h1, _, _⟩ := round_up_spec (n + Seg.tsize) Seg.dsize
    (by norm_num [Seg.dsize, Seg.wsize]) (by norm_num [Seg.dsize, Seg.wsize]; omega)
  refine ⟨b1, b2, ?_⟩
  unfold Seg.get_asize
  rw [hmod]
  exact le_trans h1 (le_max_left _ _)

/-! Unfolding equations and positional facts for the segregated operations. -/

theorem mem_recombine (c : Blk) (pre post : List Blk) (b : Blk) :
    c ∈ recombine pre b post ↔ c ∈ pre ∨ c = b ∨ c ∈ post := by
  simp [recombine]

theorem blkAt_single (x : Blk) (w a : Nat) :
    blkAt [x] w a = if a = w then some x else none := by
  simp [blkAt]

theorem blkAt_recombine_self (pre post : List Blk) (b : Blk) (base : Nat)
    (hpos : ∀ x ∈ pre, 0 < x.size) :
    blkAt (recombine pre b post) base (base + totalSize pre) = some b := by
  unfold recombine
  rw [blkAt_append_right pre.reverse (b :: post) base _
    (blkAt_none_of_ge pre.reverse base _ (fun x hx => hpos x (List.mem_reverse.1 hx))
      (by rw [totalSize_reverse]))]
  rw [totalSize_reverse]
  simp [blkAt]

theorem seg_coalesce_trip (sl : Seg.Seglist) (a : Nat) (pre post : List Blk) (b : Blk) :
    (Seg.coalesce sl a pre b post).2.1 = coalesce_blocks Seg.tsize pre b post := rfl

theorem seg_coalesce_a2 (sl : Seg.Seglist) (a : Nat) (pre post : List Blk) (b : Blk) :
    (Seg.coalesce sl a pre b post).2.2 =
      if headAlloc pre then a else a - prevSize pre := rfl

theorem seg_coalesce_sl (sl : Seg.Seglist) (a : Nat) (pre post : List Blk) (b : Blk) :
    (Seg.coalesce sl a pre b post).1 =
      Seg.insertAddr
        (if headAlloc pre && headAlloc post then sl
         else if headAlloc pre && !headAlloc post then Seg.eraseAddr sl (a + b.size)
         else if !headAlloc pre && headAlloc post then Seg.eraseAddr sl (a - prevSize pre)
         else Seg.eraseAddr (Seg.eraseAddr sl (a - prevSize pre)) (a + b.size))
        (if headAlloc pre then a else a - prevSize pre)
        (coalesce_blocks Seg.tsize pre b post).2.1.size := rfl

theorem seg_free_eq (s : Seg.State) (pp : Nat) (pre post : List Blk) (b : Blk)
    (hz : zipTo s.blocks Seg.heap_base (pp - Seg.dsize) = some (pre, b, post)) :
    Seg.free s (some pp) = { s with
      blocks := recombine
        (coalesce_blocks Seg.tsize pre ⟨b.size, false, List.replicate (b.size - Seg.tsize) 0⟩ post).1
        (coalesce_blocks Seg.tsize pre ⟨b.size, false, List.replicate (b.size - Seg.tsize) 0⟩ post).2.1
        (coalesce_blocks Seg.tsize pre ⟨b.size, false, List.replicate (b.size - Seg.tsize) 0⟩ post).2.2
      seglist := (Seg.coalesce s.seglist (pp - Seg.dsize) pre
        ⟨b.size, false, List.replicate (b.size - Seg.tsize) 0⟩ post).1 } := by
  simp only [Seg.free, hz]
  rcases h : Seg.coalesce s.seglist (pp - Seg.dsize) pre
    ⟨b.size, false, List.replicate (b.size - Seg.tsize) 0⟩ post with ⟨sl2, ⟨pre2, b3, post2⟩, a2⟩
  rw [← seg_coalesce_trip s.seglist (pp - Seg.dsize) pre post
    ⟨b.size, false, List.replicate (b.size - Seg.tsize) 0⟩, h]

theorem seg_split_eq (s : Seg.State) (a asize : Nat) (pre post : List Blk) (b : Blk)
    (hz : zipTo s.blocks Seg.heap_base a = some (pre, b, post)) :
    Seg.split_block s a asize = { s with
      blocks := recombine pre ⟨asize, true, b.bytes.take (asize - Seg.tsize)⟩
        (⟨b.size - asize, false, List.replicate (b.size - asize - Seg.tsize) 0⟩ :: post)
      seglist := Seg.insertAddr s.seglist (a + asize) (b.size - asize) } := by
  simp only [Seg.split_block, hz]

theorem seg_place_eq_split (s : Seg.State) (a asize : Nat) (pre post : List Blk) (b : Blk)
    (hz : zipTo s.blocks Seg.heap_base a = some (pre, b, post))
    (hcut : Seg.min_block_size ≤ b.size - asize) :
    Seg.place s a asize = { s with
      blocks := recombine pre ⟨asize, true, b.bytes.take (asize - Seg.tsize)⟩
        (⟨b.size - asize, false, List.replicate (b.size - asize - Seg.tsize) 0⟩ :: post)
      seglist := Seg.insertAddr (Seg.eraseAddr s.seglist a) (a + asize) (b.size - asize) } := by
  simp only [Seg.place, hz, if_pos hcut]
  exact seg_split_eq _ a asize pre post b hz

theorem seg_place_eq_whole (s : Seg.State) (a asize : Nat) (pre post : List Blk) (b : Blk)
    (hz : zipTo s.blocks Seg.heap_base a = some (pre, b, post))
    (hcut : ¬ Seg.min_block_size ≤ b.size - asize) :
    Seg.place s a asize = { s with
      blocks := recombine pre { b with alloc := true } post
      seglist := Seg.eraseAddr s.seglist a } := by
  simp only [Seg.place, hz, if_neg hcut]

/-- Decomposing the no-adjacent-free invariant at a zipper position. -/
theorem noAdj_split (pre post : List Blk) (b : Blk)
    (h : noAdjFreeB (recombine pre b post) = true) :
    noAdjFreeB (b :: pre) = true ∧ noAdjFreeB (b :: post) = true := by
  rw [noAdjB_recombine, Bool.and_eq_true] at h
  exact h

/-- free preserves the no-adjacent-free invariant (mark free, then
coalesce restores it locally). -/
theorem seg_free_noAdj (s : Seg.State) (p : Option Nat)
    (h : noAdjFreeB s.blocks = true) : noAdjFreeB (Seg.free s p).blocks = true := by
  cases p with
  | none => exact h
  | some pp =>
    cases hz : zipTo s.blocks Seg.heap_base (pp - Seg.dsize) with
    | none =>
      show noAdjFreeB (Seg.free s (some pp)).blocks = true
      simp only [Seg.free, hz]
      exact h
    | some w =>
      obtain ⟨pre, b, post⟩ := w
      rw [seg_free_eq s pp pre post b hz]
      obtain ⟨heq, _⟩ := zipTo_eq _ _ _ _ _ _ hz
      rw [heq] at h
      obtain ⟨h1, h2⟩ := noAdj_split pre post b h
      exact coalesce_blocks_noAdj Seg.tsize pre post _ rfl
        (noAdj_of_cons _ _ h1) (noAdj_of_cons _ _ h2)

theorem mergedFree_size (ov sz : Nat) : (mergedFree ov sz).size = sz := rfl

theorem mergedFree_alloc (ov sz : Nat) : (mergedFree ov sz).alloc = false := rfl

theorem mergedFree_bytes_len (ov sz : Nat) : (mergedFree ov sz).bytes.length = sz - ov := by
  simp [mergedFree]

theorem get_seglist_idx_le15 (s : Nat) : Seg.get_seglist_idx s ≤ 15 := by
  simp only [Seg.get_seglist_idx]
  split_ifs <;> omega

theorem listedEntryOk_iff (blocks : List Blk) (i a : Nat) :
    Seg.listedEntryOkB blocks i a = true ↔
    ∃ c, blkAt blocks Seg.heap_base a = some c ∧ c.alloc = false ∧
      Seg.get_seglist_idx c.size = i := by
  unfold Seg.listedEntryOkB
  cases blkAt blocks Seg.heap_base a <;> simp

theorem listedEntryOk_stable (l1 mid mid2 l2 : List Blk) (i a : Nat)
    (hsz : totalSize mid = totalSize mid2)
    (hpos : ∀ b ∈ mid2, 0 < b.size)
    (hout : blkAt mid (Seg.heap_base + totalSize l1) a = none)
    (h : Seg.listedEntryOkB (l1 ++ (mid ++ l2)) i a = true) :
    Seg.listedEntryOkB (l1 ++ (mid2 ++ l2)) i a = true := by
  rw [listedEntryOk_iff] at h ⊢
  obtain ⟨c, hc, h2, h3⟩ := h
  exact ⟨c, blkAt_stable l1 mid mid2 l2 _ a c hsz hpos hc hout, h2, h3⟩

theorem insertAddr_cases (X : Seg.Seglist) (a2 szv i a0 : Nat)
    (h : a0 ∈ (Seg.insertAddr X a2 szv).getD i []) :
    (i = Seg.get_seglist_idx szv ∧ a0 = a2) ∨ a0 ∈ X.getD i [] := by
  unfold Seg.insertAddr at h
  by_cases hi : i = Seg.get_seglist_idx szv
  · subst hi
    by_cases hlt : Seg.get_seglist_idx szv < X.length
    · rw [getD_set_self X _ _ hlt] at h
      rcases List.mem_cons.1 h with h | h
      · exact Or.inl ⟨rfl, h⟩
      · exact Or.inr h
    · rw [List.set_eq_of_length_le (by omega)] at h
      exact Or.inr h
  · rw [getD_set_ne X _ _ i hi] at h
    exact Or.inr h

theorem insertAddr_nodup (X : Seg.Seglist) (a2 szv : Nat)
    (hnd : ∀ i < X.length, (X.getD i []).Nodup)
    (hnew : a2 ∉ X.getD (Seg.get_seglist_idx szv) []) :
    ∀ i < (Seg.insertAddr X a2 szv).length, ((Seg.insertAddr X a2 szv).getD i []).Nodup := by
  intro i hi
  rw [insertAddr_length] at hi
  unfold Seg.insertAddr
  by_cases hip : i = Seg.get_seglist_idx szv
  · subst hip
    by_cases hlt : Seg.get_seglist_idx szv < X.length
    · rw [getD_set_self X _ _ hlt]
      exact List.Nodup.cons hnew (hnd _ hlt)
    · exact absurd hi hlt
  · rw [getD_set_ne X _ _ i hip]
    exact hnd i hi

theorem blkAt_single_none (x : Blk) (w a : Nat) (h : a ≠ w) : blkAt [x] w a = none := by
  simp [blkAt, h]

theorem blkAt_pair_none (x y : Blk) (w a : Nat) (h1 : a ≠ w) (h2 : a ≠ w + x.size) :
    blkAt [x, y] w a = none := by
  simp [blkAt, h1, h2]

theorem blkAt_triple_none (x y z : Blk) (w a : Nat) (h1 : a ≠ w) (h2 : a ≠ w + x.size)
    (h3 : a ≠ w + x.size + y.size) : blkAt [x, y, z] w a = none := by
  simp [blkAt, h1, h2]
  omega

theorem totalSize_recombine (pre post : List Blk) (b : Blk) :
    totalSize (recombine pre b post) = totalSize pre + b.size + totalSize post := by
  simp only [recombine, totalSize_append, totalSize_cons, totalSize_reverse]
  omega

theorem recombine_cons_pre (p : Blk) (pre2 post : List Blk) (b : Blk) :
    recombine (p :: pre2) b post = pre2.reverse ++ ([p, b] ++ post) := by
  simp [recombine]

theorem recombine_cons_both (p : Blk) (pre2 post2 : List Blk) (b n : Blk) :
    recombine (p :: pre2) b (n :: post2) = pre2.reverse ++ ([p, b, n] ++ post2) := by
  simp [recombine]

/-- The coalesce step of the segregated variant: starting from a heap
whose zipper at address a holds the already-freed block b2, with all
well-formedness components in place and a itself on no list, the step
preserves sizes, byte bookkeeping, the total heap size, the table length,
the validity of every listed address and the per-class uniqueness. -/
theorem seg_coalesce_step (sl : Seg.Seglist) (pre post : List Blk) (b2 : Blk) (a : Nat)
    (ha : a = Seg.heap_base + totalSize pre)
    (hb2 : b2.alloc = false)
    (hb2sz : b2.size % 8 = 0 ∧ Seg.min_block_size ≤ b2.size)
    (hlen16 : sl.length = 16)
    (hsz : Seg.sizesOkB Seg.min_block_size (recombine pre b2 post) = true)
    (hbl : Seg.bytesLenOkB Seg.tsize (recombine pre b2 post) = true)
    (hlisted : ∀ i < sl.length, ∀ a0 ∈ sl.getD i [],
      Seg.listedEntryOkB (recombine pre b2 post) i a0 = true)
    (hnodup : ∀ i < sl.length, (sl.getD i []).Nodup)
    (hnot : ∀ i < sl.length, a ∉ sl.getD i []) :
    Seg.sizesOkB Seg.min_block_size
      (recombine (coalesce_blocks Seg.tsize pre b2 post).1
        (coalesce_blocks Seg.tsize pre b2 post).2.1
        (coalesce_blocks Seg.tsize pre b2 post).2.2) = true ∧
    Seg.bytesLenOkB Seg.tsize
      (recombine (coalesce_blocks Seg.tsize pre b2 post).1
        (coalesce_blocks Seg.tsize pre b2 post).2.1
        (coalesce_blocks Seg.tsize pre b2 post).2.2) = true ∧
    totalSize
      (recombine (coalesce_blocks Seg.tsize pre b2 post).1
        (coalesce_blocks Seg.tsize pre b2 post).2.1
        (coalesce_blocks Seg.tsize pre b2 post).2.2) =
      totalSize (recombine pre b2 post) ∧
    (Seg.coalesce sl a pre b2 post).1.length = sl.length ∧
    (∀ i < sl.length, ∀ a0 ∈ (Seg.coalesce sl a pre b2 post).1.getD i [],
      Seg.listedEntryOkB
        (recombine (coalesce_blocks Seg.tsize pre b2 post).1
          (coalesce_blocks Seg.tsize pre b2 post).2.1
          (coalesce_blocks Seg.tsize pre b2 post).2.2) i a0 = true) ∧
    (∀ i < sl.length, ((Seg.coalesce sl a pre b2 post).1.getD i []).Nodup) := by
  have hm : Seg.min_block_size = 32 := rfl
  have hposM : ∀ x ∈ recombine pre b2 post, 0 < x.size := by
    intro x hx
    have := sizesOk_mem hsz hx
    omega
  have hpospre : ∀ x ∈ pre, 0 < x.size := by
    intro x hx
    exact hposM x ((mem_recombine x pre post b2).2 (Or.inl hx))
  cases hpa : headAlloc pre
  case true =>
    cases hna : headAlloc post
    case true =>
      -- Case 1: both neighbours allocated, block list unchanged.
      have hT : coalesce_blocks Seg.tsize pre b2 post = (pre, b2, post) := by
        simp [coalesce_blocks, hpa, hna]
      have hSL : (Seg.coalesce sl a pre b2 post).1 =
          Seg.insertAddr sl a b2.size := by
        rw [seg_coalesce_sl, hT]
        simp [hpa, hna]
      rw [hT, hSL]
      dsimp only
      refine ⟨hsz, hbl, rfl, by rw [insertAddr_length, hlen16], ?_, ?_⟩
      · intro i hi a0 ha0
        rcases insertAddr_cases sl a b2.size i a0 ha0 with ⟨hieq, rfl⟩ | hmem
        · rw [listedEntryOk_iff]
          refine ⟨b2, ?_, hb2, hieq.symm⟩
          rw [ha]
          exact blkAt_recombine_self pre post b2 Seg.heap_base hpospre
        · exact hlisted i hi a0 hmem
      · intro i hi
        rw [show (Seg.insertAddr sl a b2.size).getD i [] =
            (Seg.insertAddr sl a b2.size).getD i [] from rfl]
        exact insertAddr_nodup sl a b2.size hnodup
          (hnot _ (by rw [hlen16]; exact Nat.lt_succ_of_le (get_seglist_idx_le15 _))) i
          (by rw [insertAddr_length]; exact hi)
    case false =>
      -- Case 2: next free, fuse forward.
      rcases post with _ | ⟨n, post2⟩
      · simp [headAlloc] at hna
      have hn : n.alloc = false := by simpa [headAlloc] using hna
      have hT : coalesce_blocks Seg.tsize pre b2 (n :: post2) =
          (pre, mergedFree Seg.tsize (b2.size + n.size), post2) := by
        simp [coalesce_blocks, hpa, hna]
      have hnsz := sizesOk_mem hsz ((mem_recombine n pre (n :: post2) b2).2
        (Or.inr (Or.inr (List.mem_cons_self n post2))))
      have hSL : (Seg.coalesce sl a pre b2 (n :: post2)).1 =
          Seg.insertAddr (Seg.eraseAddr sl (a + b2.size)) a (b2.size + n.size) := by
        rw [seg_coalesce_sl, hT]
        simp [hpa, hna, mergedFree_size]
      have hMdec : recombine pre b2 (n :: post2) =
          pre.reverse ++ ([b2, n] ++ post2) := rfl
      have hNdec : recombine pre (mergedFree Seg.tsize (b2.size + n.size)) post2 =
          pre.reverse ++ ([mergedFree Seg.tsize (b2.size + n.size)] ++ post2) := rfl
      have hwin : totalSize [b2, n] = totalSize [mergedFree Seg.tsize (b2.size + n.size)] := by
        simp [totalSize_cons, totalSize_nil, mergedFree_size]
      have hwpos : ∀ x ∈ [mergedFree Seg.tsize (b2.size + n.size)], 0 < x.size := by
        intro x hx
        simp at hx
        subst hx
        rw [mergedFree_size]
        omega
      rw [hT, hSL]
      dsimp only
      refine ⟨?_, ?_, ?_, ?_, ?_, ?_⟩
      · refine sizesOk_of_mem ?_
        intro c hc
        rcases (mem_recombine c pre post2 _).1 hc with hc | hc | hc
        · exact sizesOk_mem hsz ((mem_recombine c pre (n :: post2) b2).2 (Or.inl hc))
        · subst hc
          rw [mergedFree_size]
          omega
        · exact sizesOk_mem hsz ((mem_recombine c pre (n :: post2) b2).2
            (Or.inr (Or.inr (List.mem_cons_of_mem n hc))))
      · refine bytesLen_of_mem ?_
        intro c hc
        rcases (mem_recombine c pre post2 _).1 hc with hc | hc | hc
        · exact bytesLen_mem hbl ((mem_recombine c pre (n :: post2) b2).2 (Or.inl hc))
        · subst hc
          exact mergedFree_bytes_len _ _
        · exact bytesLen_mem hbl ((mem_recombine c pre (n :: post2) b2).2
            (Or.inr (Or.inr (List.mem_cons_of_mem n hc))))
      · rw [totalSize_recombine, totalSize_recombine, mergedFree_size, totalSize_cons]
        omega
      · rw [insertAddr_length, eraseAddr_length, hlen16]
      · intro i hi a0 ha0
        rcases insertAddr_cases _ a _ i a0 ha0 with ⟨hieq, rfl⟩ | hmem
        · rw [listedEntryOk_iff]
          refine ⟨mergedFree Seg.tsize (b2.size + n.size), ?_, mergedFree_alloc _ _, ?_⟩
          · rw [ha]
            exact blkAt_recombine_self pre post2 _ Seg.heap_base hpospre
          · rw [mergedFree_size, hieq]
        · obtain ⟨hne, hold⟩ := mem_eraseAddr sl (a + b2.size) a0 i (hnodup i hi) hmem
          have hvalid := hlisted i hi a0 hold
          have hnota : a0 ≠ a := fun h => hnot i hi (h ▸ hold)
          rw [hNdec]
          rw [hMdec] at hvalid
          refine listedEntryOk_stable pre.reverse [b2, n] _ post2 i a0 hwin hwpos ?_ hvalid
          rw [totalSize_reverse, ← ha]
          exact blkAt_pair_none b2 n a a0 hnota hne
      · intro i hi
        refine insertAddr_nodup _ a _ ?_ ?_ i (by rw [insertAddr_length, eraseAddr_length]; exact hi)
        · intro j hj
          rw [eraseAddr_length] at hj
          exact nodup_eraseAddr sl _ j (hnodup j hj)
        · intro hmem
          have hidxlt : Seg.get_seglist_idx (b2.size + n.size) < sl.length := by
            rw [hlen16]
            exact Nat.lt_succ_of_le (get_seglist_idx_le15 _)
          obtain ⟨_, hold⟩ := mem_eraseAddr sl (a + b2.size) a _ (hnodup _ hidxlt) hmem
          exact hnot _ hidxlt hold
  case false =>
    rcases pre with _ | ⟨p, pre2⟩
    · simp [headAlloc] at hpa
    have hp : p.alloc = false := by simpa [headAlloc] using hpa
    have hppos := sizesOk_mem hsz ((mem_recombine p (p :: pre2) post b2).2
      (Or.inl (List.mem_cons_self p pre2)))
    have hpospre2 : ∀ x ∈ pre2, 0 < x.size := by
      intro x hx
      exact hposM x ((mem_recombine x (p :: pre2) post b2).2
        (Or.inl (List.mem_cons_of_mem p hx)))
    have ha2 : a - p.size = Seg.heap_base + totalSize pre2 := by
      rw [ha, totalSize_cons]
      omega
    have hage : p.size ≤ a := by
      rw [ha, totalSize_cons]
      omega
    cases hna : headAlloc post
    case true =>
      -- Case 3: previous free, fuse backward.
      have hT : coalesce_blocks Seg.tsize (p :: pre2) b2 post =
          (pre2, mergedFree Seg.tsize (p.size + b2.size), post) := by
        simp [coalesce_blocks, hpa, hna]
      have hSL : (Seg.coalesce sl a (p :: pre2) b2 post).1 =
          Seg.insertAddr (Seg.eraseAddr sl (a - p.size)) (a - p.size)
            (p.size + b2.size) := by
        rw [seg_coalesce_sl, hT]
        simp [hpa, hna, mergedFree_size, prevSize]
      have hMdec : recombine (p :: pre2) b2 post = pre2.reverse ++ ([p, b2] ++ post) :=
        recombine_cons_pre p pre2 post b2
      have hNdec : recombine pre2 (mergedFree Seg.tsize (p.size + b2.size)) post =
          pre2.reverse ++ ([mergedFree Seg.tsize (p.size + b2.size)] ++ post) := rfl
      have hwin : totalSize [p, b2] =
          totalSize [mergedFree Seg.tsize (p.size + b2.size)] := by
        simp [totalSize_cons, totalSize_nil, mergedFree_size]
      have hwpos : ∀ x ∈ [mergedFree Seg.tsize (p.size + b2.size)], 0 < x.size := by
        intro x hx
        simp at hx
        subst hx
        rw [mergedFree_size]
        omega
      rw [hT, hSL]
      dsimp only
      refine ⟨?_, ?_, ?_, ?_, ?_, ?_⟩
      · refine sizesOk_of_mem ?_
        intro c hc
        rcases (mem_recombine c pre2 post _).1 hc with hc | hc | hc
        · exact sizesOk_mem hsz ((mem_recombine c (p :: pre2) post b2).2
            (Or.inl (List.mem_cons_of_mem p hc)))
        · subst hc
          rw [mergedFree_size]
          omega
        · exact sizesOk_mem hsz ((mem_recombine c (p :: pre2) post b2).2
            (Or.inr (Or.inr hc)))
      · refine bytesLen_of_mem ?_
        intro c hc
        rcases (mem_recombine c pre2 post _).1 hc with hc | hc | hc
        · exact bytesLen_mem hbl ((mem_recombine c (p :: pre2) post b2).2
            (Or.inl (List.mem_cons_of_mem p hc)))
        · subst hc
          exact mergedFree_bytes_len _ _
        · exact bytesLen_mem hbl ((mem_recombine c (p :: pre2) post b2).2
            (Or.inr (Or.inr hc)))
      · rw [totalSize_recombine, totalSize_recombine, mergedFree_size, totalSize_cons]
        omega
      · rw [insertAddr_length, eraseAddr_length, hlen16]
      · intro i hi a0 ha0
        rcases insertAddr_cases _ (a - p.size) _ i a0 ha0 with ⟨hieq, rfl⟩ | hmem
        · rw [listedEntryOk_iff]
          refine ⟨mergedFree Seg.tsize (p.size + b2.size), ?_, mergedFree_alloc _ _, ?_⟩
          · rw [ha2]
            exact blkAt_recombine_self pre2 post _ Seg.heap_base hpospre2
          · rw [mergedFree_size, hieq]
        · obtain ⟨hne, hold⟩ := mem_eraseAddr sl (a - p.size) a0 i (hnodup i hi) hmem
          have hvalid := hlisted i hi a0 hold
          have hnota : a0 ≠ a := fun h => hnot i hi (h ▸ hold)
          rw [hNdec]
          rw [hMdec] at hvalid
          refine listedEntryOk_stable pre2.reverse [p, b2] _ post i a0 hwin hwpos ?_ hvalid
          rw [totalSize_reverse, ← ha2]
          refine blkAt_pair_none p b2 (a - p.size) a0 hne ?_
          rw [show a - p.size + p.size = a by omega]
          exact hnota
      · intro i hi
        refine insertAddr_nodup _ (a - p.size) _ ?_ ?_ i
          (by rw [insertAddr_length, eraseAddr_length]; exact hi)
        · intro j hj
          rw [eraseAddr_length] at hj
          exact nodup_eraseAddr sl _ j (hnodup j hj)
        · intro hmem
          have hidxlt : Seg.get_seglist_idx (p.size + b2.size) < sl.length := by
            rw [hlen16]
            exact Nat.lt_succ_of_le (get_seglist_idx_le15 _)
          obtain ⟨hne, _⟩ := mem_eraseAddr sl (a - p.size) _ _ (hnodup _ hidxlt) hmem
          exact hne rfl
    case false =>
      -- Case 4: both free, fuse both ways.
      rcases post with _ | ⟨n, post2⟩
      · simp [headAlloc] at hna
      have hn : n.alloc = false := by simpa [headAlloc] using hna
      have hnsz := sizesOk_mem hsz ((mem_recombine n (p :: pre2) (n :: post2) b2).2
        (Or.inr (Or.inr (List.mem_cons_self n post2))))
      have hT : coalesce_blocks Seg.tsize (p :: pre2) b2 (n :: post2) =
          (pre2, mergedFree Seg.tsize (b2.size + n.size + p.size), post2) := by
        simp [coalesce_blocks, hpa, hna]
      have hSL : (Seg.coalesce sl a (p :: pre2) b2 (n :: post2)).1 =
          Seg.insertAddr (Seg.eraseAddr (Seg.eraseAddr sl (a - p.size)) (a + b2.size))
            (a - p.size) (b2.size + n.size + p.size) := by
        rw [seg_coalesce_sl, hT]
        simp [hpa, hna, mergedFree_size, prevSize]
      have hMdec : recombine (p :: pre2) b2 (n :: post2) =
          pre2.reverse ++ ([p, b2, n] ++ post2) :=
        recombine_cons_both p pre2 post2 b2 n
      have hNdec : recombine pre2 (mergedFree Seg.tsize (b2.size + n.size + p.size)) post2 =
          pre2.reverse ++ ([mergedFree Seg.tsize (b2.size + n.size + p.size)] ++ post2) := rfl
      have hwin : totalSize [p, b2, n] =
          totalSize [mergedFree Seg.tsize (b2.size + n.size + p.size)] := by
        simp [totalSize_cons, totalSize_nil, mergedFree_size]
        omega
      have hwpos : ∀ x ∈ [mergedFree Seg.tsize (b2.size + n.size + p.size)], 0 < x.size := by
        intro x hx
        simp at hx
        subst hx
        rw [mergedFree_size]
        omega
      rw [hT, hSL]
      dsimp only
      refine ⟨?_, ?_, ?_, ?_, ?_, ?_⟩
      · refine sizesOk_of_mem ?_
        intro c hc
        rcases (mem_recombine c pre2 post2 _).1 hc with hc | hc | hc
        · exact sizesOk_mem hsz ((mem_recombine c (p :: pre2) (n :: post2) b2).2
            (Or.inl (List.mem_cons_of_mem p hc)))
        · subst hc
          rw [mergedFree_size]
          omega
        · exact sizesOk_mem hsz ((mem_recombine c (p :: pre2) (n :: post2) b2).2
            (Or.inr (Or.inr (List.mem_cons_of_mem n hc))))
      · refine bytesLen_of_mem ?_
        intro c hc
        rcases (mem_recombine c pre2 post2 _).1 hc with hc | hc | hc
        · exact bytesLen_mem hbl ((mem_recombine c (p :: pre2) (n :: post2) b2).2
            (Or.inl (List.mem_cons_of_mem p hc)))
        · subst hc
          exact mergedFree_bytes_len _ _
        · exact bytesLen_mem hbl ((mem_recombine c (p :: pre2) (n :: post2) b2).2
            (Or.inr (Or.inr (List.mem_cons_of_mem n hc))))
      · rw [totalSize_recombine, totalSize_recombine, mergedFree_size, totalSize_cons,
          totalSize_cons]
        omega
      · rw [insertAddr_length, eraseAddr_length, eraseAddr_length, hlen16]
      · intro i hi a0 ha0
        rcases insertAddr_cases _ (a - p.size) _ i a0 ha0 with ⟨hieq, rfl⟩ | hmem
        · rw [listedEntryOk_iff]
          refine ⟨mergedFree Seg.tsize (b2.size + n.size + p.size), ?_,
            mergedFree_alloc _ _, ?_⟩
          · rw [ha2]
            exact blkAt_recombine_self pre2 post2 _ Seg.heap_base hpospre2
          · rw [mergedFree_size, hieq]
        · obtain ⟨hne2, hmem2⟩ := mem_eraseAddr _ (a + b2.size) a0 i
            (nodup_eraseAddr sl _ i (hnodup i hi)) hmem
          obtain ⟨hne1, hold⟩ := mem_eraseAddr sl (a - p.size) a0 i (hnodup i hi) hmem2
          have hvalid := hlisted i hi a0 hold
          have hnota : a0 ≠ a := fun h => hnot i hi (h ▸ hold)
          rw [hNdec]
          rw [hMdec] at hvalid
          refine listedEntryOk_stable pre2.reverse [p, b2, n] _ post2 i a0 hwin hwpos ?_ hvalid
          rw [totalSize_reverse, ← ha2]
          refine blkAt_triple_none p b2 n (a - p.size) a0 hne1 ?_ ?_
          · rw [show a - p.size + p.size = a by omega]
            exact hnota
          · rw [show a - p.size + p.size + b2.size = a + b2.size by omega]
            exact hne2
      · intro i hi
        refine insertAddr_nodup _ (a - p.size) _ ?_ ?_ i
          (by rw [insertAddr_length, eraseAddr_length, eraseAddr_length]; exact hi)
        · intro j hj
          rw [eraseAddr_length, eraseAddr_length] at hj
          exact nodup_eraseAddr _ _ j (nodup_eraseAddr sl _ j (hnodup j hj))
        · intro hmem
          have hidxlt : Seg.get_seglist_idx (b2.size + n.size + p.size) < sl.length := by
            rw [hlen16]
            exact Nat.lt_succ_of_le (get_seglist_idx_le15 _)
          obtain ⟨_, hmem2⟩ := mem_eraseAddr _ (a + b2.size) _ _
            (nodup_eraseAddr sl _ _ (hnodup _ hidxlt)) hmem
          obtain ⟨hne, _⟩ := mem_eraseAddr sl (a - p.size) _ _ (hnodup _ hidxlt) hmem2
          exact hne rfl

theorem seg_free_budget (s : Seg.State) (p : Option Nat) :
    (Seg.free s p).budget = s.budget ∧ (Seg.free s p).initialized = s.initialized := by
  cases p with
  | none => exact ⟨rfl, rfl⟩
  | some pp =>
    cases hz : zipTo s.blocks Seg.heap_base (pp - Seg.dsize) with
    | none =>
      show (Seg.free s (some pp)).budget = s.budget ∧ _
      simp [Seg.free, hz]
    | some w =>
      obtain ⟨pre, b, post⟩ := w
      rw [seg_free_eq s pp pre post b hz]
      exact ⟨rfl, rfl⟩

/-- free preserves well-formedness when applied to an allocated block of
the heap. -/
theorem seg_free_WF (s : Seg.State) (pp : Nat)
    (hWF : Seg.WF s)
    (hblk : ∃ c, blkAt s.blocks Seg.heap_base (pp - Seg.dsize) = some c ∧ c.alloc = true) :
    Seg.WF (Seg.free s (some pp)) ∧
    totalSize (Seg.free s (some pp)).blocks = totalSize s.blocks := by
  obtain ⟨hini, hlen, hsz, hbl, hbud, hlisted, hnodup⟩ := hWF
  obtain ⟨c, hc, hcal⟩ := hblk
  obtain ⟨pre, post, hz⟩ := zipTo_of_blkAt _ _ _ _ hc
  obtain ⟨heq, haddr⟩ := zipTo_eq _ _ _ _ _ _ hz
  have hcmem : c ∈ s.blocks := by
    rw [heq]
    exact (mem_recombine c pre post c).2 (Or.inr (Or.inl rfl))
  have hcsz := sizesOk_mem hsz hcmem
  have hm : Seg.min_block_size = 32 := rfl
  -- facts about the marked state M = recombine pre b2 post
  have hszM : Seg.sizesOkB Seg.min_block_size
      (recombine pre ⟨c.size, false, List.replicate (c.size - Seg.tsize) 0⟩ post) = true := by
    refine sizesOk_of_mem ?_
    intro x hx
    rcases (mem_recombine x pre post _).1 hx with hx | hx | hx
    · exact sizesOk_mem hsz (heq ▸ (mem_recombine x pre post c).2 (Or.inl hx))
    · subst hx
      exact hcsz
    · exact sizesOk_mem hsz (heq ▸ (mem_recombine x pre post c).2 (Or.inr (Or.inr hx)))
  have hblM : Seg.bytesLenOkB Seg.tsize
      (recombine pre ⟨c.size, false, List.replicate (c.size - Seg.tsize) 0⟩ post) = true := by
    refine bytesLen_of_mem ?_
    intro x hx
    rcases (mem_recombine x pre post _).1 hx with hx | hx | hx
    · exact bytesLen_mem hbl (heq ▸ (mem_recombine x pre post c).2 (Or.inl hx))
    · subst hx
      simp
    · exact bytesLen_mem hbl (heq ▸ (mem_recombine x pre post c).2 (Or.inr (Or.inr hx)))
  have hnot : ∀ i < s.seglist.length, (pp - Seg.dsize) ∉ s.seglist.getD i [] := by
    intro i hi hmem
    have hv := hlisted i hi _ hmem
    rw [listedEntryOk_iff] at hv
    obtain ⟨d, hd, hdal, _⟩ := hv
    rw [hc] at hd
    injection hd with hd
    rw [hd] at hcal
    simp [hcal] at hdal
  have hlistedM : ∀ i < s.seglist.length, ∀ a0 ∈ s.seglist.getD i [],
      Seg.listedEntryOkB
        (recombine pre ⟨c.size, false, List.replicate (c.size - Seg.tsize) 0⟩ post) i a0 = true := by
    intro i hi a0 ha0
    have hv := hlisted i hi a0 ha0
    rw [heq] at hv
    have hnota : a0 ≠ pp - Seg.dsize := by
      intro he
      exact hnot i hi (he ▸ ha0)
    have hMdec : recombine pre c post = pre.reverse ++ ([c] ++ post) := rfl
    have hNdec : recombine pre ⟨c.size, false, List.replicate (c.size - Seg.tsize) 0⟩ post =
        pre.reverse ++ ([⟨c.size, false, List.replicate (c.size - Seg.tsize) 0⟩] ++ post) := rfl
    rw [hNdec]
    rw [hMdec] at hv
    refine listedEntryOk_stable pre.reverse [c] _ post i a0 ?_ ?_ ?_ hv
    · simp [totalSize_cons, totalSize_nil]
    · intro x hx
      simp at hx
      subst hx
      simp only []
      omega
    · rw [totalSize_reverse, ← haddr]
      exact blkAt_single_none c _ a0 hnota
  have hstep := seg_coalesce_step s.seglist pre post
    ⟨c.size, false, List.replicate (c.size - Seg.tsize) 0⟩ (pp - Seg.dsize) haddr rfl
    (by simpa using hcsz) hlen hszM hblM hlistedM hnodup hnot
  obtain ⟨c1, c2, c3, c4, c5, c6⟩ := hstep
  rw [seg_free_eq s pp pre post c hz]
  have htot : totalSize
      (recombine (coalesce_blocks Seg.tsize pre
          ⟨c.size, false, List.replicate (c.size - Seg.tsize) 0⟩ post).1
        (coalesce_blocks Seg.tsize pre
          ⟨c.size, false, List.replicate (c.size - Seg.tsize) 0⟩ post).2.1
        (coalesce_blocks Seg.tsize pre
          ⟨c.size, false, List.replicate (c.size - Seg.tsize) 0⟩ post).2.2) =
      totalSize s.blocks := by
    rw [c3, heq, totalSize_recombine, totalSize_recombine]
  refine ⟨⟨hini, ?_, c1, c2, ?_, ?_, ?_⟩, htot⟩
  · rw [show ({ s with
        blocks := recombine (coalesce_blocks Seg.tsize pre
            ⟨c.size, false, List.replicate (c.size - Seg.tsize) 0⟩ post).1
          (coalesce_blocks Seg.tsize pre
            ⟨c.size, false, List.replicate (c.size - Seg.tsize) 0⟩ post).2.1
          (coalesce_blocks Seg.tsize pre
            ⟨c.size, false, List.replicate (c.size - Seg.tsize) 0⟩ post).2.2
        seglist := (Seg.coalesce s.seglist (pp - Seg.dsize) pre
          ⟨c.size, false, List.replicate (c.size - Seg.tsize) 0⟩ post).1 } : Seg.State).seglist =
      (Seg.coalesce s.seglist (pp - Seg.dsize) pre
        ⟨c.size, false, List.replicate (c.size - Seg.tsize) 0⟩ post).1 from rfl, c4, hlen]
  · rw [htot]
    exact hbud
  · intro i hi a0 ha0
    refine c5 i ?_ a0 ha0
    rw [← c4]
    exact hi
  · intro i hi
    refine c6 i ?_
    rw [← c4]
    exact hi

theorem blkAt_none_of_lt (l : List Blk) : ∀ base a, a < base → blkAt l base a = none := by
  induction l with
  | nil => intro base a _; rfl
  | cons b t ih =>
    intro base a h
    simp only [blkAt]
    rw [if_neg (by omega)]
    exact ih (base + b.size) a (by omega)

theorem blkAt_recombine_second (pre post : List Blk) (x y : Blk) (base : Nat)
    (hpos : ∀ q ∈ pre, 0 < q.size) (hx : 0 < x.size) :
    blkAt (pre.reverse ++ ([x, y] ++ post)) base (base + totalSize pre + x.size) = some y := by
  rw [blkAt_append_right pre.reverse _ base _
    (blkAt_none_of_ge _ _ _ (fun q hq => hpos q (List.mem_reverse.1 hq))
      (by rw [totalSize_reverse]; omega))]
  rw [totalSize_reverse]
  simp only [blkAt, List.cons_append, List.nil_append]
  rw [if_neg (by omega)]
  simp

/-- The coalesce result block is readable at the returned address, is
free, and is at least as large as the input block. -/
theorem seg_coalesce_result (sl : Seg.Seglist) (pre post : List Blk) (b2 : Blk) (a : Nat)
    (ha : a = Seg.heap_base + totalSize pre)
    (hb2 : b2.alloc = false)
    (hpospre : ∀ x ∈ pre, 0 < x.size) :
    blkAt (recombine (coalesce_blocks Seg.tsize pre b2 post).1
        (coalesce_blocks Seg.tsize pre b2 post).2.1
        (coalesce_blocks Seg.tsize pre b2 post).2.2) Seg.heap_base
      ((Seg.coalesce sl a pre b2 post).2.2) =
      some (coalesce_blocks Seg.tsize pre b2 post).2.1 ∧
    b2.size ≤ (coalesce_blocks Seg.tsize pre b2 post).2.1.size ∧
    (coalesce_blocks Seg.tsize pre b2 post).2.1.alloc = false := by
  rw [seg_coalesce_a2]
  cases hpa : headAlloc pre
  case true =>
    cases hna : headAlloc post
    case true =>
      have hT : coalesce_blocks Seg.tsize pre b2 post = (pre, b2, post) := by
        simp [coalesce_blocks, hpa, hna]
      rw [hT, if_pos rfl]
      dsimp only
      rw [ha]
      exact ⟨blkAt_recombine_self pre post b2 Seg.heap_base hpospre, le_rfl, hb2⟩
    case false =>
      rcases post with _ | ⟨n, post2⟩
      · simp [headAlloc] at hna
      have hT : coalesce_blocks Seg.tsize pre b2 (n :: post2) =
          (pre, mergedFree Seg.tsize (b2.size + n.size), post2) := by
        simp [coalesce_blocks, hpa, hna]
      rw [hT, if_pos rfl]
      dsimp only
      rw [ha]
      exact ⟨blkAt_recombine_self pre post2 _ Seg.heap_base hpospre,
        by rw [mergedFree_size]; omega, mergedFree_alloc _ _⟩
  case false =>
    rcases pre with _ | ⟨p, pre2⟩
    · simp [headAlloc] at hpa
    have hpospre2 : ∀ x ∈ pre2, 0 < x.size :=
      fun x hx => hpospre x (List.mem_cons_of_mem p hx)
    have ha2 : a - prevSize (p :: pre2) = Seg.heap_base + totalSize pre2 := by
      rw [ha, totalSize_cons]
      simp only [prevSize]
      omega
    cases hna : headAlloc post
    case true =>
      have hT : coalesce_blocks Seg.tsize (p :: pre2) b2 post =
          (pre2, mergedFree Seg.tsize (p.size + b2.size), post) := by
        simp [coalesce_blocks, hpa, hna]
      rw [hT, if_neg (by simp)]
      dsimp only
      rw [ha2]
      exact ⟨blkAt_recombine_self pre2 post _ Seg.heap_base hpospre2,
        by rw [mergedFree_size]; omega, mergedFree_alloc _ _⟩
    case false =>
      rcases post with _ | ⟨n, post2⟩
      · simp [headAlloc] at hna
      have hT : coalesce_blocks Seg.tsize (p :: pre2) b2 (n :: post2) =
          (pre2, mergedFree Seg.tsize (b2.size + n.size + p.size), post2) := by
        simp [coalesce_blocks, hpa, hna]
      rw [hT, if_neg (by simp)]
      dsimp only
      rw [ha2]
      exact ⟨blkAt_recombine_self pre2 post2 _ Seg.heap_base hpospre2,
        by rw [mergedFree_size]; omega, mergedFree_alloc _ _⟩

/-- split_block preserves all well-formedness components when the split
address is on no free list and both parts satisfy the size discipline. -/
theorem seg_split_WF (s : Seg.State) (a asize : Nat) (pre post : List Blk) (b : Blk)
    (hz : zipTo s.blocks Seg.heap_base a = some (pre, b, post))
    (hlen : s.seglist.length = 16)
    (hsz : Seg.sizesOkB Seg.min_block_size s.blocks = true)
    (hbl : Seg.bytesLenOkB Seg.tsize s.blocks = true)
    (hlisted : ∀ i < s.seglist.length, ∀ a0 ∈ s.seglist.getD i [],
      Seg.listedEntryOkB s.blocks i a0 = true)
    (hnodup : ∀ i < s.seglist.length, (s.seglist.getD i []).Nodup)
    (hnot : ∀ i < s.seglist.length, a ∉ s.seglist.getD i [])
    (hasz : asize % 8 = 0 ∧ Seg.min_block_size ≤ asize)
    (hcut : Seg.min_block_size ≤ b.size - asize) :
    Seg.sizesOkB Seg.min_block_size (Seg.split_block s a asize).blocks = true ∧
    Seg.bytesLenOkB Seg.tsize (Seg.split_block s a asize).blocks = true ∧
    totalSize (Seg.split_block s a asize).blocks = totalSize s.blocks ∧
    (Seg.split_block s a asize).seglist.length = s.seglist.length ∧
    (∀ i < s.seglist.length, ∀ a0 ∈ (Seg.split_block s a asize).seglist.getD i [],
      Seg.listedEntryOkB (Seg.split_block s a asize).blocks i a0 = true) ∧
    (∀ i < s.seglist.length, ((Seg.split_block s a asize).seglist.getD i []).Nodup) := by
  have hm : Seg.min_block_size = 32 := rfl
  obtain ⟨heq, haddr⟩ := zipTo_eq _ _ _ _ _ _ hz
  have hbmem : b ∈ s.blocks := by
    rw [heq]
    exact (mem_recombine b pre post b).2 (Or.inr (Or.inl rfl))
  have hbsz := sizesOk_mem hsz hbmem
  have hblen := bytesLen_mem hbl hbmem
  have hpospre : ∀ x ∈ pre, 0 < x.size := by
    intro x hx
    have := sizesOk_mem hsz (heq ▸ (mem_recombine x pre post b).2 (Or.inl hx))
    omega
  have hts : Seg.tsize = 12 := rfl
  rw [seg_split_eq s a asize pre post b hz]
  have hMdec : recombine pre b post = pre.reverse ++ ([b] ++ post) := rfl
  have hNdec : recombine pre (⟨asize, true, b.bytes.take (asize - Seg.tsize)⟩ : Blk)
      ((⟨b.size - asize, false, List.replicate (b.size - asize - Seg.tsize) 0⟩ : Blk) :: post) =
      pre.reverse ++ ([⟨asize, true, b.bytes.take (asize - Seg.tsize)⟩,
        ⟨b.size - asize, false, List.replicate (b.size - asize - Seg.tsize) 0⟩] ++ post) := rfl
  have hinsnone : blkAt s.blocks Seg.heap_base (a + asize) = none := by
    rw [heq, hMdec]
    rw [blkAt_append_right pre.reverse _ Seg.heap_base _
      (blkAt_none_of_ge _ _ _ (fun q hq => hpospre q (List.mem_reverse.1 hq))
        (by rw [totalSize_reverse, ← haddr]; omega))]
    rw [totalSize_reverse, ← haddr]
    rw [blkAt_append_right [b] post a _ (blkAt_single_none b a (a + asize) (by omega))]
    refine blkAt_none_of_lt post _ _ ?_
    rw [totalSize_cons, totalSize_nil]
    omega
  refine ⟨?_, ?_, ?_, ?_, ?_, ?_⟩
  · refine sizesOk_of_mem ?_
    intro c hc
    rcases (mem_recombine c pre _ _).1 hc with hc | hc | hc
    · exact sizesOk_mem hsz (heq ▸ (mem_recombine c pre post b).2 (Or.inl hc))
    · subst hc
      simp only []
      omega
    · rcases List.mem_cons.1 hc with hc | hc
      · subst hc
        simp only []
        omega
      · exact sizesOk_mem hsz (heq ▸ (mem_recombine c pre post b).2 (Or.inr (Or.inr hc)))
  · refine bytesLen_of_mem ?_
    intro c hc
    rcases (mem_recombine c pre _ _).1 hc with hc | hc | hc
    · exact bytesLen_mem hbl (heq ▸ (mem_recombine c pre post b).2 (Or.inl hc))
    · subst hc
      simp only [List.length_take]
      omega
    · rcases List.mem_cons.1 hc with hc | hc
      · subst hc
        simp
      · exact bytesLen_mem hbl (heq ▸ (mem_recombine c pre post b).2 (Or.inr (Or.inr hc)))
  · rw [totalSize_recombine, heq, totalSize_recombine, totalSize_cons]
    dsimp only
    omega
  · rw [insertAddr_length]
  · intro i hi a0 ha0
    rcases insertAddr_cases _ (a + asize) _ i a0 ha0 with ⟨hieq, rfl⟩ | hmem
    · rw [listedEntryOk_iff]
      refine ⟨⟨b.size - asize, false, List.replicate (b.size - asize - Seg.tsize) 0⟩, ?_, rfl, ?_⟩
      · rw [hNdec, haddr]
        exact blkAt_recombine_second pre post _ _ Seg.heap_base hpospre (by simp only []; omega)
      · simp only []
        rw [hieq]
    · have hv := hlisted i hi a0 hmem
      have hnota : a0 ≠ a := fun he => hnot i hi (he ▸ hmem)
      rw [heq, hMdec] at hv
      rw [hNdec]
      refine listedEntryOk_stable pre.reverse [b] _ post i a0 ?_ ?_ ?_ hv
      · simp [totalSize_cons, totalSize_nil]
        omega
      · intro x hx
        rcases List.mem_cons.1 hx with hx | hx
        · subst hx
          simp only []
          omega
        · rcases List.mem_cons.1 hx with hx | hx
          · subst hx
            simp only []
            omega
          · simp at hx
      · rw [totalSize_reverse, ← haddr]
        exact blkAt_single_none b a a0 hnota
  · intro i hi
    refine insertAddr_nodup _ (a + asize) _ hnodup ?_ i (by rw [insertAddr_length]; exact hi)
    intro hmem
    have hidxlt : Seg.get_seglist_idx (b.size - asize) < s.seglist.length := by
      rw [hlen]
      exact Nat.lt_succ_of_le (get_seglist_idx_le15 _)
    have hv := hlisted _ hidxlt _ hmem
    rw [listedEntryOk_iff] at hv
    obtain ⟨d, hd, _, _⟩ := hv
    rw [hinsnone] at hd
    cases hd

/-- place keeps the no-adjacent-free invariant when it is handed a free
block (as find_fit guarantees). -/
theorem seg_place_noAdj (s : Seg.State) (a asize : Nat) (pre post : List Blk) (b : Blk)
    (hz : zipTo s.blocks Seg.heap_base a = some (pre, b, post))
    (hfree : b.alloc = false)
    (hnoadj : noAdjFreeB s.blocks = true) :
    noAdjFreeB (Seg.place s a asize).blocks = true := by
  obtain ⟨heq, haddr⟩ := zipTo_eq _ _ _ _ _ _ hz
  rw [heq] at hnoadj
  obtain ⟨h1, h2⟩ := noAdj_split pre post b hnoadj
  have hpre : noAdjFreeB pre = true := noAdj_of_cons _ _ h1
  have hpost : noAdjFreeB post = true := noAdj_of_cons _ _ h2
  have hhA : headAlloc pre = true ∨ pre = [] ∨ noAdjFreeB (b :: pre) = true := Or.inr (Or.inr h1)
  by_cases hcut : Seg.min_block_size ≤ b.size - asize
  · rw [seg_place_eq_split s a asize pre post b hz hcut]
    rw [noAdjB_recombine, Bool.and_eq_true]
    constructor
    · exact noAdj_cons_of_alloc _ _ rfl hpre
    · refine noAdj_cons_of_alloc _ _ rfl ?_
      exact noAdj_cons_of_headAlloc _ _ (headAlloc_of_noAdj_cons b post hfree h2) hpost
  · rw [seg_place_eq_whole s a asize pre post b hz hcut]
    rw [noAdjB_recombine, Bool.and_eq_true]
    exact ⟨noAdj_cons_of_alloc _ _ rfl hpre, noAdj_cons_of_alloc _ _ rfl hpost⟩

/-- place preserves all well-formedness components; the placed block is
readable at a, allocated, of size at least asize when asize fits. -/
theorem seg_place_WF (s : Seg.State) (a asize : Nat) (pre post : List Blk) (b : Blk)
    (hz : zipTo s.blocks Seg.heap_base a = some (pre, b, post))
    (hlen : s.seglist.length = 16)
    (hsz : Seg.sizesOkB Seg.min_block_size s.blocks = true)
    (hbl : Seg.bytesLenOkB Seg.tsize s.blocks = true)
    (hlisted : ∀ i < s.seglist.length, ∀ a0 ∈ s.seglist.getD i [],
      Seg.listedEntryOkB s.blocks i a0 = true)
    (hnodup : ∀ i < s.seglist.length, (s.seglist.getD i []).Nodup)
    (hasz : asize % 8 = 0 ∧ Seg.min_block_size ≤ asize) :
    Seg.sizesOkB Seg.min_block_size (Seg.place s a asize).blocks = true ∧
    Seg.bytesLenOkB Seg.tsize (Seg.place s a asize).blocks = true ∧
    totalSize (Seg.place s a asize).blocks = totalSize s.blocks ∧
    (Seg.place s a asize).seglist.length = s.seglist.length ∧
    (∀ i < s.seglist.length, ∀ a0 ∈ (Seg.place s a asize).seglist.getD i [],
      Seg.listedEntryOkB (Seg.place s a asize).blocks i a0 = true) ∧
    (∀ i < s.seglist.length, ((Seg.place s a asize).seglist.getD i []).Nodup) ∧
    (asize ≤ b.size →
      ∃ d, blkAt (Seg.place s a asize).blocks Seg.heap_base a = some d ∧
        d.alloc = true ∧ asize ≤ d.size ∧ d.bytes.length = d.size - Seg.tsize) := by
  have hm : Seg.min_block_size = 32 := rfl
  obtain ⟨heq, haddr⟩ := zipTo_eq _ _ _ _ _ _ hz
  have hbmem : b ∈ s.blocks := by
    rw [heq]
    exact (mem_recombine b pre post b).2 (Or.inr (Or.inl rfl))
  have hbsz := sizesOk_mem hsz hbmem
  have hblen := bytesLen_mem hbl hbmem
  have hpospre : ∀ x ∈ pre, 0 < x.size := by
    intro x hx
    have := sizesOk_mem hsz (heq ▸ (mem_recombine x pre post b).2 (Or.inl hx))
    omega
  -- the intermediate state with a spliced off every list
  have hlen1 : (Seg.eraseAddr s.seglist a).length = s.seglist.length := eraseAddr_length _ _
  have hlisted1 : ∀ i < s.seglist.length, ∀ a0 ∈ (Seg.eraseAddr s.seglist a).getD i [],
      Seg.listedEntryOkB s.blocks i a0 = true := by
    intro i hi a0 ha0
    obtain ⟨_, hold⟩ := mem_eraseAddr s.seglist a a0 i (hnodup i hi) ha0
    exact hlisted i hi a0 hold
  have hnodup1 : ∀ i < s.seglist.length, ((Seg.eraseAddr s.seglist a).getD i []).Nodup :=
    fun i hi => nodup_eraseAddr s.seglist a i (hnodup i hi)
  have hnot1 : ∀ i < s.seglist.length, a ∉ (Seg.eraseAddr s.seglist a).getD i [] := by
    intro i hi hmem
    exact (mem_eraseAddr s.seglist a a i (hnodup i hi) hmem).1 rfl
  by_cases hcut : Seg.min_block_size ≤ b.size - asize
  · have hplace : Seg.place s a asize =
        Seg.split_block { s with seglist := Seg.eraseAddr s.seglist a } a asize :=
      (seg_place_eq_split s a asize pre post b hz hcut).trans
        (seg_split_eq { s with seglist := Seg.eraseAddr s.seglist a } a asize pre post b hz).symm
    have hstep := seg_split_WF { s with seglist := Seg.eraseAddr s.seglist a } a asize
      pre post b hz (by rw [show ({ s with seglist := Seg.eraseAddr s.seglist a } : Seg.State).seglist = Seg.eraseAddr s.seglist a from rfl, hlen1, hlen]) hsz hbl
      (by rw [show ({ s with seglist := Seg.eraseAddr s.seglist a } : Seg.State).seglist = Seg.eraseAddr s.seglist a from rfl, hlen1]; exact hlisted1)
      (by rw [show ({ s with seglist := Seg.eraseAddr s.seglist a } : Seg.State).seglist = Seg.eraseAddr s.seglist a from rfl, hlen1]; exact hnodup1)
      (by rw [show ({ s with seglist := Seg.eraseAddr s.seglist a } : Seg.State).seglist = Seg.eraseAddr s.seglist a from rfl, hlen1]; exact hnot1)
      hasz hcut
    obtain ⟨c1, c2, c3, c4, c5, c6⟩ := hstep
    rw [hplace]
    refine ⟨c1, c2, c3, by rw [c4, hlen1], ?_, ?_, ?_⟩
    · intro i hi a0 ha0
      refine c5 i ?_ a0 ha0
      rw [hlen1]
      exact hi
    · intro i hi
      refine c6 i ?_
      rw [hlen1]
      exact hi
    · intro hfit
      refine ⟨⟨asize, true, b.bytes.take (asize - Seg.tsize)⟩, ?_, rfl, le_rfl, ?_⟩
      · rw [seg_split_eq { s with seglist := Seg.eraseAddr s.seglist a } a asize pre post b hz]
        rw [show recombine pre (⟨asize, true, b.bytes.take (asize - Seg.tsize)⟩ : Blk)
            ((⟨b.size - asize, false, List.replicate (b.size - asize - Seg.tsize) 0⟩ : Blk) :: post) =
            pre.reverse ++ ([⟨asize, true, b.bytes.take (asize - Seg.tsize)⟩,
              ⟨b.size - asize, false, List.replicate (b.size - asize - Seg.tsize) 0⟩] ++ post)
          from rfl]
        rw [haddr]
        rw [blkAt_append_right pre.reverse _ Seg.heap_base _
          (blkAt_none_of_ge _ _ _ (fun q hq => hpospre q (List.mem_reverse.1 hq))
            (by rw [totalSize_reverse]))]
        rw [totalSize_reverse]
        simp [blkAt]
      · simp only [List.length_take]
        have hts : Seg.tsize = 12 := rfl
        omega
  · rw [seg_place_eq_whole s a asize pre post b hz hcut]
    have hNdec : recombine pre ({ b with alloc := true }) post =
        pre.reverse ++ ([{ b with alloc := true }] ++ post) := rfl
    have hMdec : recombine pre b post = pre.reverse ++ ([b] ++ post) := rfl
    refine ⟨?_, ?_, ?_, ?_, ?_, ?_, ?_⟩
    · refine sizesOk_of_mem ?_
      intro c hc
      rcases (mem_recombine c pre _ _).1 hc with hc | hc | hc
      · exact sizesOk_mem hsz (heq ▸ (mem_recombine c pre post b).2 (Or.inl hc))
      · subst hc
        simpa using hbsz
      · exact sizesOk_mem hsz (heq ▸ (mem_recombine c pre post b).2 (Or.inr (Or.inr hc)))
    · refine bytesLen_of_mem ?_
      intro c hc
      rcases (mem_recombine c pre _ _).1 hc with hc | hc | hc
      · exact bytesLen_mem hbl (heq ▸ (mem_recombine c pre post b).2 (Or.inl hc))
      · subst hc
        simpa using hblen
      · exact bytesLen_mem hbl (heq ▸ (mem_recombine c pre post b).2 (Or.inr (Or.inr hc)))
    · rw [totalSize_recombine, heq, totalSize_recombine]
    · rw [hlen1]
    · intro i hi a0 ha0
      obtain ⟨hne, hold⟩ := mem_eraseAddr s.seglist a a0 i (hnodup i hi) ha0
      have hv := hlisted i hi a0 hold
      rw [heq, hMdec] at hv
      rw [hNdec]
      refine listedEntryOk_stable pre.reverse [b] _ post i a0 ?_ ?_ ?_ hv
      · simp [totalSize_cons, totalSize_nil]
      · intro x hx
        rcases List.mem_cons.1 hx with hx | hx
        · subst hx
          simp only []
          omega
        · simp at hx
      · rw [totalSize_reverse, ← haddr]
        exact blkAt_single_none b a a0 hne
    · exact fun i hi => nodup_eraseAddr s.seglist a i (hnodup i hi)
    · intro hfit
      refine ⟨{ b with alloc := true }, ?_, rfl, hfit, by simpa using hblen⟩
      rw [hNdec, haddr]
      rw [blkAt_append_right pre.reverse _ Seg.heap_base _
        (blkAt_none_of_ge _ _ _ (fun q hq => hpospre q (List.mem_reverse.1 hq))
          (by rw [totalSize_reverse]))]
      rw [totalSize_reverse]
      simp [blkAt]

theorem recombine_reverse_nil (l : List Blk) (x : Blk) :
    recombine l.reverse x [] = l ++ [x] := by
  simp [recombine]

theorem totalSize_mod8 (l : List Blk) (h : ∀ x ∈ l, x.size % 8 = 0) :
    totalSize l % 8 = 0 := by
  induction l with
  | nil => rfl
  | cons b t ih =>
    rw [totalSize_cons]
    have h1 := h b (by simp)
    have h2 := ih (fun x hx => h x (by simp [hx]))
    omega

theorem blkAt_addr_mod8 (l : List Blk) : ∀ base a c, blkAt l base a = some c →
    base % 8 = 0 → (∀ x ∈ l, x.size % 8 = 0) → a % 8 = 0 := by
  induction l with
  | nil => intro base a c h _ _; simp [blkAt] at h
  | cons b t ih =>
    intro base a c h hb hall
    simp only [blkAt] at h
    by_cases hab : a = base
    · omega
    · rw [if_neg hab] at h
      refine ih (base + b.size) a c h ?_ (fun x hx => hall x (by simp [hx]))
      have := hall b (by simp)
      omega

theorem seg_extend_eq (s : Seg.State) (size : Nat)
    (hbud : round_up size Seg.dsize ≤ s.budget) :
    Seg.extend_heap s size = some ({ s with
      blocks := recombine
        (coalesce_blocks Seg.tsize s.blocks.reverse
          ⟨round_up size Seg.dsize, false,
            List.replicate (round_up size Seg.dsize - Seg.tsize) 0⟩ []).1
        (coalesce_blocks Seg.tsize s.blocks.reverse
          ⟨round_up size Seg.dsize, false,
            List.replicate (round_up size Seg.dsize - Seg.tsize) 0⟩ []).2.1
        (coalesce_blocks Seg.tsize s.blocks.reverse
          ⟨round_up size Seg.dsize, false,
            List.replicate (round_up size Seg.dsize - Seg.tsize) 0⟩ []).2.2
      seglist := (Seg.coalesce s.seglist (Seg.heap_base + totalSize s.blocks) s.blocks.reverse
        ⟨round_up size Seg.dsize, false,
          List.replicate (round_up size Seg.dsize - Seg.tsize) 0⟩ []).1
      budget := s.budget - round_up size Seg.dsize },
      (Seg.coalesce s.seglist (Seg.heap_base + totalSize s.blocks) s.blocks.reverse
        ⟨round_up size Seg.dsize, false,
          List.replicate (round_up size Seg.dsize - Seg.tsize) 0⟩ []).2.2) := by
  simp only [Seg.extend_heap, if_pos hbud]
  rcases h : Seg.coalesce s.seglist (Seg.heap_base + totalSize s.blocks) s.blocks.reverse
    ⟨round_up size Seg.dsize, false, List.replicate (round_up size Seg.dsize - Seg.tsize) 0⟩ []
    with ⟨sl2, ⟨pre2, b3, post2⟩, a2⟩
  rw [← seg_coalesce_trip s.seglist (Seg.heap_base + totalSize s.blocks) s.blocks.reverse []
    ⟨round_up size Seg.dsize, false, List.replicate (round_up size Seg.dsize - Seg.tsize) 0⟩, h]

theorem seg_extend_none (s : Seg.State) (size : Nat)
    (hbud : ¬ round_up size Seg.dsize ≤ s.budget) :
    Seg.extend_heap s size = none := by
  simp only [Seg.extend_heap, if_neg hbud]

/-- extend_heap preserves the no-adjacent-free invariant: the new block is
coalesced with a possibly free last block. -/
theorem seg_extend_noAdj (s : Seg.State) (size : Nat) (s2 : Seg.State) (a2 : Nat)
    (he : Seg.extend_heap s size = some (s2, a2))
    (h : noAdjFreeB s.blocks = true) : noAdjFreeB s2.blocks = true := by
  by_cases hbud : round_up size Seg.dsize ≤ s.budget
  · rw [seg_extend_eq s size hbud] at he
    injection he with he
    injection he with he1 he2
    rw [← he1]
    exact coalesce_blocks_noAdj Seg.tsize s.blocks.reverse [] _ rfl
      (by rw [noAdjFreeB_reverse]; exact h) rfl
  · rw [seg_extend_none s size hbud] at he
    cases he


theorem blkAt_mem (l : List Blk) : ∀ base a c, blkAt l base a = some c → c ∈ l := by
  induction l with
  | nil => intro base a c h; simp [blkAt] at h
  | cons b t ih =>
    intro base a c h
    simp only [blkAt] at h
    by_cases hab : a = base
    · rw [if_pos hab] at h
      injection h with h
      subst h
      simp
    · rw [if_neg hab] at h
      exact List.mem_cons_of_mem b (ih _ _ _ h)

/-- extend_heap preserves well-formedness; the returned address holds a
free block at least as large as the rounded request, and the footprint
accounting moves the requested bytes from the budget into the heap. -/
theorem seg_extend_WF (s : Seg.State) (size : Nat) (s2 : Seg.State) (a2 : Nat)
    (he : Seg.extend_heap s size = some (s2, a2))
    (hge : Seg.min_block_size ≤ size)
    (hsize64 : size + 7 < 2 ^ 64)
    (hlen : s.seglist.length = 16)
    (hsz : Seg.sizesOkB Seg.min_block_size s.blocks = true)
    (hbl : Seg.bytesLenOkB Seg.tsize s.blocks = true)
    (hlisted : ∀ i < s.seglist.length, ∀ a0 ∈ s.seglist.getD i [],
      Seg.listedEntryOkB s.blocks i a0 = true)
    (hnodup : ∀ i < s.seglist.length, (s.seglist.getD i []).Nodup) :
    Seg.sizesOkB Seg.min_block_size s2.blocks = true ∧
    Seg.bytesLenOkB Seg.tsize s2.blocks = true ∧
    totalSize s2.blocks + s2.budget = totalSize s.blocks + s.budget ∧
    s2.seglist.length = 16 ∧
    (∀ i < s2.seglist.length, ∀ a0 ∈ s2.seglist.getD i [],
      Seg.listedEntryOkB s2.blocks i a0 = true) ∧
    (∀ i < s2.seglist.length, (s2.seglist.getD i []).Nodup) ∧
    s2.initialized = s.initialized ∧
    (∃ pre2 post2 d, zipTo s2.blocks Seg.heap_base a2 = some (pre2, d, post2) ∧
      d.alloc = false ∧ round_up size Seg.dsize ≤ d.size) := by
  have hm : Seg.min_block_size = 32 := rfl
  by_cases hbud : round_up size Seg.dsize ≤ s.budget
  swap
  · rw [seg_extend_none s size hbud] at he
    cases he
  obtain ⟨h1, h2, h3⟩ := round_up_spec size Seg.dsize (by norm_num [Seg.dsize, Seg.wsize]) hsize64
  have hsz8 : round_up size Seg.dsize % 8 = 0 := by
    obtain ⟨k, hk⟩ := h2
    rw [hk]
    show 8 * k % 8 = 0
    omega
  have hMeq : recombine s.blocks.reverse
      (⟨round_up size Seg.dsize, false,
        List.replicate (round_up size Seg.dsize - Seg.tsize) 0⟩ : Blk) [] =
      s.blocks ++ [⟨round_up size Seg.dsize, false,
        List.replicate (round_up size Seg.dsize - Seg.tsize) 0⟩] :=
    recombine_reverse_nil _ _
  have hszM : Seg.sizesOkB Seg.min_block_size
      (recombine s.blocks.reverse
        (⟨round_up size Seg.dsize, false,
          List.replicate (round_up size Seg.dsize - Seg.tsize) 0⟩ : Blk) []) = true := by
    rw [hMeq]
    refine sizesOk_of_mem ?_
    intro x hx
    rcases List.mem_append.1 hx with hx | hx
    · exact sizesOk_mem hsz hx
    · simp at hx
      subst hx
      simp only []
      omega
  have hblM : Seg.bytesLenOkB Seg.tsize
      (recombine s.blocks.reverse
        (⟨round_up size Seg.dsize, false,
          List.replicate (round_up size Seg.dsize - Seg.tsize) 0⟩ : Blk) []) = true := by
    rw [hMeq]
    refine bytesLen_of_mem ?_
    intro x hx
    rcases List.mem_append.1 hx with hx | hx
    · exact bytesLen_mem hbl hx
    · simp at hx
      subst hx
      simp
  have hlistedM : ∀ i < s.seglist.length, ∀ a0 ∈ s.seglist.getD i [],
      Seg.listedEntryOkB
        (recombine s.blocks.reverse
          (⟨round_up size Seg.dsize, false,
            List.replicate (round_up size Seg.dsize - Seg.tsize) 0⟩ : Blk) []) i a0 = true := by
    intro i hi a0 ha0
    have hv := hlisted i hi a0 ha0
    rw [listedEntryOk_iff] at hv ⊢
    obtain ⟨c, hc, hc2, hc3⟩ := hv
    rw [hMeq]
    exact ⟨c, blkAt_append_left _ _ _ _ _ hc, hc2, hc3⟩
  have hnot : ∀ i < s.seglist.length,
      (Seg.heap_base + totalSize s.blocks) ∉ s.seglist.getD i [] := by
    intro i hi hmem
    have hv := hlisted i hi _ hmem
    rw [listedEntryOk_iff] at hv
    obtain ⟨c, hc, _, _⟩ := hv
    have hb1 := blkAt_bound _ _ _ _ hc
    have hc0 : 0 < c.size := by
      have := sizesOk_mem hsz (blkAt_mem _ _ _ _ hc)
      omega
    omega
  have haeq : Seg.heap_base + totalSize s.blocks =
      Seg.heap_base + totalSize s.blocks.reverse := by
    rw [totalSize_reverse]
  have hstep := seg_coalesce_step s.seglist s.blocks.reverse []
    ⟨round_up size Seg.dsize, false,
      List.replicate (round_up size Seg.dsize - Seg.tsize) 0⟩
    (Seg.heap_base + totalSize s.blocks) haeq rfl (by simp only []; omega)
    hlen hszM hblM hlistedM hnodup hnot
  obtain ⟨c1, c2, c3, c4, c5, c6⟩ := hstep
  have hres := seg_coalesce_result s.seglist s.blocks.reverse []
    ⟨round_up size Seg.dsize, false,
      List.replicate (round_up size Seg.dsize - Seg.tsize) 0⟩
    (Seg.heap_base + totalSize s.blocks) haeq rfl
    (fun x hx => by
      have := sizesOk_mem hsz (List.mem_reverse.1 hx)
      omega)
  rw [seg_extend_eq s size hbud] at he
  injection he with he
  injection he with he1 he2
  subst he2
  rw [← he1]
  refine ⟨c1, c2, ?_, by dsimp only; exact c4.trans hlen, ?_, ?_, rfl, ?_⟩
  · rw [c3, hMeq, totalSize_append, totalSize_cons, totalSize_nil]
    simp only []
    omega
  · intro i hi a0 ha0
    refine c5 i ?_ a0 ha0
    dsimp only at hi
    rw [c4] at hi
    exact hi
  · intro i hi
    refine c6 i ?_
    dsimp only at hi
    rw [c4] at hi
    exact hi
  · obtain ⟨hr1, hr2, hr3⟩ := hres
    obtain ⟨pre2, post2, hzz⟩ := zipTo_of_blkAt _ _ _ _ hr1
    refine ⟨pre2, post2, _, hzz, hr3, ?_⟩
    calc round_up size Seg.dsize =
        (⟨round_up size Seg.dsize, false,
          List.replicate (round_up size Seg.dsize - Seg.tsize) 0⟩ : Blk).size := rfl
    _ ≤ _ := hr2

theorem getD_of_mem (sl : List (List Nat)) (l : List Nat) :
    l ∈ sl → ∃ i, i < sl.length ∧ sl.getD i [] = l := by
  induction sl with
  | nil => intro h; simp at h
  | cons l0 t ih =>
    intro h
    rcases List.mem_cons.1 h with h | h
    · exact ⟨0, by simp, h.symm⟩
    · obtain ⟨i, hi, hg⟩ := ih h
      exact ⟨i + 1, by simpa using hi, hg⟩

theorem findInBucket_spec (blocks : List Blk) (asize : Nat) :
    ∀ (l : List Nat) (a : Nat),
    (∀ a0 ∈ l, ∃ c, blkAt blocks Seg.heap_base a0 = some c ∧ c.alloc = false) →
    Seg.findInBucket blocks asize l = some a →
    ∃ c, blkAt blocks Seg.heap_base a = some c ∧ c.alloc = false ∧ asize ≤ c.size := by
  intro l
  induction l with
  | nil => intro a _ h; simp [Seg.findInBucket] at h
  | cons a0 t ih =>
    intro a hl h
    simp only [Seg.findInBucket] at h
    cases hb : blkAt blocks Seg.heap_base a0 with
    | none =>
      rw [hb] at h
      exact ih a (fun x hx => hl x (List.mem_cons_of_mem a0 hx)) h
    | some b =>
      rw [hb] at h
      dsimp only at h
      by_cases hfit : asize ≤ b.size
      · rw [if_pos hfit] at h
        injection h with h
        subst h
        obtain ⟨c, hc, hcf⟩ := hl a0 (by simp)
        rw [hb] at hc
        injection hc with hc
        subst hc
        exact ⟨b, hb, hcf, hfit⟩
      · rw [if_neg hfit] at h
        exact ih a (fun x hx => hl x (List.mem_cons_of_mem a0 hx)) h

theorem find_fit_go_spec (blocks : List Blk) (asize : Nat) :
    ∀ (sls : List (List Nat)) (a : Nat),
    (∀ l ∈ sls, ∀ a0 ∈ l, ∃ c, blkAt blocks Seg.heap_base a0 = some c ∧ c.alloc = false) →
    Seg.find_fit_go blocks asize sls = some a →
    ∃ c, blkAt blocks Seg.heap_base a = some c ∧ c.alloc = false ∧ asize ≤ c.size := by
  intro sls
  induction sls with
  | nil => intro a _ h; simp [Seg.find_fit_go] at h
  | cons l rest ih =>
    intro a hl h
    simp only [Seg.find_fit_go] at h
    cases hfb : Seg.findInBucket blocks asize l with
    | none =>
      rw [hfb] at h
      exact ih a (fun l2 hl2 => hl l2 (List.mem_cons_of_mem l hl2)) h
    | some a1 =>
      rw [hfb] at h
      injection h with h
      subst h
      exact findInBucket_spec blocks asize l a1 (hl l (by simp)) hfb

/-- find_fit returns the address of a free block large enough for the
request (given that every listed address names a free block). -/
theorem seg_find_fit_spec (s : Seg.State) (asize a : Nat)
    (hlisted : ∀ i < s.seglist.length, ∀ a0 ∈ s.seglist.getD i [],
      Seg.listedEntryOkB s.blocks i a0 = true)
    (hff : Seg.find_fit s asize = some a) :
    ∃ pre post b, zipTo s.blocks Seg.heap_base a = some (pre, b, post) ∧
      b.alloc = false ∧ asize ≤ b.size := by
  have hspec := find_fit_go_spec s.blocks asize (s.seglist.drop (Seg.get_seglist_idx asize)) a
    ?_ hff
  · obtain ⟨c, hc, hcf, hcs⟩ := hspec
    obtain ⟨pre, post, hz⟩ := zipTo_of_blkAt _ _ _ _ hc
    exact ⟨pre, post, c, hz, hcf, hcs⟩
  · intro l hl a0 ha0
    have hl2 : l ∈ s.seglist := List.drop_subset _ _ hl
    obtain ⟨i, hi, hg⟩ := getD_of_mem s.seglist l hl2
    have hv := hlisted i hi a0 (by rw [hg]; exact ha0)
    rw [listedEntryOk_iff] at hv
    obtain ⟨c, hc, hcf, _⟩ := hv
    exact ⟨c, hc, hcf⟩

theorem seg_place_misc (s : Seg.State) (a asize : Nat) :
    (Seg.place s a asize).budget = s.budget ∧
    (Seg.place s a asize).initialized = s.initialized := by
  cases hz : zipTo s.blocks Seg.heap_base a with
  | none =>
    unfold Seg.place
    simp [hz]
  | some w =>
    obtain ⟨pre, b, post⟩ := w
    by_cases hcut : Seg.min_block_size ≤ b.size - asize
    · rw [seg_place_eq_split s a asize pre post b hz hcut]
      exact ⟨rfl, rfl⟩
    · rw [seg_place_eq_whole s a asize pre post b hz hcut]
      exact ⟨rfl, rfl⟩

/-! Window-surgery helpers shared by the keep-lemmas of both variants. -/

theorem blkAt_agree (l1 mid l2 : List Blk) (base q : Nat) (c x : Blk)
    (hpos1 : ∀ y ∈ l1, 0 < y.size)
    (h : blkAt (l1 ++ (mid ++ l2)) base q = some c)
    (hx : blkAt mid (base + totalSize l1) q = some x) : c = x := by
  cases h1 : blkAt l1 base q with
  | some c1 =>
    have hb := blkAt_bound l1 base q c1 h1
    have hg := blkAt_ge mid _ q x hx
    have hc1 : 0 < c1.size := hpos1 c1 (blkAt_mem l1 base q c1 h1)
    omega
  | none =>
    rw [blkAt_append_right l1 (mid ++ l2) base q h1] at h
    have h2 := blkAt_append_left mid l2 _ q x hx
    rw [h2] at h
    injection h with h
    exact h.symm

theorem blkAt_swap_one (pre post : List Blk) (b b2 : Blk) (base q : Nat) (c : Blk)
    (hsz : b2.size = b.size) (hpos : 0 < b2.size)
    (h : blkAt (recombine pre b post) base q = some c)
    (hq : q ≠ base + totalSize pre) :
    blkAt (recombine pre b2 post) base q = some c := by
  have hMdec : recombine pre b post = pre.reverse ++ ([b] ++ post) := rfl
  have hNdec : recombine pre b2 post = pre.reverse ++ ([b2] ++ post) := rfl
  rw [hMdec] at h
  rw [hNdec]
  refine blkAt_stable pre.reverse [b] [b2] post base q c ?_ ?_ h ?_
  · simp [totalSize_cons, totalSize_nil, hsz]
  · intro x hx
    simp at hx
    subst hx
    exact hpos
  · rw [totalSize_reverse]
    exact blkAt_single_none b _ q hq

theorem blkAt_swap_two (pre post : List Blk) (b b1 b2 : Blk) (base q : Nat) (c : Blk)
    (hsz : b1.size + b2.size = b.size) (hpos1 : 0 < b1.size) (hpos2 : 0 < b2.size)
    (h : blkAt (recombine pre b post) base q = some c)
    (hq : q ≠ base + totalSize pre) :
    blkAt (recombine pre b1 (b2 :: post)) base q = some c := by
  have hMdec : recombine pre b post = pre.reverse ++ ([b] ++ post) := rfl
  have hNdec : recombine pre b1 (b2 :: post) = pre.reverse ++ ([b1, b2] ++ post) := rfl
  rw [hMdec] at h
  rw [hNdec]
  refine blkAt_stable pre.reverse [b] [b1, b2] post base q c ?_ ?_ h ?_
  · simp [totalSize_cons, totalSize_nil]
    omega
  · intro x hx
    simp at hx
    rcases hx with rfl | rfl
    · exact hpos1
    · exact hpos2
  · rw [totalSize_reverse]
    exact blkAt_single_none b _ q hq

/-- Every block of the coalesce window is free, so an allocated block is
outside the window and survives coalescing unchanged, at its address. -/
theorem coalesce_blocks_keep (ov : Nat) (pre post : List Blk) (b : Blk) (base q : Nat) (c : Blk)
    (hb : b.alloc = false)
    (hpos : ∀ x ∈ recombine pre b post, 0 < x.size)
    (h : blkAt (recombine pre b post) base q = some c)
    (hc : c.alloc = true) :
    blkAt (recombine (coalesce_blocks ov pre b post).1
      (coalesce_blocks ov pre b post).2.1
      (coalesce_blocks ov pre b post).2.2) base q = some c := by
  have hpospre : ∀ x ∈ pre, 0 < x.size := fun x hx =>
    hpos x ((mem_recombine x pre post b).2 (Or.inl hx))
  have hbpos : 0 < b.size := hpos b ((mem_recombine b pre post b).2 (Or.inr (Or.inl rfl)))
  cases hpa : headAlloc pre
  case true =>
    cases hna : headAlloc post
    case true =>
      have hT : coalesce_blocks ov pre b post = (pre, b, post) := by
        simp [coalesce_blocks, hpa, hna]
      rw [hT]
      exact h
    case false =>
      rcases post with _ | ⟨n, post2⟩
      · simp [headAlloc] at hna
      have hnal : n.alloc = false := by simpa [headAlloc] using hna
      have hT : coalesce_blocks ov pre b (n :: post2) =
          (pre, mergedFree ov (b.size + n.size), post2) := by
        simp [coalesce_blocks, hpa, hna]
      rw [hT]
      have hMdec : recombine pre b (n :: post2) = pre.reverse ++ ([b, n] ++ post2) := rfl
      have hNdec : recombine pre (mergedFree ov (b.size + n.size)) post2 =
          pre.reverse ++ ([mergedFree ov (b.size + n.size)] ++ post2) := rfl
      rw [hMdec] at h
      rw [hNdec]
      refine blkAt_stable pre.reverse [b, n] [mergedFree ov (b.size + n.size)] post2 base q c
        ?_ ?_ h ?_
      · simp [totalSize_cons, totalSize_nil, mergedFree_size]
      · intro x hx
        simp at hx
        subst hx
        rw [mergedFree_size]
        omega
      · cases hmid : blkAt [b, n] (base + totalSize pre.reverse) q with
        | none => rfl
        | some x =>
          exfalso
          have hcx := blkAt_agree pre.reverse [b, n] post2 base q c x
            (fun y hy => hpospre y (List.mem_reverse.1 hy)) h hmid
          have hxmem := blkAt_mem [b, n] _ q x hmid
          simp at hxmem
          rcases hxmem with rfl | rfl
          · rw [hcx, hb] at hc
            cases hc
          · rw [hcx, hnal] at hc
            cases hc
  case false =>
    rcases pre with _ | ⟨p, pre2⟩
    · simp [headAlloc] at hpa
    have hpal : p.alloc = false := by simpa [headAlloc] using hpa
    have hpospre2 : ∀ x ∈ pre2, 0 < x.size :=
      fun x hx => hpospre x (List.mem_cons_of_mem p hx)
    cases hna : headAlloc post
    case true =>
      have hT : coalesce_blocks ov (p :: pre2) b post =
          (pre2, mergedFree ov (p.size + b.size), post) := by
        simp [coalesce_blocks, hpa, hna]
      rw [hT]
      have hMdec : recombine (p :: pre2) b post = pre2.reverse ++ ([p, b] ++ post) :=
        recombine_cons_pre p pre2 post b
      have hNdec : recombine pre2 (mergedFree ov (p.size + b.size)) post =
          pre2.reverse ++ ([mergedFree ov (p.size + b.size)] ++ post) := rfl
      rw [hMdec] at h
      rw [hNdec]
      refine blkAt_stable pre2.reverse [p, b] [mergedFree ov (p.size + b.size)] post base q c
        ?_ ?_ h ?_
      · simp [totalSize_cons, totalSize_nil, mergedFree_size]
      · intro x hx
        simp at hx
        subst hx
        rw [mergedFree_size]
        omega
      · cases hmid : blkAt [p, b] (base + totalSize pre2.reverse) q with
        | none => rfl
        | some x =>
          exfalso
          have hcx := blkAt_agree pre2.reverse [p, b] post base q c x
            (fun y hy => hpospre2 y (List.mem_reverse.1 hy)) h hmid
          have hxmem := blkAt_mem [p, b] _ q x hmid
          simp at hxmem
          rcases hxmem with rfl | rfl
          · rw [hcx, hpal] at hc
            cases hc
          · rw [hcx, hb] at hc
            cases hc
    case false =>
      rcases post with _ | ⟨n, post2⟩
      · simp [headAlloc] at hna
      have hnal : n.alloc = false := by simpa [headAlloc] using hna
      have hT : coalesce_blocks ov (p :: pre2) b (n :: post2) =
          (pre2, mergedFree ov (b.size + n.size + p.size), post2) := by
        simp [coalesce_blocks, hpa, hna]
      rw [hT]
      have hMdec : recombine (p :: pre2) b (n :: post2) =
          pre2.reverse ++ ([p, b, n] ++ post2) := recombine_cons_both p pre2 post2 b n
      have hNdec : recombine pre2 (mergedFree ov (b.size + n.size + p.size)) post2 =
          pre2.reverse ++ ([mergedFree ov (b.size + n.size + p.size)] ++ post2) := rfl
      rw [hMdec] at h
      rw [hNdec]
      refine blkAt_stable pre2.reverse [p, b, n]
        [mergedFree ov (b.size + n.size + p.size)] post2 base q c ?_ ?_ h ?_
      · simp [totalSize_cons, totalSize_nil, mergedFree_size]
        omega
      · intro x hx
        simp at hx
        subst hx
        rw [mergedFree_size]
        omega
      · cases hmid : blkAt [p, b, n] (base + totalSize pre2.reverse) q with
        | none => rfl
        | some x =>
          exfalso
          have hcx := blkAt_agree pre2.reverse [p, b, n] post2 base q c x
            (fun y hy => hpospre2 y (List.mem_reverse.1 hy)) h hmid
          have hxmem := blkAt_mem [p, b, n] _ q x hmid
          simp at hxmem
          rcases hxmem with rfl | rfl | rfl
          · rw [hcx, hpal] at hc
            cases hc
          · rw [hcx, hb] at hc
            cases hc
          · rw [hcx, hnal] at hc
            cases hc

/-- Generic-base version of the coalesce result-block fact: the coalesced
block is readable at the source's result address, is free, and contains the
input block. -/
theorem coalesce_blocks_result (ov : Nat) (pre post : List Blk) (b : Blk) (base a : Nat)
    (ha : a = base + totalSize pre) (hb : b.alloc = false)
    (hpospre : ∀ x ∈ pre, 0 < x.size) :
    blkAt (recombine (coalesce_blocks ov pre b post).1
        (coalesce_blocks ov pre b post).2.1
        (coalesce_blocks ov pre b post).2.2) base
      (if headAlloc pre then a else a - prevSize pre) =
      some (coalesce_blocks ov pre b post).2.1 ∧
    b.size ≤ (coalesce_blocks ov pre b post).2.1.size ∧
    (coalesce_blocks ov pre b post).2.1.alloc = false := by
  cases hpa : headAlloc pre
  case true =>
    cases hna : headAlloc post
    case true =>
      have hT : coalesce_blocks ov pre b post = (pre, b, post) := by
        simp [coalesce_blocks, hpa, hna]
      rw [hT, if_pos rfl]
      dsimp only
      rw [ha]
      exact ⟨blkAt_recombine_self pre post b base hpospre, le_rfl, hb⟩
    case false =>
      rcases post with _ | ⟨n, post2⟩
      · simp [headAlloc] at hna
      have hT : coalesce_blocks ov pre b (n :: post2) =
          (pre, mergedFree ov (b.size + n.size), post2) := by
        simp [coalesce_blocks, hpa, hna]
      rw [hT, if_pos rfl]
      dsimp only
      rw [ha]
      exact ⟨blkAt_recombine_self pre post2 _ base hpospre,
        by rw [mergedFree_size]; omega, mergedFree_alloc _ _⟩
  case false =>
    rcases pre with _ | ⟨p, pre2⟩
    · simp [headAlloc] at hpa
    have hpospre2 : ∀ x ∈ pre2, 0 < x.size :=
      fun x hx => hpospre x (List.mem_cons_of_mem p hx)
    have ha2 : a - prevSize (p :: pre2) = base + totalSize pre2 := by
      rw [ha, totalSize_cons]
      simp only [prevSize]
      omega
    cases hna : headAlloc post
    case true =>
      have hT : coalesce_blocks ov (p :: pre2) b post =
          (pre2, mergedFree ov (p.size + b.size), post) := by
        simp [coalesce_blocks, hpa, hna]
      rw [hT, if_neg (by simp)]
      dsimp only
      rw [ha2]
      exact ⟨blkAt_recombine_self pre2 post _ base hpospre2,
        by rw [mergedFree_size]; omega, mergedFree_alloc _ _⟩
    case false =>
      rcases post with _ | ⟨n, post2⟩
      · simp [headAlloc] at hna
      have hT : coalesce_blocks ov (p :: pre2) b (n :: post2) =
          (pre2, mergedFree ov (b.size + n.size + p.size), post2) := by
        simp [coalesce_blocks, hpa, hna]
      rw [hT, if_neg (by simp)]
      dsimp only
      rw [ha2]
      exact ⟨blkAt_recombine_self pre2 post2 _ base hpospre2,
        by rw [mergedFree_size]; omega, mergedFree_alloc _ _⟩

/-- Coalescing preserves the size discipline, the payload-byte bookkeeping
and the total heap size (block-level core, shared by both variants). -/
theorem coalesce_blocks_WFparts (ov m : Nat) (pre post : List Blk) (b : Blk)
    (hsz : Seg.sizesOkB m (recombine pre b post) = true)
    (hbl : Seg.bytesLenOkB ov (recombine pre b post) = true) :
    Seg.sizesOkB m (recombine (coalesce_blocks ov pre b post).1
      (coalesce_blocks ov pre b post).2.1 (coalesce_blocks ov pre b post).2.2) = true ∧
    Seg.bytesLenOkB ov (recombine (coalesce_blocks ov pre b post).1
      (coalesce_blocks ov pre b post).2.1 (coalesce_blocks ov pre b post).2.2) = true ∧
    totalSize (recombine (coalesce_blocks ov pre b post).1
      (coalesce_blocks ov pre b post).2.1 (coalesce_blocks ov pre b post).2.2) =
      totalSize (recombine pre b post) := by
  have hbsz := sizesOk_mem hsz ((mem_recombine b pre post b).2 (Or.inr (Or.inl rfl)))
  cases hpa : headAlloc pre
  case true =>
    cases hna : headAlloc post
    case true =>
      have hT : coalesce_blocks ov pre b post = (pre, b, post) := by
        simp [coalesce_blocks, hpa, hna]
      rw [hT]
      exact ⟨hsz, hbl, rfl⟩
    case false =>
      rcases post with _ | ⟨n, post2⟩
      · simp [headAlloc] at hna
      have hnsz := sizesOk_mem hsz
        ((mem_recombine n pre (n :: post2) b).2 (Or.inr (Or.inr (by simp))))
      have hT : coalesce_blocks ov pre b (n :: post2) =
          (pre, mergedFree ov (b.size + n.size), post2) := by
        simp [coalesce_blocks, hpa, hna]
      rw [hT]
      refine ⟨sizesOk_of_mem ?_, bytesLen_of_mem ?_, ?_⟩
      · intro x hx
        rcases (mem_recombine x pre post2 _).1 hx with hx | hx | hx
        · exact sizesOk_mem hsz ((mem_recombine x pre (n :: post2) b).2 (Or.inl hx))
        · subst hx
          rw [mergedFree_size]
          omega
        · exact sizesOk_mem hsz
            ((mem_recombine x pre (n :: post2) b).2 (Or.inr (Or.inr (by simp [hx]))))
      · intro x hx
        rcases (mem_recombine x pre post2 _).1 hx with hx | hx | hx
        · exact bytesLen_mem hbl ((mem_recombine x pre (n :: post2) b).2 (Or.inl hx))
        · subst hx
          rw [mergedFree_bytes_len, mergedFree_size]
        · exact bytesLen_mem hbl
            ((mem_recombine x pre (n :: post2) b).2 (Or.inr (Or.inr (by simp [hx]))))
      · rw [totalSize_recombine, totalSize_recombine, totalSize_cons, mergedFree_size]
        dsimp only
        omega
  case false =>
    rcases pre with _ | ⟨p, pre2⟩
    · simp [headAlloc] at hpa
    have hpsz := sizesOk_mem hsz
      ((mem_recombine p (p :: pre2) post b).2 (Or.inl (by simp)))
    cases hna : headAlloc post
    case true =>
      have hT : coalesce_blocks ov (p :: pre2) b post =
          (pre2, mergedFree ov (p.size + b.size), post) := by
        simp [coalesce_blocks, hpa, hna]
      rw [hT]
      refine ⟨sizesOk_of_mem ?_, bytesLen_of_mem ?_, ?_⟩
      · intro x hx
        rcases (mem_recombine x pre2 post _).1 hx with hx | hx | hx
        · exact sizesOk_mem hsz
            ((mem_recombine x (p :: pre2) post b).2 (Or.inl (by simp [hx])))
        · subst hx
          rw [mergedFree_size]
          omega
        · exact sizesOk_mem hsz ((mem_recombine x (p :: pre2) post b).2 (Or.inr (Or.inr hx)))
      · intro x hx
        rcases (mem_recombine x pre2 post _).1 hx with hx | hx | hx
        · exact bytesLen_mem hbl
            ((mem_recombine x (p :: pre2) post b).2 (Or.inl (by simp [hx])))
        · subst hx
          rw [mergedFree_bytes_len, mergedFree_size]
        · exact bytesLen_mem hbl ((mem_recombine x (p :: pre2) post b).2 (Or.inr (Or.inr hx)))
      · rw [totalSize_recombine, totalSize_recombine, totalSize_cons, mergedFree_size]
        dsimp only
        omega
    case false =>
      rcases post with _ | ⟨n, post2⟩
      · simp [headAlloc] at hna
      have hnsz := sizesOk_mem hsz
        ((mem_recombine n (p :: pre2) (n :: post2) b).2 (Or.inr (Or.inr (by simp))))
      have hT : coalesce_blocks ov (p :: pre2) b (n :: post2) =
          (pre2, mergedFree ov (b.size + n.size + p.size), post2) := by
        simp [coalesce_blocks, hpa, hna]
      rw [hT]
      refine ⟨sizesOk_of_mem ?_, bytesLen_of_mem ?_, ?_⟩
      · intro x hx
        rcases (mem_recombine x pre2 post2 _).1 hx with hx | hx | hx
        · exact sizesOk_mem hsz
            ((mem_recombine x (p :: pre2) (n :: post2) b).2 (Or.inl (by simp [hx])))
        · subst hx
          rw [mergedFree_size]
          omega
        · exact sizesOk_mem hsz
            ((mem_recombine x (p :: pre2) (n :: post2) b).2 (Or.inr (Or.inr (by simp [hx]))))
      · intro x hx
        rcases (mem_recombine x pre2 post2 _).1 hx with hx | hx | hx
        · exact bytesLen_mem hbl
            ((mem_recombine x (p :: pre2) (n :: post2) b).2 (Or.inl (by simp [hx])))
        · subst hx
          rw [mergedFree_bytes_len, mergedFree_size]
        · exact bytesLen_mem hbl
            ((mem_recombine x (p :: pre2) (n :: post2) b).2 (Or.inr (Or.inr (by simp [hx]))))
      · rw [totalSize_recombine, totalSize_recombine, totalSize_cons, totalSize_cons,
          mergedFree_size]
        dsimp only
        omega

/-! Keep-lemmas of the segregated variant: blocks holding user data survive
the operations that only touch other regions of the heap. -/

theorem seg_free_keep (s : Seg.State) (pp q : Nat) (c : Blk)
    (hsz : Seg.sizesOkB Seg.min_block_size s.blocks = true)
    (h : blkAt s.blocks Seg.heap_base q = some c)
    (hc : c.alloc = true)
    (hq : q ≠ pp - Seg.dsize) :
    blkAt (Seg.free s (some pp)).blocks Seg.heap_base q = some c := by
  have hm : Seg.min_block_size = 32 := rfl
  cases hz : zipTo s.blocks Seg.heap_base (pp - Seg.dsize) with
  | none =>
    show blkAt (Seg.free s (some pp)).blocks _ _ = _
    simp only [Seg.free, hz]
    exact h
  | some w =>
    obtain ⟨pre, b, post⟩ := w
    obtain ⟨heq, haddr⟩ := zipTo_eq _ _ _ _ _ _ hz
    rw [seg_free_eq s pp pre post b hz]
    dsimp only
    rw [heq] at h
    have hbpos : 0 < b.size := by
      have := sizesOk_mem hsz (heq ▸ (mem_recombine b pre post b).2 (Or.inr (Or.inl rfl)))
      omega
    have h2 := blkAt_swap_one pre post b ⟨b.size, false, List.replicate (b.size - Seg.tsize) 0⟩
      Seg.heap_base q c rfl hbpos h (by rw [← haddr]; exact hq)
    refine coalesce_blocks_keep Seg.tsize pre post _ Seg.heap_base q c rfl ?_ h2 hc
    intro x hx
    rcases (mem_recombine x pre post _).1 hx with hx | hx | hx
    · have := sizesOk_mem hsz (heq ▸ (mem_recombine x pre post b).2 (Or.inl hx))
      omega
    · subst hx
      exact hbpos
    · have := sizesOk_mem hsz (heq ▸ (mem_recombine x pre post b).2 (Or.inr (Or.inr hx)))
      omega

theorem seg_place_keep (s : Seg.State) (a asize q : Nat) (c : Blk) (pre post : List Blk) (b : Blk)
    (hz : zipTo s.blocks Seg.heap_base a = some (pre, b, post))
    (hsz : Seg.sizesOkB Seg.min_block_size s.blocks = true)
    (hasz : Seg.min_block_size ≤ asize)
    (h : blkAt s.blocks Seg.heap_base q = some c)
    (hq : q ≠ a) :
    blkAt (Seg.place s a asize).blocks Seg.heap_base q = some c := by
  have hm : Seg.min_block_size = 32 := rfl
  obtain ⟨heq, haddr⟩ := zipTo_eq _ _ _ _ _ _ hz
  rw [heq] at h
  have hbpos : 0 < b.size := by
    have := sizesOk_mem hsz (heq ▸ (mem_recombine b pre post b).2 (Or.inr (Or.inl rfl)))
    omega
  by_cases hcut : Seg.min_block_size ≤ b.size - asize
  · rw [seg_place_eq_split s a asize pre post b hz hcut]
    dsimp only
    refine blkAt_swap_two pre post b _ _ Seg.heap_base q c ?_ (by dsimp only; omega)
      (by dsimp only; omega) h (by rw [← haddr]; exact hq)
    dsimp only
    omega
  · rw [seg_place_eq_whole s a asize pre post b hz hcut]
    dsimp only
    exact blkAt_swap_one pre post b { b with alloc := true } Seg.heap_base q c rfl
      hbpos h (by rw [← haddr]; exact hq)

theorem seg_extend_keep (s : Seg.State) (size q : Nat) (c : Blk) (s2 : Seg.State) (a2 : Nat)
    (he : Seg.extend_heap s size = some (s2, a2))
    (hszpos : 0 < size)
    (hsize64 : size + 7 < 2 ^ 64)
    (hpos : ∀ x ∈ s.blocks, 0 < x.size)
    (h : blkAt s.blocks Seg.heap_base q = some c)
    (hc : c.alloc = true) :
    blkAt s2.blocks Seg.heap_base q = some c := by
  by_cases hbud : round_up size Seg.dsize ≤ s.budget
  · obtain ⟨hr1, _, _⟩ := round_up_spec size Seg.dsize (by norm_num [Seg.dsize, Seg.wsize]) hsize64
    rw [seg_extend_eq s size hbud] at he
    injection he with he
    injection he with he1 he2
    rw [← he1]
    dsimp only
    refine coalesce_blocks_keep Seg.tsize s.blocks.reverse [] _ Seg.heap_base q c rfl ?_ ?_ hc
    · intro x hx
      rw [recombine_reverse_nil] at hx
      rcases List.mem_append.1 hx with hx | hx
      · exact hpos x hx
      · simp at hx
        subst hx
        dsimp only
        omega
    · rw [recombine_reverse_nil]
      exact blkAt_append_left _ _ _ _ _ h
  · rw [seg_extend_none s size hbud] at he
    cases he

/-! setPayload: only the bytes of the addressed block change. -/

theorem seg_setBytes_eq (s : Seg.State) (a : Nat) (f : List Nat → List Nat)
    (pre post : List Blk) (b : Blk)
    (hz : zipTo s.blocks Seg.heap_base a = some (pre, b, post)) :
    Seg.setBytes s a f =
      { s with blocks := recombine pre { b with bytes := f b.bytes } post } := by
  simp only [Seg.setBytes, hz]

theorem seg_setBytes_self (s : Seg.State) (a : Nat) (f : List Nat → List Nat)
    (pre post : List Blk) (b : Blk)
    (hz : zipTo s.blocks Seg.heap_base a = some (pre, b, post))
    (hpos : ∀ x ∈ s.blocks, 0 < x.size) :
    blkAt (Seg.setBytes s a f).blocks Seg.heap_base a =
      some { b with bytes := f b.bytes } := by
  obtain ⟨heq, haddr⟩ := zipTo_eq _ _ _ _ _ _ hz
  rw [seg_setBytes_eq s a f pre post b hz]
  dsimp only
  rw [haddr]
  refine blkAt_recombine_self pre post _ Seg.heap_base ?_
  intro x hx
  exact hpos x (heq ▸ (mem_recombine x pre post b).2 (Or.inl hx))

theorem seg_setBytes_keep (s : Seg.State) (a q : Nat) (f : List Nat → List Nat) (c : Blk)
    (hpos : ∀ x ∈ s.blocks, 0 < x.size)
    (h : blkAt s.blocks Seg.heap_base q = some c)
    (hq : q ≠ a) :
    blkAt (Seg.setBytes s a f).blocks Seg.heap_base q = some c := by
  cases hz : zipTo s.blocks Seg.heap_base a with
  | none =>
    show blkAt (Seg.setBytes s a f).blocks _ _ = _
    simp only [Seg.setBytes, hz]
    exact h
  | some w =>
    obtain ⟨pre, b, post⟩ := w
    obtain ⟨heq, haddr⟩ := zipTo_eq _ _ _ _ _ _ hz
    rw [seg_setBytes_eq s a f pre post b hz]
    dsimp only
    rw [heq] at h
    have hbmem : b ∈ s.blocks := by
      rw [heq]
      exact (mem_recombine b pre post b).2 (Or.inr (Or.inl rfl))
    exact blkAt_swap_one pre post b { b with bytes := f b.bytes } Seg.heap_base q c rfl
      (hpos b hbmem) h (by rw [← haddr]; exact hq)

theorem seg_setBytes_noAdj (s : Seg.State) (a : Nat) (f : List Nat → List Nat) :
    noAdjFreeB (Seg.setBytes s a f).blocks = noAdjFreeB s.blocks := by
  cases hz : zipTo s.blocks Seg.heap_base a with
  | none =>
    show noAdjFreeB (Seg.setBytes s a f).blocks = _
    simp only [Seg.setBytes, hz]
  | some w =>
    obtain ⟨pre, b, post⟩ := w
    obtain ⟨heq, _⟩ := zipTo_eq _ _ _ _ _ _ hz
    rw [seg_setBytes_eq s a f pre post b hz]
    dsimp only
    rw [heq, noAdjB_recombine, noAdjB_recombine, noAdjFreeB_cons, noAdjFreeB_cons,
      noAdjFreeB_cons, noAdjFreeB_cons]

theorem seg_setBytes_misc (s : Seg.State) (a : Nat) (f : List Nat → List Nat) :
    totalSize (Seg.setBytes s a f).blocks = totalSize s.blocks ∧
    (Seg.setBytes s a f).budget = s.budget ∧
    (Seg.setBytes s a f).seglist = s.seglist ∧
    (Seg.setBytes s a f).initialized = s.initialized := by
  cases hz : zipTo s.blocks Seg.heap_base a with
  | none =>
    show totalSize (Seg.setBytes s a f).blocks = _ ∧ _
    simp only [Seg.setBytes, hz]
    simp
  | some w =>
    obtain ⟨pre, b, post⟩ := w
    obtain ⟨heq, _⟩ := zipTo_eq _ _ _ _ _ _ hz
    rw [seg_setBytes_eq s a f pre post b hz]
    refine ⟨?_, rfl, rfl, rfl⟩
    dsimp only
    rw [heq, totalSize_recombine, totalSize_recombine]

theorem seg_setBytes_WF (s : Seg.State) (a : Nat) (f : List Nat → List Nat)
    (hwf : Seg.WF s)
    (hflen : ∀ (b : Blk), blkAt s.blocks Seg.heap_base a = some b →
      (f b.bytes).length = b.bytes.length) :
    Seg.WF (Seg.setBytes s a f) := by
  obtain ⟨hini, hlen, hsz, hbl, hbud, hlisted, hnodup⟩ := hwf
  cases hz : zipTo s.blocks Seg.heap_base a with
  | none =>
    show Seg.WF (Seg.setBytes s a f)
    simp only [Seg.setBytes, hz]
    exact ⟨hini, hlen, hsz, hbl, hbud, hlisted, hnodup⟩
  | some w =>
    obtain ⟨pre, b, post⟩ := w
    obtain ⟨heq, haddr⟩ := zipTo_eq _ _ _ _ _ _ hz
    have hba := blkAt_of_zipTo s.blocks Seg.heap_base a pre b post hz
    have hblenb := hflen b hba
    have hbmem : b ∈ s.blocks := by
      rw [heq]
      exact (mem_recombine b pre post b).2 (Or.inr (Or.inl rfl))
    have hbsz := sizesOk_mem hsz hbmem
    have hbbl := bytesLen_mem hbl hbmem
    have hpospre : ∀ x ∈ pre, 0 < x.size := by
      intro x hx
      have := sizesOk_mem hsz (heq ▸ (mem_recombine x pre post b).2 (Or.inl hx))
      have hm : Seg.min_block_size = 32 := rfl
      omega
    rw [seg_setBytes_eq s a f pre post b hz]
    refine ⟨hini, hlen, ?_, ?_, ?_, ?_, hnodup⟩
    · refine sizesOk_of_mem ?_
      intro x hx
      dsimp only at hx
      rcases (mem_recombine x pre post _).1 hx with hx | hx | hx
      · exact sizesOk_mem hsz (heq ▸ (mem_recombine x pre post b).2 (Or.inl hx))
      · subst hx
        exact hbsz
      · exact sizesOk_mem hsz (heq ▸ (mem_recombine x pre post b).2 (Or.inr (Or.inr hx)))
    · refine bytesLen_of_mem ?_
      intro x hx
      dsimp only at hx
      rcases (mem_recombine x pre post _).1 hx with hx | hx | hx
      · exact bytesLen_mem hbl (heq ▸ (mem_recombine x pre post b).2 (Or.inl hx))
      · subst hx
        simp only [List.length]
        rw [show ({ b with bytes := f b.bytes } : Blk).bytes.length = (f b.bytes).length from rfl,
          hblenb]
        exact hbbl
      · exact bytesLen_mem hbl (heq ▸ (mem_recombine x pre post b).2 (Or.inr (Or.inr hx)))
    · dsimp only
      rw [totalSize_recombine]
      rw [heq, totalSize_recombine] at hbud
      dsimp only
      omega
    · intro i hi a0 ha0
      dsimp only at ha0 ⊢
      have hv := hlisted i hi a0 ha0
      by_cases haa : a0 = a
      · subst haa
        rw [listedEntryOk_iff] at hv ⊢
        obtain ⟨c, hc, hcal, hcidx⟩ := hv
        rw [hba] at hc
        injection hc with hc
        subst hc
        refine ⟨{ b with bytes := f b.bytes }, ?_, hcal, hcidx⟩
        rw [haddr]
        exact blkAt_recombine_self pre post _ Seg.heap_base hpospre
      · rw [heq] at hv
        have hMdec : recombine pre b post = pre.reverse ++ ([b] ++ post) := rfl
        have hNdec : recombine pre { b with bytes := f b.bytes } post =
            pre.reverse ++ ([{ b with bytes := f b.bytes }] ++ post) := rfl
        rw [hMdec] at hv
        rw [hNdec]
        refine listedEntryOk_stable pre.reverse [b] _ post i a0 ?_ ?_ ?_ hv
        · simp [totalSize_cons, totalSize_nil]
        · intro x hx
          simp at hx
          subst hx
          have hm : Seg.min_block_size = 32 := rfl
          show 0 < b.size
          omega
        · rw [totalSize_reverse, ← haddr]
          exact blkAt_single_none b a a0 haa

theorem seg_setPayload_some (s : Seg.State) (a : Nat) (f : List Nat → List Nat)
    (pre post : List Blk) (b : Blk)
    (hz : zipTo s.blocks Seg.heap_base a = some (pre, b, post))
    (hg : (f b.bytes).length = b.bytes.length) :
    Seg.setPayload s a f = some (Seg.setBytes s a f) := by
  simp only [Seg.setPayload, hz, if_pos hg]

theorem seg_setPayload_inv (s : Seg.State) (a : Nat) (f : List Nat → List Nat)
    (s2 : Seg.State) (hsp : Seg.setPayload s a f = some s2) :
    s2 = Seg.setBytes s a f ∧
    ∃ pre post b, zipTo s.blocks Seg.heap_base a = some (pre, b, post) ∧
      (f b.bytes).length = b.bytes.length := by
  cases hz : zipTo s.blocks Seg.heap_base a with
  | none =>
    simp only [Seg.setPayload, hz] at hsp
    exact Option.noConfusion hsp
  | some w =>
    obtain ⟨pre, b, post⟩ := w
    simp only [Seg.setPayload, hz] at hsp
    by_cases hg : (f b.bytes).length = b.bytes.length
    · rw [if_pos hg] at hsp
      injection hsp with hsp
      exact ⟨hsp.symm, pre, post, b, rfl, hg⟩
    · rw [if_neg hg] at hsp
      exact Option.noConfusion hsp

theorem seg_split_misc (s : Seg.State) (a asize : Nat) :
    (Seg.split_block s a asize).budget = s.budget ∧
    (Seg.split_block s a asize).initialized = s.initialized := by
  cases hz : zipTo s.blocks Seg.heap_base a with
  | none =>
    unfold Seg.split_block
    simp [hz]
  | some w =>
    obtain ⟨pre, b, post⟩ := w
    rw [seg_split_eq s a asize pre post b hz]
    exact ⟨rfl, rfl⟩

/-- malloc never crashes once the allocator is initialized. -/
theorem seg_malloc_total (s : Seg.State) (n : Nat) (hini : s.initialized = true) :
    ∃ w, Seg.malloc s n = some w := by
  by_cases hn0 : n = 0
  · exact ⟨(s, none), by simp [Seg.malloc, hn0]⟩
  · simp only [Seg.malloc, if_neg hn0, hini, if_true]
    cases hf : Seg.find_fit s (Seg.get_asize n) with
    | some a => exact ⟨_, rfl⟩
    | none =>
      cases he : Seg.extend_heap s (max (Seg.get_asize n) Seg.chunksize) with
      | none => exact ⟨_, rfl⟩
      | some w => exact ⟨_, rfl⟩

/-- malloc: well-formedness and the no-adjacent-free invariant are
preserved; allocated blocks survive untouched; a NULL return leaves the
state unchanged; a successful return is 8-aligned, disjoint from every
allocated block, and names a fresh allocated block big enough for the
adjusted request. -/
theorem seg_malloc_spec (s : Seg.State) (n : Nat) (s2 : Seg.State) (r : Option Nat)
    (hwf : Seg.WF s)
    (hm : Seg.malloc s n = some (s2, r)) :
    Seg.WF s2 ∧
    (noAdjFreeB s.blocks = true → noAdjFreeB s2.blocks = true) ∧
    (r = none → s2 = s) ∧
    (∀ q c, blkAt s.blocks Seg.heap_base q = some c → c.alloc = true →
      blkAt s2.blocks Seg.heap_base q = some c) ∧
    (∀ p, r = some p → p % 8 = 0 ∧
      (∀ q c, blkAt s.blocks Seg.heap_base q = some c → c.alloc = true →
        p - Seg.dsize ≠ q) ∧
      ∃ d, blkAt s2.blocks Seg.heap_base (p - Seg.dsize) = some d ∧ d.alloc = true ∧
        Seg.get_asize n ≤ d.size ∧ d.bytes.length = d.size - Seg.tsize) := by
  obtain ⟨hini, hlen, hsz, hbl, hbud, hlisted, hnodup⟩ := hwf
  have hwf' : Seg.WF s := ⟨hini, hlen, hsz, hbl, hbud, hlisted, hnodup⟩
  have hm8 : Seg.min_block_size = 32 := rfl
  have hd8 : Seg.dsize = 8 := rfl
  have hb8 : Seg.heap_base % 8 = 0 := by decide
  have hch : Seg.chunksize = 4096 := rfl
  obtain ⟨ha8, hamin, ha64⟩ := get_asize_basic n
  by_cases hn0 : n = 0
  · simp only [Seg.malloc, if_pos hn0] at hm
    injection hm with hm
    injection hm with hma hmb
    subst hma
    refine ⟨hwf', fun h => h, fun _ => rfl, fun q c hqc _ => hqc, ?_⟩
    intro p hp
    rw [← hmb] at hp
    cases hp
  · simp only [Seg.malloc, if_neg hn0, hini, if_true] at hm
    cases hf : Seg.find_fit s (Seg.get_asize n) with
    | some a =>
      rw [hf] at hm
      dsimp only at hm
      injection hm with hm
      injection hm with hma hmb
      subst hma
      obtain ⟨pre, post, b, hz, hbal, hfit⟩ := seg_find_fit_spec s (Seg.get_asize n) a hlisted hf
      have hba := blkAt_of_zipTo s.blocks Seg.heap_base a pre b post hz
      obtain ⟨c1, c2, c3, c4, c5, c6, c7⟩ :=
        seg_place_WF s a (Seg.get_asize n) pre post b hz hlen hsz hbl hlisted hnodup ⟨ha8, hamin⟩
      obtain ⟨d, hd, hdal, hdsz, hdbl⟩ := c7 hfit
      obtain ⟨hmb1, hmb2⟩ := seg_place_misc s a (Seg.get_asize n)
      have hqa : ∀ q c, blkAt s.blocks Seg.heap_base q = some c → c.alloc = true → q ≠ a := by
        intro q c hqc hcal he
        subst he
        rw [hba] at hqc
        injection hqc with hqc
        subst hqc
        rw [hbal] at hcal
        cases hcal
      have haal : a % 8 = 0 := blkAt_addr_mod8 s.blocks Seg.heap_base a b hba hb8
        (fun x hx => (sizesOk_mem hsz hx).1)
      refine ⟨⟨hmb2.trans hini, c4.trans hlen, c1, c2, by rw [c3, hmb1]; exact hbud,
        ?_, ?_⟩, ?_, ?_, ?_, ?_⟩
      · intro i hi a0 ha0
        rw [c4] at hi
        exact c5 i hi a0 ha0
      · intro i hi
        rw [c4] at hi
        exact c6 i hi
      · intro hna
        exact seg_place_noAdj s a (Seg.get_asize n) pre post b hz hbal hna
      · intro hr
        rw [← hmb] at hr
        cases hr
      · intro q c hqc hcal
        exact seg_place_keep s a (Seg.get_asize n) q c pre post b hz hsz hamin hqc
          (hqa q c hqc hcal)
      · intro p hp
        rw [← hmb] at hp
        injection hp with hp
        subst hp
        have hpd : a + Seg.dsize - Seg.dsize = a := by omega
        simp only [hpd]
        exact ⟨by rw [hd8]; omega, fun q c hqc hcal => (hqa q c hqc hcal).symm,
          d, hd, hdal, hdsz, hdbl⟩
    | none =>
      rw [hf] at hm
      dsimp only at hm
      cases he : Seg.extend_heap s (max (Seg.get_asize n) Seg.chunksize) with
      | none =>
        rw [he] at hm
        injection hm with hm
        injection hm with hma hmb
        subst hma
        refine ⟨hwf', fun h => h, fun _ => rfl, fun q c hqc _ => hqc, ?_⟩
        intro p hp
        rw [← hmb] at hp
        cases hp
      | some w =>
        obtain ⟨s1, a⟩ := w
        rw [he] at hm
        dsimp only at hm
        injection hm with hm
        injection hm with hma hmb
        subst hma
        have hge : Seg.min_block_size ≤ max (Seg.get_asize n) Seg.chunksize :=
          le_trans (by norm_num [Seg.chunksize, hm8]) (le_max_right _ _)
        have hmx64 : max (Seg.get_asize n) Seg.chunksize + 7 < 2 ^ 64 := by omega
        obtain ⟨e1, e2, e3, e4, e5, e6, e7, pre2, post2, d0, hz2, hd0al, hd0sz⟩ :=
          seg_extend_WF s (max (Seg.get_asize n) Seg.chunksize) s1 a he hge hmx64
            hlen hsz hbl hlisted hnodup
        have hrs := (round_up_spec (max (Seg.get_asize n) Seg.chunksize) Seg.dsize
          (by norm_num [Seg.dsize, Seg.wsize]) hmx64).1
        have hfit : Seg.get_asize n ≤ d0.size :=
          le_trans (le_trans (le_max_left _ Seg.chunksize) hrs) hd0sz
        have hba := blkAt_of_zipTo s1.blocks Seg.heap_base a pre2 d0 post2 hz2
        obtain ⟨c1, c2, c3, c4, c5, c6, c7⟩ :=
          seg_place_WF s1 a (Seg.get_asize n) pre2 post2 d0 hz2 e4 e1 e2 e5 e6 ⟨ha8, hamin⟩
        obtain ⟨d, hd, hdal, hdsz, hdbl⟩ := c7 hfit
        obtain ⟨hmb1, hmb2⟩ := seg_place_misc s1 a (Seg.get_asize n)
        have hkeep1 : ∀ q c, blkAt s.blocks Seg.heap_base q = some c → c.alloc = true →
            blkAt s1.blocks Seg.heap_base q = some c := by
          intro q c hqc hcal
          refine seg_extend_keep s (max (Seg.get_asize n) Seg.chunksize) q c s1 a he
            (by omega) hmx64 ?_ hqc hcal
          intro x hx
          have := sizesOk_mem hsz hx
          omega
        have hqa : ∀ q c, blkAt s.blocks Seg.heap_base q = some c → c.alloc = true →
            q ≠ a := by
          intro q c hqc hcal heqa
          subst heqa
          have := hkeep1 q c hqc hcal
          rw [hba] at this
          injection this with this
          subst this
          rw [hd0al] at hcal
          cases hcal
        have haal : a % 8 = 0 := blkAt_addr_mod8 s1.blocks Seg.heap_base a d0 hba hb8
          (fun x hx => (sizesOk_mem e1 hx).1)
        refine ⟨⟨hmb2.trans (e7.trans hini), c4.trans e4, c1, c2,
          by rw [c3, hmb1]; rw [e3]; exact hbud, ?_, ?_⟩, ?_, ?_, ?_, ?_⟩
        · intro i hi a0 ha0
          rw [c4] at hi
          exact c5 i hi a0 ha0
        · intro i hi
          rw [c4] at hi
          exact c6 i hi
        · intro hna
          have hna1 := seg_extend_noAdj s _ s1 a he hna
          exact seg_place_noAdj s1 a (Seg.get_asize n) pre2 post2 d0 hz2 hd0al hna1
        · intro hr
          rw [← hmb] at hr
          cases hr
        · intro q c hqc hcal
          exact seg_place_keep s1 a (Seg.get_asize n) q c pre2 post2 d0 hz2 e1 hamin
            (hkeep1 q c hqc hcal) (hqa q c hqc hcal)
        · intro p hp
          rw [← hmb] at hp
          injection hp with hp
          subst hp
          have hpd : a + Seg.dsize - Seg.dsize = a := by omega
          simp only [hpd]
          exact ⟨by rw [hd8]; omega, fun q c hqc hcal => (hqa q c hqc hcal).symm,
            d, hd, hdal, hdsz, hdbl⟩

/-- calloc preserves well-formedness and the no-adjacent-free invariant,
and returns 8-aligned payloads. -/
theorem seg_calloc_spec (s : Seg.State) (nm n : Nat) (s2 : Seg.State) (r : Option Nat)
    (hwf : Seg.WF s)
    (hm : Seg.calloc s nm n = some (s2, r)) :
    Seg.WF s2 ∧
    (noAdjFreeB s.blocks = true → noAdjFreeB s2.blocks = true) ∧
    (∀ p, r = some p → p % 8 = 0) := by
  simp only [Seg.calloc] at hm
  cases hmal : Seg.malloc s (nm * n % 2 ^ 64) with
  | none =>
    rw [hmal] at hm
    cases hm
  | some w =>
    obtain ⟨s1, r1⟩ := w
    rw [hmal] at hm
    obtain ⟨w1, w2, w3, w4, w5⟩ := seg_malloc_spec s _ s1 r1 hwf hmal
    cases r1 with
    | none =>
      dsimp only at hm
      injection hm with hm
      injection hm with hma hmb
      subst hma
      exact ⟨w1, w2, fun p hp => by rw [← hmb] at hp; cases hp⟩
    | some np =>
      dsimp only at hm
      obtain ⟨hp8, hdis, d, hd, hdal, hdsz, hdbl⟩ := w5 np rfl
      cases hsp : Seg.setPayload s1 (np - Seg.dsize)
          (fun bs => List.replicate (nm * n % 2 ^ 64) 0 ++ bs.drop (nm * n % 2 ^ 64)) with
      | none =>
        rw [hsp] at hm
        cases hm
      | some sP =>
        rw [hsp] at hm
        dsimp only at hm
        injection hm with hm
        injection hm with hma hmb
        subst hma
        obtain ⟨hPeq, pre0, post0, b0, hz0, hg⟩ := seg_setPayload_inv s1 _ _ sP hsp
        subst hPeq
        have hflen : ∀ (b : Blk), blkAt s1.blocks Seg.heap_base (np - Seg.dsize) = some b →
            ((fun bs => List.replicate (nm * n % 2 ^ 64) 0 ++
              bs.drop (nm * n % 2 ^ 64)) b.bytes).length = b.bytes.length := by
          intro b hb
          have hb0 := blkAt_of_zipTo s1.blocks Seg.heap_base _ pre0 b0 post0 hz0
          rw [hb0] at hb
          injection hb with hb
          subst hb
          exact hg
        refine ⟨seg_setBytes_WF s1 _ _ w1 hflen, ?_, ?_⟩
        · intro hna
          rw [seg_setBytes_noAdj]
          exact w2 hna
        · intro p hp
          rw [← hmb] at hp
          injection hp with hp
          subst hp
          exact hp8

/-- realloc on a live allocated block: well-formedness is preserved, a NULL
return leaves the state unchanged, and a successful return is 8-aligned and
preserves the first min(old payload size, new size) payload bytes. -/
theorem seg_realloc_spec (s : Seg.State) (pp n : Nat) (old : Blk) (s2 : Seg.State)
    (r : Option Nat)
    (hwf : Seg.WF s)
    (hn : 0 < n)
    (hold : blkAt s.blocks Seg.heap_base (pp - Seg.dsize) = some old)
    (hoa : old.alloc = true)
    (hm : Seg.realloc s (some pp) n = some (s2, r)) :
    Seg.WF s2 ∧
    (r = none → s2 = s) ∧
    (∀ q, r = some q → q % 8 = 0 ∧
      ∃ d, blkAt s2.blocks Seg.heap_base (q - Seg.dsize) = some d ∧ d.alloc = true ∧
        (n + 20 ≤ 2 ^ 64 →
          d.bytes.take (min (old.size - Seg.tsize) n) =
            old.bytes.take (min (old.size - Seg.tsize) n))) := by
  obtain ⟨hini, hlen, hsz, hbl, hbud, hlisted, hnodup⟩ := hwf
  have hwf' : Seg.WF s := ⟨hini, hlen, hsz, hbl, hbud, hlisted, hnodup⟩
  have hm32 : Seg.min_block_size = 32 := rfl
  have hd8 : Seg.dsize = 8 := rfl
  have hts : Seg.tsize = 12 := rfl
  have hb8 : Seg.heap_base % 8 = 0 := by decide
  obtain ⟨ha8, hamin, ha64⟩ := get_asize_basic n
  have homem : old ∈ s.blocks := blkAt_mem _ _ _ _ hold
  have hosz := sizesOk_mem hsz homem
  have hobl := bytesLen_mem hbl homem
  have hoad : (pp - Seg.dsize) % 8 = 0 := blkAt_addr_mod8 s.blocks Seg.heap_base _ old hold hb8
    (fun x hx => (sizesOk_mem hsz hx).1)
  have hpge : Seg.heap_base ≤ pp - Seg.dsize := blkAt_ge _ _ _ _ hold
  have hpp8 : pp % 8 = 0 := by
    have hhb : Seg.heap_base = 544 := rfl
    omega
  simp only [Seg.realloc, if_neg (by omega : ¬ n = 0)] at hm
  rw [hold] at hm
  dsimp only at hm
  by_cases hle : Seg.get_asize n ≤ old.size
  · rw [if_pos hle] at hm
    by_cases hcut : Seg.min_block_size ≤ old.size - Seg.get_asize n
    · rw [if_pos hcut] at hm
      injection hm with hm
      injection hm with hma hmb
      subst hma
      obtain ⟨pre, post, hz⟩ := zipTo_of_blkAt s.blocks Seg.heap_base (pp - Seg.dsize) old hold
      obtain ⟨heq, haddr⟩ := zipTo_eq _ _ _ _ _ _ hz
      have hnot : ∀ i < s.seglist.length, (pp - Seg.dsize) ∉ s.seglist.getD i [] := by
        intro i hi hmem
        have hv := hlisted i hi _ hmem
        rw [listedEntryOk_iff] at hv
        obtain ⟨d, hd, hdal, _⟩ := hv
        rw [hold] at hd
        injection hd with hd
        rw [← hd] at hdal
        rw [hdal] at hoa
        cases hoa
      obtain ⟨s1, s2c, s3, s4, s5, s6⟩ := seg_split_WF s (pp - Seg.dsize) (Seg.get_asize n)
        pre post old hz hlen hsz hbl hlisted hnodup hnot ⟨ha8, hamin⟩ hcut
      obtain ⟨msc1, msc2⟩ := seg_split_misc s (pp - Seg.dsize) (Seg.get_asize n)
      refine ⟨⟨msc2.trans hini, s4.trans hlen, s1, s2c, by rw [s3, msc1]; exact hbud,
        ?_, ?_⟩, ?_, ?_⟩
      · intro i hi a0 ha0
        rw [s4] at hi
        exact s5 i hi a0 ha0
      · intro i hi
        rw [s4] at hi
        exact s6 i hi
      · intro hr
        rw [← hmb] at hr
        cases hr
      · intro q hq
        rw [← hmb] at hq
        injection hq with hq
        subst hq
        refine ⟨hpp8, ?_⟩
        have hpospre : ∀ x ∈ pre, 0 < x.size := by
          intro x hx
          have := sizesOk_mem hsz (heq ▸ (mem_recombine x pre post old).2 (Or.inl hx))
          omega
        rw [seg_split_eq s (pp - Seg.dsize) (Seg.get_asize n) pre post old hz]
        dsimp only
        rw [haddr]
        refine ⟨⟨Seg.get_asize n, true, old.bytes.take (Seg.get_asize n - Seg.tsize)⟩,
          blkAt_recombine_self pre _ _ Seg.heap_base hpospre, rfl, ?_⟩
        intro hn64
        have hage := (get_asize_spec n hn64).2.2
        dsimp only
        rw [List.take_take, Nat.min_eq_left (by omega)]
    · rw [if_neg hcut] at hm
      injection hm with hm
      injection hm with hma hmb
      subst hma
      refine ⟨hwf', ?_, ?_⟩
      · intro hr
        exact absurd (hmb.trans hr) (by simp)
      · intro q hq
        rw [← hmb] at hq
        injection hq with hq
        subst hq
        exact ⟨hpp8, old, hold, hoa, fun _ => rfl⟩
  · rw [if_neg hle] at hm
    cases hmal : Seg.malloc s n with
    | none =>
      rw [hmal] at hm
      cases hm
    | some w =>
      obtain ⟨s1, r1⟩ := w
      rw [hmal] at hm
      obtain ⟨w1, w2, w3, w4, w5⟩ := seg_malloc_spec s n s1 r1 hwf' hmal
      cases r1 with
      | none =>
        dsimp only at hm
        injection hm with hm
        injection hm with hma hmb
        subst hma
        have hseq : s1 = s := w3 rfl
        subst hseq
        refine ⟨hwf', fun _ => rfl, ?_⟩
        intro q hq
        rw [← hmb] at hq
        cases hq
      | some np =>
        dsimp only at hm
        have hold1 : blkAt s1.blocks Seg.heap_base (pp - Seg.dsize) = some old :=
          w4 _ _ hold hoa
        rw [hold1] at hm
        dsimp only at hm
        obtain ⟨hp8, hdis, d0, hd0, hd0al, hd0sz, hd0bl⟩ := w5 np rfl
        obtain ⟨w1i, w1len, w1sz, w1bl, w1bud, w1listed, w1nodup⟩ := w1
        have w1' : Seg.WF s1 := ⟨w1i, w1len, w1sz, w1bl, w1bud, w1listed, w1nodup⟩
        have hpos1 : ∀ x ∈ s1.blocks, 0 < x.size := by
          intro x hx
          have := sizesOk_mem w1sz hx
          omega
        have hnppp : np - Seg.dsize ≠ pp - Seg.dsize := hdis _ _ hold hoa
        have hflen : ∀ (b : Blk), blkAt s1.blocks Seg.heap_base (np - Seg.dsize) = some b →
            ((fun bs => old.bytes.take (old.size - Seg.tsize) ++
              bs.drop (old.size - Seg.tsize)) b.bytes).length = b.bytes.length := by
          intro b hb
          rw [hd0] at hb
          injection hb with hb
          subst hb
          simp only [List.length_append, List.length_take, List.length_drop]
          omega
        obtain ⟨pre0, post0, hz0⟩ := zipTo_of_blkAt s1.blocks Seg.heap_base _ d0 hd0
        rw [seg_setPayload_some s1 (np - Seg.dsize)
          (fun bs => old.bytes.take (old.size - Seg.tsize) ++ bs.drop (old.size - Seg.tsize))
          pre0 post0 d0 hz0 (hflen d0 hd0)] at hm
        dsimp only at hm
        injection hm with hm
        injection hm with hma hmb
        subst hma
        have hWF2 := seg_setBytes_WF s1 (np - Seg.dsize)
          (fun bs => old.bytes.take (old.size - Seg.tsize) ++ bs.drop (old.size - Seg.tsize))
          w1' hflen
        have hdP := seg_setBytes_self s1 (np - Seg.dsize)
          (fun bs => old.bytes.take (old.size - Seg.tsize) ++ bs.drop (old.size - Seg.tsize))
          pre0 post0 d0 hz0 hpos1
        have holdP := seg_setBytes_keep s1 (np - Seg.dsize) (pp - Seg.dsize)
          (fun bs => old.bytes.take (old.size - Seg.tsize) ++ bs.drop (old.size - Seg.tsize))
          old hpos1 hold1 (by omega)
        have hfree := seg_free_WF
          (Seg.setBytes s1 (np - Seg.dsize)
            (fun bs => old.bytes.take (old.size - Seg.tsize) ++ bs.drop (old.size - Seg.tsize)))
          pp hWF2 ⟨old, holdP, hoa⟩
        refine ⟨hfree.1, ?_, ?_⟩
        · intro hr
          rw [← hmb] at hr
          cases hr
        · intro q hq
          rw [← hmb] at hq
          injection hq with hq
          subst hq
          refine ⟨hp8, ?_⟩
          have hszP : Seg.sizesOkB Seg.min_block_size
              (Seg.setBytes s1 (np - Seg.dsize)
                (fun bs => old.bytes.take (old.size - Seg.tsize) ++
                  bs.drop (old.size - Seg.tsize))).blocks = true := hWF2.2.2.1
          have hkeepF := seg_free_keep
            (Seg.setBytes s1 (np - Seg.dsize)
              (fun bs => old.bytes.take (old.size - Seg.tsize) ++
                bs.drop (old.size - Seg.tsize)))
            pp (np - Seg.dsize) _ hszP hdP hd0al hnppp
          refine ⟨_, hkeepF, hd0al, ?_⟩
          intro hn64
          have hacop : old.size - Seg.tsize < n := by
            obtain ⟨hru1, hru2, hru3⟩ :=
              round_up_spec (n + Seg.tsize) Seg.dsize (by norm_num [Seg.dsize, Seg.wsize])
                (by omega)
            obtain ⟨k, hk⟩ := hru2
            have hga : Seg.get_asize n = max (round_up ((n + Seg.tsize) % 2 ^ 64) Seg.dsize)
                Seg.min_block_size := rfl
            have hmod : (n + Seg.tsize) % 2 ^ 64 = n + Seg.tsize := Nat.mod_eq_of_lt (by omega)
            rw [hmod] at hga
            omega
          rw [Nat.min_eq_left (Nat.le_of_lt hacop)]
          show (old.bytes.take (old.size - Seg.tsize) ++
              d0.bytes.drop (old.size - Seg.tsize)).take (old.size - Seg.tsize) =
            old.bytes.take (old.size - Seg.tsize)
          refine List.take_left' ?_
          rw [List.length_take]
          omega

/-! Unfolding equations and operation lemmas for the implicit variant. -/

theorem impl_free_eq (t : Impl.State) (pp : Nat) (pre post : List Blk) (b : Blk)
    (hz : zipTo t.blocks Impl.heap_base (pp - Impl.wsize) = some (pre, b, post)) :
    Impl.free t (some pp) = { t with
      blocks := recombine
        (coalesce_blocks Impl.dsize pre
          ⟨b.size, false, List.replicate (b.size - Impl.dsize) 0⟩ post).1
        (coalesce_blocks Impl.dsize pre
          ⟨b.size, false, List.replicate (b.size - Impl.dsize) 0⟩ post).2.1
        (coalesce_blocks Impl.dsize pre
          ⟨b.size, false, List.replicate (b.size - Impl.dsize) 0⟩ post).2.2 } := by
  simp only [Impl.free, Impl.coalesce, hz]

theorem impl_place_eq_split (t : Impl.State) (a asize : Nat) (pre post : List Blk) (b : Blk)
    (hz : zipTo t.blocks Impl.heap_base a = some (pre, b, post))
    (hcut : Impl.min_block_size ≤ b.size - asize) :
    Impl.place t a asize = { t with
      blocks := recombine pre ⟨asize, true, b.bytes.take (asize - Impl.dsize)⟩
        (⟨b.size - asize, false, List.replicate (b.size - asize - Impl.dsize) 0⟩ :: post) } := by
  simp only [Impl.place, hz, if_pos hcut]

theorem impl_place_eq_whole (t : Impl.State) (a asize : Nat) (pre post : List Blk) (b : Blk)
    (hz : zipTo t.blocks Impl.heap_base a = some (pre, b, post))
    (hcut : ¬ Impl.min_block_size ≤ b.size - asize) :
    Impl.place t a asize = { t with blocks := recombine pre { b with alloc := true } post } := by
  simp only [Impl.place, hz, if_neg hcut]

theorem impl_extend_eq (t : Impl.State) (size : Nat)
    (hbud : round_up size Impl.dsize ≤ t.budget) :
    Impl.extend_heap t size = some ({ t with
      blocks := recombine
        (coalesce_blocks Impl.dsize t.blocks.reverse
          ⟨round_up size Impl.dsize, false,
            List.replicate (round_up size Impl.dsize - Impl.dsize) 0⟩ []).1
        (coalesce_blocks Impl.dsize t.blocks.reverse
          ⟨round_up size Impl.dsize, false,
            List.replicate (round_up size Impl.dsize - Impl.dsize) 0⟩ []).2.1
        (coalesce_blocks Impl.dsize t.blocks.reverse
          ⟨round_up size Impl.dsize, false,
            List.replicate (round_up size Impl.dsize - Impl.dsize) 0⟩ []).2.2
      budget := t.budget - round_up size Impl.dsize },
      if headAlloc t.blocks.reverse then Impl.heap_base + totalSize t.blocks
      else Impl.heap_base + totalSize t.blocks - prevSize t.blocks.reverse) := by
  simp only [Impl.extend_heap, Impl.coalesce, if_pos hbud]

theorem impl_extend_none (t : Impl.State) (size : Nat)
    (hbud : ¬ round_up size Impl.dsize ≤ t.budget) :
    Impl.extend_heap t size = none := by
  simp only [Impl.extend_heap, if_neg hbud]

theorem impl_find_fit_go_spec (asize : Nat) :
    ∀ (blocks : List Blk) (base a : Nat), (∀ x ∈ blocks, 0 < x.size) →
    Impl.find_fit_go asize blocks base = some a →
    ∃ c, blkAt blocks base a = some c ∧ c.alloc = false ∧ asize ≤ c.size := by
  intro blocks
  induction blocks with
  | nil => intro base a _ h; simp [Impl.find_fit_go] at h
  | cons b t ih =>
    intro base a hpos h
    simp only [Impl.find_fit_go] at h
    by_cases hcond : !b.alloc && decide (asize ≤ b.size)
    · rw [if_pos hcond] at h
      injection h with h
      subst h
      simp only [Bool.and_eq_true, Bool.not_eq_true', decide_eq_true_eq] at hcond
      exact ⟨b, by simp [blkAt], hcond.1, hcond.2⟩
    · rw [if_neg hcond] at h
      obtain ⟨c, hc, hcf, hcs⟩ := ih (base + b.size) a
        (fun x hx => hpos x (List.mem_cons_of_mem b hx)) h
      refine ⟨c, ?_, hcf, hcs⟩
      simp only [blkAt]
      have hge := blkAt_ge t (base + b.size) a c hc
      have hbpos : 0 < b.size := hpos b (by simp)
      rw [if_neg (by omega)]
      exact hc

theorem impl_find_fit_spec (t : Impl.State) (asize a : Nat)
    (hpos : ∀ x ∈ t.blocks, 0 < x.size)
    (hff : Impl.find_fit t asize = some a) :
    ∃ pre post b, zipTo t.blocks Impl.heap_base a = some (pre, b, post) ∧
      b.alloc = false ∧ asize ≤ b.size := by
  obtain ⟨c, hc, hcf, hcs⟩ := impl_find_fit_go_spec asize t.blocks Impl.heap_base a hpos hff
  obtain ⟨pre, post, hz⟩ := zipTo_of_blkAt _ _ _ _ hc
  exact ⟨pre, post, c, hz, hcf, hcs⟩

theorem impl_malloc_total (t : Impl.State) (n : Nat) (hini : t.initialized = true) :
    ∃ w, Impl.malloc t n = some w := by
  by_cases hn0 : n = 0
  · exact ⟨(t, none), by simp [Impl.malloc, hn0]⟩
  · simp only [Impl.malloc, if_neg hn0, hini, if_true]
    cases hf : Impl.find_fit t ((round_up n Impl.dsize + Impl.dsize) % 2 ^ 64) with
    | some a => exact ⟨_, rfl⟩
    | none =>
      cases he : Impl.extend_heap t
          (max ((round_up n Impl.dsize + Impl.dsize) % 2 ^ 64) Impl.chunksize) with
      | none => exact ⟨_, rfl⟩
      | some w => exact ⟨_, rfl⟩

theorem blkAt_addr_mod8_base (l : List Blk) : ∀ base a c, blkAt l base a = some c →
    (∀ x ∈ l, x.size % 8 = 0) → a % 8 = base % 8 := by
  induction l with
  | nil => intro base a c h _; simp [blkAt] at h
  | cons b t ih =>
    intro base a c h hall
    simp only [blkAt] at h
    by_cases hab : a = base
    · rw [hab]
    · rw [if_neg hab] at h
      have := ih (base + b.size) a c h (fun x hx => hall x (by simp [hx]))
      have hb := hall b (by simp)
      omega

theorem impl_free_WF (t : Impl.State) (pp : Nat)
    (hwf : Impl.WF t)
    (hblk : ∃ c, blkAt t.blocks Impl.heap_base (pp - Impl.wsize) = some c ∧ c.alloc = true) :
    Impl.WF (Impl.free t (some pp)) ∧
    totalSize (Impl.free t (some pp)).blocks = totalSize t.blocks ∧
    (Impl.free t (some pp)).budget = t.budget := by
  obtain ⟨hini, hsz, hbl, hbud⟩ := hwf
  obtain ⟨c, hc, hcal⟩ := hblk
  obtain ⟨pre, post, hz⟩ := zipTo_of_blkAt _ _ _ _ hc
  obtain ⟨heq, haddr⟩ := zipTo_eq _ _ _ _ _ _ hz
  have hm : Impl.min_block_size = 16 := rfl
  have hcmem : c ∈ t.blocks := by
    rw [heq]
    exact (mem_recombine c pre post c).2 (Or.inr (Or.inl rfl))
  have hcsz := sizesOk_mem hsz hcmem
  have hszM : Seg.sizesOkB Impl.min_block_size
      (recombine pre ⟨c.size, false, List.replicate (c.size - Impl.dsize) 0⟩ post) = true := by
    refine sizesOk_of_mem ?_
    intro x hx
    rcases (mem_recombine x pre post _).1 hx with hx | hx | hx
    · exact sizesOk_mem hsz (heq ▸ (mem_recombine x pre post c).2 (Or.inl hx))
    · subst hx
      exact hcsz
    · exact sizesOk_mem hsz (heq ▸ (mem_recombine x pre post c).2 (Or.inr (Or.inr hx)))
  have hblM : Seg.bytesLenOkB Impl.dsize
      (recombine pre ⟨c.size, false, List.replicate (c.size - Impl.dsize) 0⟩ post) = true := by
    refine bytesLen_of_mem ?_
    intro x hx
    rcases (mem_recombine x pre post _).1 hx with hx | hx | hx
    · exact bytesLen_mem hbl (heq ▸ (mem_recombine x pre post c).2 (Or.inl hx))
    · subst hx
      simp
    · exact bytesLen_mem hbl (heq ▸ (mem_recombine x pre post c).2 (Or.inr (Or.inr hx)))
  obtain ⟨f1, f2, f3⟩ := coalesce_blocks_WFparts Impl.dsize Impl.min_block_size pre post
    ⟨c.size, false, List.replicate (c.size - Impl.dsize) 0⟩ hszM hblM
  rw [impl_free_eq t pp pre post c hz]
  have htot : totalSize
      (recombine (coalesce_blocks Impl.dsize pre
          ⟨c.size, false, List.replicate (c.size - Impl.dsize) 0⟩ post).1
        (coalesce_blocks Impl.dsize pre
          ⟨c.size, false, List.replicate (c.size - Impl.dsize) 0⟩ post).2.1
        (coalesce_blocks Impl.dsize pre
          ⟨c.size, false, List.replicate (c.size - Impl.dsize) 0⟩ post).2.2) =
      totalSize t.blocks := by
    rw [f3, heq, totalSize_recombine, totalSize_recombine]
  exact ⟨⟨hini, f1, f2, by dsimp only; rw [htot]; exact hbud⟩, htot, rfl⟩

theorem impl_free_keep (t : Impl.State) (pp q : Nat) (c : Blk)
    (hpos : ∀ x ∈ t.blocks, 0 < x.size)
    (h : blkAt t.blocks Impl.heap_base q = some c)
    (hc : c.alloc = true)
    (hq : q ≠ pp - Impl.wsize) :
    blkAt (Impl.free t (some pp)).blocks Impl.heap_base q = some c := by
  cases hz : zipTo t.blocks Impl.heap_base (pp - Impl.wsize) with
  | none =>
    show blkAt (Impl.free t (some pp)).blocks _ _ = _
    simp only [Impl.free, hz]
    exact h
  | some w =>
    obtain ⟨pre, b, post⟩ := w
    obtain ⟨heq, haddr⟩ := zipTo_eq _ _ _ _ _ _ hz
    rw [impl_free_eq t pp pre post b hz]
    dsimp only
    rw [heq] at h
    have hbpos : 0 < b.size := by
      refine hpos b ?_
      rw [heq]
      exact (mem_recombine b pre post b).2 (Or.inr (Or.inl rfl))
    have h2 := blkAt_swap_one pre post b ⟨b.size, false, List.replicate (b.size - Impl.dsize) 0⟩
      Impl.heap_base q c rfl hbpos h (by rw [← haddr]; exact hq)
    refine coalesce_blocks_keep Impl.dsize pre post _ Impl.heap_base q c rfl ?_ h2 hc
    intro x hx
    rcases (mem_recombine x pre post _).1 hx with hx | hx | hx
    · exact hpos x (by rw [heq]; exact (mem_recombine x pre post b).2 (Or.inl hx))
    · subst hx
      exact hbpos
    · exact hpos x (by rw [heq]; exact (mem_recombine x pre post b).2 (Or.inr (Or.inr hx)))

theorem impl_place_WF (t : Impl.State) (a asize : Nat) (pre post : List Blk) (b : Blk)
    (hz : zipTo t.blocks Impl.heap_base a = some (pre, b, post))
    (hsz : Seg.sizesOkB Impl.min_block_size t.blocks = true)
    (hbl : Seg.bytesLenOkB Impl.dsize t.blocks = true)
    (hasz : asize % 8 = 0 ∧ Impl.min_block_size ≤ asize) :
    Seg.sizesOkB Impl.min_block_size (Impl.place t a asize).blocks = true ∧
    Seg.bytesLenOkB Impl.dsize (Impl.place t a asize).blocks = true ∧
    totalSize (Impl.place t a asize).blocks = totalSize t.blocks ∧
    (Impl.place t a asize).budget = t.budget ∧
    (Impl.place t a asize).initialized = t.initialized ∧
    (asize ≤ b.size →
      ∃ d, blkAt (Impl.place t a asize).blocks Impl.heap_base a = some d ∧
        d.alloc = true ∧ asize ≤ d.size ∧ d.bytes.length = d.size - Impl.dsize) := by
  have hm : Impl.min_block_size = 16 := rfl
  have hd8 : Impl.dsize = 8 := rfl
  obtain ⟨heq, haddr⟩ := zipTo_eq _ _ _ _ _ _ hz
  have hbmem : b ∈ t.blocks := by
    rw [heq]
    exact (mem_recombine b pre post b).2 (Or.inr (Or.inl rfl))
  have hbsz := sizesOk_mem hsz hbmem
  have hblen := bytesLen_mem hbl hbmem
  have hpospre : ∀ x ∈ pre, 0 < x.size := by
    intro x hx
    have := sizesOk_mem hsz (heq ▸ (mem_recombine x pre post b).2 (Or.inl hx))
    omega
  by_cases hcut : Impl.min_block_size ≤ b.size - asize
  · rw [impl_place_eq_split t a asize pre post b hz hcut]
    refine ⟨sizesOk_of_mem ?_, bytesLen_of_mem ?_, ?_, rfl, rfl, ?_⟩
    · intro x hx
      dsimp only at hx
      rcases (mem_recombine x pre _ _).1 hx with hx | hx | hx
      · exact sizesOk_mem hsz (heq ▸ (mem_recombine x pre post b).2 (Or.inl hx))
      · subst hx
        dsimp only
        omega
      · rcases List.mem_cons.1 hx with hx | hx
        · subst hx
          dsimp only
          omega
        · exact sizesOk_mem hsz (heq ▸ (mem_recombine x pre post b).2 (Or.inr (Or.inr hx)))
    · intro x hx
      dsimp only at hx
      rcases (mem_recombine x pre _ _).1 hx with hx | hx | hx
      · exact bytesLen_mem hbl (heq ▸ (mem_recombine x pre post b).2 (Or.inl hx))
      · subst hx
        simp only [List.length_take]
        omega
      · rcases List.mem_cons.1 hx with hx | hx
        · subst hx
          simp
        · exact bytesLen_mem hbl (heq ▸ (mem_recombine x pre post b).2 (Or.inr (Or.inr hx)))
    · dsimp only
      rw [totalSize_recombine, totalSize_cons, heq, totalSize_recombine]
      dsimp only
      omega
    · intro hfit
      refine ⟨⟨asize, true, b.bytes.take (asize - Impl.dsize)⟩, ?_, rfl, le_rfl, ?_⟩
      · dsimp only
        rw [haddr]
        exact blkAt_recombine_self pre _ _ Impl.heap_base hpospre
      · simp only [List.length_take]
        omega
  · rw [impl_place_eq_whole t a asize pre post b hz hcut]
    refine ⟨sizesOk_of_mem ?_, bytesLen_of_mem ?_, ?_, rfl, rfl, ?_⟩
    · intro x hx
      dsimp only at hx
      rcases (mem_recombine x pre _ _).1 hx with hx | hx | hx
      · exact sizesOk_mem hsz (heq ▸ (mem_recombine x pre post b).2 (Or.inl hx))
      · subst hx
        dsimp only
        omega
      · exact sizesOk_mem hsz (heq ▸ (mem_recombine x pre post b).2 (Or.inr (Or.inr hx)))
    · intro x hx
      dsimp only at hx
      rcases (mem_recombine x pre _ _).1 hx with hx | hx | hx
      · exact bytesLen_mem hbl (heq ▸ (mem_recombine x pre post b).2 (Or.inl hx))
      · subst hx
        dsimp only
        exact hblen
      · exact bytesLen_mem hbl (heq ▸ (mem_recombine x pre post b).2 (Or.inr (Or.inr hx)))
    · dsimp only
      rw [totalSize_recombine, heq, totalSize_recombine]
    · intro hfit
      refine ⟨{ b with alloc := true }, ?_, rfl, by dsimp only; omega, ?_⟩
      · dsimp only
        rw [haddr]
        exact blkAt_recombine_self pre _ _ Impl.heap_base hpospre
      · dsimp only
        exact hblen

theorem impl_place_keep (t : Impl.State) (a asize q : Nat) (c : Blk)
    (pre post : List Blk) (b : Blk)
    (hz : zipTo t.blocks Impl.heap_base a = some (pre, b, post))
    (hsz : Seg.sizesOkB Impl.min_block_size t.blocks = true)
    (hasz : Impl.min_block_size ≤ asize)
    (h : blkAt t.blocks Impl.heap_base q = some c)
    (hq : q ≠ a) :
    blkAt (Impl.place t a asize).blocks Impl.heap_base q = some c := by
  have hm : Impl.min_block_size = 16 := rfl
  obtain ⟨heq, haddr⟩ := zipTo_eq _ _ _ _ _ _ hz
  rw [heq] at h
  have hbpos : 0 < b.size := by
    have := sizesOk_mem hsz (heq ▸ (mem_recombine b pre post b).2 (Or.inr (Or.inl rfl)))
    omega
  by_cases hcut : Impl.min_block_size ≤ b.size - asize
  · rw [impl_place_eq_split t a asize pre post b hz hcut]
    dsimp only
    refine blkAt_swap_two pre post b _ _ Impl.heap_base q c ?_ (by dsimp only; omega)
      (by dsimp only; omega) h (by rw [← haddr]; exact hq)
    dsimp only
    omega
  · rw [impl_place_eq_whole t a asize pre post b hz hcut]
    dsimp only
    exact blkAt_swap_one pre post b { b with alloc := true } Impl.heap_base q c rfl
      hbpos h (by rw [← haddr]; exact hq)

theorem impl_extend_WF (t : Impl.State) (size : Nat) (t2 : Impl.State) (a2 : Nat)
    (he : Impl.extend_heap t size = some (t2, a2))
    (hge : Impl.min_block_size ≤ size)
    (hsize64 : size + 7 < 2 ^ 64)
    (hsz : Seg.sizesOkB Impl.min_block_size t.blocks = true)
    (hbl : Seg.bytesLenOkB Impl.dsize t.blocks = true) :
    Seg.sizesOkB Impl.min_block_size t2.blocks = true ∧
    Seg.bytesLenOkB Impl.dsize t2.blocks = true ∧
    totalSize t2.blocks + t2.budget = totalSize t.blocks + t.budget ∧
    t2.initialized = t.initialized ∧
    (∃ pre2 post2 d, zipTo t2.blocks Impl.heap_base a2 = some (pre2, d, post2) ∧
      d.alloc = false ∧ round_up size Impl.dsize ≤ d.size) := by
  have hm : Impl.min_block_size = 16 := rfl
  by_cases hbud : round_up size Impl.dsize ≤ t.budget
  swap
  · rw [impl_extend_none t size hbud] at he
    cases he
  obtain ⟨h1, h2, h3⟩ := round_up_spec size Impl.dsize (by norm_num [Impl.dsize, Impl.wsize]) hsize64
  have hsz8 : round_up size Impl.dsize % 8 = 0 := by
    obtain ⟨k, hk⟩ := h2
    rw [hk]
    show 8 * k % 8 = 0
    omega
  have hMeq : recombine t.blocks.reverse
      (⟨round_up size Impl.dsize, false,
        List.replicate (round_up size Impl.dsize - Impl.dsize) 0⟩ : Blk) [] =
      t.blocks ++ [⟨round_up size Impl.dsize, false,
        List.replicate (round_up size Impl.dsize - Impl.dsize) 0⟩] :=
    recombine_reverse_nil _ _
  have hszM : Seg.sizesOkB Impl.min_block_size
      (recombine t.blocks.reverse
        (⟨round_up size Impl.dsize, false,
          List.replicate (round_up size Impl.dsize - Impl.dsize) 0⟩ : Blk) []) = true := by
    rw [hMeq]
    refine sizesOk_of_mem ?_
    intro x hx
    rcases List.mem_append.1 hx with hx | hx
    · exact sizesOk_mem hsz hx
    · simp at hx
      subst hx
      simp only []
      omega
  have hblM : Seg.bytesLenOkB Impl.dsize
      (recombine t.blocks.reverse
        (⟨round_up size Impl.dsize, false,
          List.replicate (round_up size Impl.dsize - Impl.dsize) 0⟩ : Blk) []) = true := by
    rw [hMeq]
    refine bytesLen_of_mem ?_
    intro x hx
    rcases List.mem_append.1 hx with hx | hx
    · exact bytesLen_mem hbl hx
    · simp at hx
      subst hx
      simp
  obtain ⟨f1, f2, f3⟩ := coalesce_blocks_WFparts Impl.dsize Impl.min_block_size
    t.blocks.reverse []
    ⟨round_up size Impl.dsize, false, List.replicate (round_up size Impl.dsize - Impl.dsize) 0⟩
    hszM hblM
  have hres := coalesce_blocks_result Impl.dsize t.blocks.reverse []
    ⟨round_up size Impl.dsize, false, List.replicate (round_up size Impl.dsize - Impl.dsize) 0⟩
    Impl.heap_base (Impl.heap_base + totalSize t.blocks)
    (by rw [totalSize_reverse]) rfl
    (fun x hx => by
      have := sizesOk_mem hsz (List.mem_reverse.1 hx)
      omega)
  rw [impl_extend_eq t size hbud] at he
  injection he with he
  injection he with he1 he2
  subst he2
  rw [← he1]
  refine ⟨f1, f2, ?_, rfl, ?_⟩
  · dsimp only
    rw [f3, hMeq, totalSize_append, totalSize_cons, totalSize_nil]
    simp only []
    omega
  · obtain ⟨hr1, hr2, hr3⟩ := hres
    have hprev : (if headAlloc t.blocks.reverse then Impl.heap_base + totalSize t.blocks
        else Impl.heap_base + totalSize t.blocks - prevSize t.blocks.reverse) =
        (if headAlloc t.blocks.reverse then Impl.heap_base + totalSize t.blocks
        else Impl.heap_base + totalSize t.blocks - prevSize t.blocks.reverse) := rfl
    obtain ⟨pre2, post2, hzz⟩ := zipTo_of_blkAt _ _ _ _ hr1
    refine ⟨pre2, post2, _, hzz, hr3, ?_⟩
    calc round_up size Impl.dsize =
        (⟨round_up size Impl.dsize, false,
          List.replicate (round_up size Impl.dsize - Impl.dsize) 0⟩ : Blk).size := rfl
    _ ≤ _ := hr2

theorem impl_extend_keep (t : Impl.State) (size q : Nat) (c : Blk) (t2 : Impl.State) (a2 : Nat)
    (he : Impl.extend_heap t size = some (t2, a2))
    (hszpos : 0 < size)
    (hsize64 : size + 7 < 2 ^ 64)
    (hpos : ∀ x ∈ t.blocks, 0 < x.size)
    (h : blkAt t.blocks Impl.heap_base q = some c)
    (hc : c.alloc = true) :
    blkAt t2.blocks Impl.heap_base q = some c := by
  by_cases hbud : round_up size Impl.dsize ≤ t.budget
  · obtain ⟨hr1, _, _⟩ := round_up_spec size Impl.dsize (by norm_num [Impl.dsize, Impl.wsize]) hsize64
    rw [impl_extend_eq t size hbud] at he
    injection he with he
    injection he with he1 he2
    rw [← he1]
    dsimp only
    refine coalesce_blocks_keep Impl.dsize t.blocks.reverse [] _ Impl.heap_base q c rfl ?_ ?_ hc
    · intro x hx
      rw [recombine_reverse_nil] at hx
      rcases List.mem_append.1 hx with hx | hx
      · exact hpos x hx
      · simp at hx
        subst hx
        dsimp only
        omega
    · rw [recombine_reverse_nil]
      exact blkAt_append_left _ _ _ _ _ h
  · rw [impl_extend_none t size hbud] at he
    cases he

/-- malloc of the implicit variant: well-formedness is preserved, allocated
blocks survive, NULL returns leave the state unchanged, and a success is an
8-aligned fresh allocated block that fits the adjusted request. -/
theorem impl_malloc_spec (t : Impl.State) (n : Nat) (t2 : Impl.State) (r : Option Nat)
    (hwf : Impl.WF t)
    (hn64 : n + 16 ≤ 2 ^ 64)
    (hm : Impl.malloc t n = some (t2, r)) :
    Impl.WF t2 ∧
    (r = none → t2 = t) ∧
    (∀ q c, blkAt t.blocks Impl.heap_base q = some c → c.alloc = true →
      blkAt t2.blocks Impl.heap_base q = some c) ∧
    (∀ p, r = some p → p % 8 = 0 ∧
      (∀ q c, blkAt t.blocks Impl.heap_base q = some c → c.alloc = true →
        p - Impl.wsize ≠ q) ∧
      ∃ d, blkAt t2.blocks Impl.heap_base (p - Impl.wsize) = some d ∧ d.alloc = true ∧
        n ≤ d.size - Impl.dsize ∧ d.bytes.length = d.size - Impl.dsize) := by
  obtain ⟨hini, hsz, hbl, hbud⟩ := hwf
  have hwf' : Impl.WF t := ⟨hini, hsz, hbl, hbud⟩
  have hm16 : Impl.min_block_size = 16 := rfl
  have hd8 : Impl.dsize = 8 := rfl
  have hw4 : Impl.wsize = 4 := rfl
  have hb4 : Impl.heap_base % 8 = 4 := by decide
  have hpost : ∀ x ∈ t.blocks, 0 < x.size := by
    intro x hx
    have := sizesOk_mem hsz hx
    omega
  by_cases hn0 : n = 0
  · simp only [Impl.malloc, if_pos hn0] at hm
    injection hm with hm
    injection hm with hma hmb
    subst hma
    refine ⟨hwf', fun _ => rfl, fun q c hqc _ => hqc, ?_⟩
    intro p hp
    rw [← hmb] at hp
    cases hp
  · obtain ⟨hru1, hru2, hru3⟩ := round_up_spec n Impl.dsize
      (by norm_num [Impl.dsize, Impl.wsize]) (by omega)
    obtain ⟨k, hk⟩ := hru2
    have hk8 : round_up n Impl.dsize = 8 * k := by rw [hk, hd8]
    have hasz8 : (round_up n Impl.dsize + Impl.dsize) % 8 = 0 := by omega
    have haszmin : Impl.min_block_size ≤ round_up n Impl.dsize + Impl.dsize := by omega
    have haszeq : (round_up n Impl.dsize + Impl.dsize) % 2 ^ 64 =
        round_up n Impl.dsize + Impl.dsize := Nat.mod_eq_of_lt (by omega)
    simp only [Impl.malloc, if_neg hn0, hini, if_true, haszeq] at hm
    cases hf : Impl.find_fit t (round_up n Impl.dsize + Impl.dsize) with
    | some a =>
      rw [hf] at hm
      dsimp only at hm
      injection hm with hm
      injection hm with hma hmb
      subst hma
      obtain ⟨pre, post, b, hz, hbal, hfit⟩ :=
        impl_find_fit_spec t (round_up n Impl.dsize + Impl.dsize) a hpost hf
      have hba := blkAt_of_zipTo t.blocks Impl.heap_base a pre b post hz
      obtain ⟨c1, c2, c3, c4, c5, c6⟩ :=
        impl_place_WF t a (round_up n Impl.dsize + Impl.dsize) pre post b hz hsz hbl
          ⟨hasz8, haszmin⟩
      obtain ⟨d, hd, hdal, hdsz, hdbl⟩ := c6 hfit
      have hqa : ∀ q c, blkAt t.blocks Impl.heap_base q = some c → c.alloc = true →
          q ≠ a := by
        intro q c hqc hcal he
        subst he
        rw [hba] at hqc
        injection hqc with hqc
        subst hqc
        rw [hbal] at hcal
        cases hcal
      have haal : a % 8 = 4 := by
        have := blkAt_addr_mod8_base t.blocks Impl.heap_base a b hba
          (fun x hx => (sizesOk_mem hsz hx).1)
        omega
      refine ⟨⟨c5.trans hini, c1, c2, by rw [c3, c4]; exact hbud⟩, ?_, ?_, ?_⟩
      · intro hr
        rw [← hmb] at hr
        cases hr
      · intro q c hqc hcal
        exact impl_place_keep t a (round_up n Impl.dsize + Impl.dsize) q c pre post b hz hsz
          haszmin hqc (hqa q c hqc hcal)
      · intro p hp
        rw [← hmb] at hp
        injection hp with hp
        subst hp
        have hpd : a + Impl.wsize - Impl.wsize = a := by omega
        simp only [hpd]
        exact ⟨by omega, fun q c hqc hcal => (hqa q c hqc hcal).symm,
          d, hd, hdal, by omega, hdbl⟩
    | none =>
      rw [hf] at hm
      dsimp only at hm
      cases he : Impl.extend_heap t
          (max (round_up n Impl.dsize + Impl.dsize) Impl.chunksize) with
      | none =>
        rw [he] at hm
        injection hm with hm
        injection hm with hma hmb
        subst hma
        refine ⟨hwf', fun _ => rfl, fun q c hqc _ => hqc, ?_⟩
        intro p hp
        rw [← hmb] at hp
        cases hp
      | some w =>
        obtain ⟨t1, a⟩ := w
        rw [he] at hm
        dsimp only at hm
        injection hm with hm
        injection hm with hma hmb
        subst hma
        have hge : Impl.min_block_size ≤ max (round_up n Impl.dsize + Impl.dsize)
            Impl.chunksize :=
          le_trans (by norm_num [Impl.chunksize, hm16]) (le_max_right _ _)
        have hch : Impl.chunksize = 4096 := rfl
        have hmx64 : max (round_up n Impl.dsize + Impl.dsize) Impl.chunksize + 7 < 2 ^ 64 := by
          omega
        obtain ⟨e1, e2, e3, e4, pre2, post2, d0, hz2, hd0al, hd0sz⟩ :=
          impl_extend_WF t (max (round_up n Impl.dsize + Impl.dsize) Impl.chunksize) t1 a
            he hge hmx64 hsz hbl
        have hrs := (round_up_spec (max (round_up n Impl.dsize + Impl.dsize) Impl.chunksize)
          Impl.dsize (by norm_num [Impl.dsize, Impl.wsize]) hmx64).1
        have hfit : round_up n Impl.dsize + Impl.dsize ≤ d0.size :=
          le_trans (le_trans (le_max_left _ Impl.chunksize) hrs) hd0sz
        have hba := blkAt_of_zipTo t1.blocks Impl.heap_base a pre2 d0 post2 hz2
        obtain ⟨c1, c2, c3, c4, c5, c6⟩ :=
          impl_place_WF t1 a (round_up n Impl.dsize + Impl.dsize) pre2 post2 d0 hz2 e1 e2
            ⟨hasz8, haszmin⟩
        obtain ⟨d, hd, hdal, hdsz, hdbl⟩ := c6 hfit
        have hkeep1 : ∀ q c, blkAt t.blocks Impl.heap_base q = some c → c.alloc = true →
            blkAt t1.blocks Impl.heap_base q = some c := by
          intro q c hqc hcal
          exact impl_extend_keep t (max (round_up n Impl.dsize + Impl.dsize) Impl.chunksize)
            q c t1 a he (by omega) hmx64 hpost hqc hcal
        have hqa : ∀ q c, blkAt t.blocks Impl.heap_base q = some c → c.alloc = true →
            q ≠ a := by
          intro q c hqc hcal heqa
          subst heqa
          have := hkeep1 q c hqc hcal
          rw [hba] at this
          injection this with this
          subst this
          rw [hd0al] at hcal
          cases hcal
        have haal : a % 8 = 4 := by
          have := blkAt_addr_mod8_base t1.blocks Impl.heap_base a d0 hba
            (fun x hx => (sizesOk_mem e1 hx).1)
          omega
        refine ⟨⟨c5.trans (e4.trans hini), c1, c2, by rw [c3, c4]; rw [e3]; exact hbud⟩,
          ?_, ?_, ?_⟩
        · intro hr
          rw [← hmb] at hr
          cases hr
        · intro q c hqc hcal
          exact impl_place_keep t1 a (round_up n Impl.dsize + Impl.dsize) q c pre2 post2 d0
            hz2 e1 haszmin (hkeep1 q c hqc hcal) (hqa q c hqc hcal)
        · intro p hp
          rw [← hmb] at hp
          injection hp with hp
          subst hp
          have hpd : a + Impl.wsize - Impl.wsize = a := by omega
          simp only [hpd]
          exact ⟨by omega, fun q c hqc hcal => (hqa q c hqc hcal).symm,
            d, hd, hdal, by omega, hdbl⟩

theorem impl_setBytes_eq (t : Impl.State) (a : Nat) (f : List Nat → List Nat)
    (pre post : List Blk) (b : Blk)
    (hz : zipTo t.blocks Impl.heap_base a = some (pre, b, post)) :
    Impl.setBytes t a f =
      { t with blocks := recombine pre { b with bytes := f b.bytes } post } := by
  simp only [Impl.setBytes, hz]

theorem impl_setBytes_self (t : Impl.State) (a : Nat) (f : List Nat → List Nat)
    (pre post : List Blk) (b : Blk)
    (hz : zipTo t.blocks Impl.heap_base a = some (pre, b, post))
    (hpos : ∀ x ∈ t.blocks, 0 < x.size) :
    blkAt (Impl.setBytes t a f).blocks Impl.heap_base a =
      some { b with bytes := f b.bytes } := by
  obtain ⟨heq, haddr⟩ := zipTo_eq _ _ _ _ _ _ hz
  rw [impl_setBytes_eq t a f pre post b hz]
  dsimp only
  rw [haddr]
  refine blkAt_recombine_self pre post _ Impl.heap_base ?_
  intro x hx
  exact hpos x (heq ▸ (mem_recombine x pre post b).2 (Or.inl hx))

theorem impl_setBytes_keep (t : Impl.State) (a q : Nat) (f : List Nat → List Nat) (c : Blk)
    (hpos : ∀ x ∈ t.blocks, 0 < x.size)
    (h : blkAt t.blocks Impl.heap_base q = some c)
    (hq : q ≠ a) :
    blkAt (Impl.setBytes t a f).blocks Impl.heap_base q = some c := by
  cases hz : zipTo t.blocks Impl.heap_base a with
  | none =>
    show blkAt (Impl.setBytes t a f).blocks _ _ = _
    simp only [Impl.setBytes, hz]
    exact h
  | some w =>
    obtain ⟨pre, b, post⟩ := w
    obtain ⟨heq, haddr⟩ := zipTo_eq _ _ _ _ _ _ hz
    rw [impl_setBytes_eq t a f pre post b hz]
    dsimp only
    rw [heq] at h
    have hbmem : b ∈ t.blocks := by
      rw [heq]
      exact (mem_recombine b pre post b).2 (Or.inr (Or.inl rfl))
    exact blkAt_swap_one pre post b { b with bytes := f b.bytes } Impl.heap_base q c rfl
      (hpos b hbmem) h (by rw [← haddr]; exact hq)

theorem impl_setBytes_WF (t : Impl.State) (a : Nat) (f : List Nat → List Nat)
    (hwf : Impl.WF t)
    (hflen : ∀ (b : Blk), blkAt t.blocks Impl.heap_base a = some b →
      (f b.bytes).length = b.bytes.length) :
    Impl.WF (Impl.setBytes t a f) := by
  obtain ⟨hini, hsz, hbl, hbud⟩ := hwf
  cases hz : zipTo t.blocks Impl.heap_base a with
  | none =>
    show Impl.WF (Impl.setBytes t a f)
    simp only [Impl.setBytes, hz]
    exact ⟨hini, hsz, hbl, hbud⟩
  | some w =>
    obtain ⟨pre, b, post⟩ := w
    obtain ⟨heq, haddr⟩ := zipTo_eq _ _ _ _ _ _ hz
    have hba := blkAt_of_zipTo t.blocks Impl.heap_base a pre b post hz
    have hblenb := hflen b hba
    have hbmem : b ∈ t.blocks := by
      rw [heq]
      exact (mem_recombine b pre post b).2 (Or.inr (Or.inl rfl))
    have hbsz := sizesOk_mem hsz hbmem
    have hbbl := bytesLen_mem hbl hbmem
    rw [impl_setBytes_eq t a f pre post b hz]
    refine ⟨hini, sizesOk_of_mem ?_, bytesLen_of_mem ?_, ?_⟩
    · intro x hx
      dsimp only at hx
      rcases (mem_recombine x pre post _).1 hx with hx | hx | hx
      · exact sizesOk_mem hsz (heq ▸ (mem_recombine x pre post b).2 (Or.inl hx))
      · subst hx
        exact hbsz
      · exact sizesOk_mem hsz (heq ▸ (mem_recombine x pre post b).2 (Or.inr (Or.inr hx)))
    · intro x hx
      dsimp only at hx
      rcases (mem_recombine x pre post _).1 hx with hx | hx | hx
      · exact bytesLen_mem hbl (heq ▸ (mem_recombine x pre post b).2 (Or.inl hx))
      · subst hx
        rw [show ({ b with bytes := f b.bytes } : Blk).bytes.length = (f b.bytes).length
          from rfl, hblenb]
        exact hbbl
      · exact bytesLen_mem hbl (heq ▸ (mem_recombine x pre post b).2 (Or.inr (Or.inr hx)))
    · dsimp only
      rw [totalSize_recombine]
      rw [heq, totalSize_recombine] at hbud
      dsimp only
      omega

/-- realloc of the implicit variant: well-formedness is preserved, a NULL
return leaves the state unchanged, and a success preserves the first
min(old payload size, new size) payload bytes. -/
theorem impl_setPayload_some (t : Impl.State) (a : Nat) (f : List Nat → List Nat)
    (pre post : List Blk) (b : Blk)
    (hz : zipTo t.blocks Impl.heap_base a = some (pre, b, post))
    (hg : (f b.bytes).length = b.bytes.length) :
    Impl.setPayload t a f = some (Impl.setBytes t a f) := by
  simp only [Impl.setPayload, hz, if_pos hg]

theorem impl_setPayload_inv (t : Impl.State) (a : Nat) (f : List Nat → List Nat)
    (t2 : Impl.State) (hsp : Impl.setPayload t a f = some t2) :
    t2 = Impl.setBytes t a f ∧
    ∃ pre post b, zipTo t.blocks Impl.heap_base a = some (pre, b, post) ∧
      (f b.bytes).length = b.bytes.length := by
  cases hz : zipTo t.blocks Impl.heap_base a with
  | none =>
    simp only [Impl.setPayload, hz] at hsp
    exact Option.noConfusion hsp
  | some w =>
    obtain ⟨pre, b, post⟩ := w
    simp only [Impl.setPayload, hz] at hsp
    by_cases hg : (f b.bytes).length = b.bytes.length
    · rw [if_pos hg] at hsp
      injection hsp with hsp
      exact ⟨hsp.symm, pre, post, b, rfl, hg⟩
    · rw [if_neg hg] at hsp
      exact Option.noConfusion hsp

theorem prevSize_mod8 (l : List Blk) (h : ∀ x ∈ l, x.size % 8 = 0) :
    prevSize l % 8 = 0 := by
  cases l with
  | nil => rfl
  | cons p t => exact h p (by simp)

/-- The raw result address of the implicit extend_heap is 4 mod 8 whenever
all block sizes are 8-multiples (no well-formedness needed). -/
theorem impl_extend_addr (t : Impl.State) (size : Nat) (t2 : Impl.State) (a2 : Nat)
    (he : Impl.extend_heap t size = some (t2, a2))
    (hsz : ∀ x ∈ t.blocks, x.size % 8 = 0) : a2 % 8 = 4 := by
  by_cases hbud : round_up size Impl.dsize ≤ t.budget
  · rw [impl_extend_eq t size hbud] at he
    injection he with he
    injection he with he1 he2
    rw [← he2]
    have hb12 : Impl.heap_base = 12 := rfl
    have ht8 : totalSize t.blocks % 8 = 0 := totalSize_mod8 t.blocks hsz
    have hp8 : prevSize t.blocks.reverse % 8 = 0 :=
      prevSize_mod8 _ (fun x hx => hsz x (List.mem_reverse.1 hx))
    have hple : prevSize t.blocks.reverse ≤ totalSize t.blocks := by
      cases hr : t.blocks.reverse with
      | nil => simp [prevSize]
      | cons p tt =>
        have hmem : p ∈ t.blocks := by
          rw [← List.mem_reverse, hr]
          simp
        have hps : p.size ≤ totalSize t.blocks :=
          List.single_le_sum (fun x _ => Nat.zero_le x) _ (List.mem_map_of_mem Blk.size hmem)
        simpa [prevSize] using hps
    by_cases hha : headAlloc t.blocks.reverse
    · rw [if_pos hha]
      omega
    · rw [if_neg hha]
      omega
  · rw [impl_extend_none t size hbud] at he
    cases he

/-- malloc of the implicit variant returns 8-aligned payloads for every
request size, including those whose size_t adjusted size wraps. -/
theorem impl_malloc_align (t : Impl.State) (n : Nat) (t2 : Impl.State) (r : Option Nat)
    (hwf : Impl.WF t)
    (hm : Impl.malloc t n = some (t2, r)) :
    ∀ p, r = some p → p % 8 = 0 := by
  obtain ⟨hini, hsz, hbl, hbud⟩ := hwf
  have hw4 : Impl.wsize = 4 := rfl
  have hb4 : Impl.heap_base % 8 = 4 := by decide
  have hpos : ∀ x ∈ t.blocks, 0 < x.size := by
    intro x hx
    have := sizesOk_mem hsz hx
    have hm16 : Impl.min_block_size = 16 := rfl
    omega
  by_cases hn0 : n = 0
  · simp only [Impl.malloc, if_pos hn0] at hm
    injection hm with hm
    injection hm with hma hmb
    intro p hp
    rw [← hmb] at hp
    cases hp
  · simp only [Impl.malloc, if_neg hn0, hini, if_true] at hm
    cases hf : Impl.find_fit t ((round_up n Impl.dsize + Impl.dsize) % 2 ^ 64) with
    | some a =>
      rw [hf] at hm
      dsimp only at hm
      injection hm with hm
      injection hm with hma hmb
      obtain ⟨pre, post, b, hz, _, _⟩ := impl_find_fit_spec t _ a hpos hf
      have hba := blkAt_of_zipTo t.blocks Impl.heap_base a pre b post hz
      have haal : a % 8 = 4 := by
        have := blkAt_addr_mod8_base t.blocks Impl.heap_base a b hba
          (fun x hx => (sizesOk_mem hsz hx).1)
        omega
      intro p hp
      rw [← hmb] at hp
      injection hp with hp
      omega
    | none =>
      rw [hf] at hm
      dsimp only at hm
      cases he : Impl.extend_heap t
          (max ((round_up n Impl.dsize + Impl.dsize) % 2 ^ 64) Impl.chunksize) with
      | none =>
        rw [he] at hm
        injection hm with hm
        injection hm with hma hmb
        intro p hp
        rw [← hmb] at hp
        cases hp
      | some w =>
        obtain ⟨t1, a⟩ := w
        rw [he] at hm
        dsimp only at hm
        injection hm with hm
        injection hm with hma hmb
        have haal : a % 8 = 4 :=
          impl_extend_addr t _ t1 a he (fun x hx => (sizesOk_mem hsz hx).1)
        intro p hp
        rw [← hmb] at hp
        injection hp with hp
        omega

theorem impl_realloc_spec (t : Impl.State) (pp n : Nat) (old : Blk) (t2 : Impl.State)
    (r : Option Nat)
    (hwf : Impl.WF t) (hn : 0 < n) (hn64 : n + 16 ≤ 2 ^ 64)
    (hold : blkAt t.blocks Impl.heap_base (pp - Impl.wsize) = some old)
    (hoa : old.alloc = true)
    (hm : Impl.realloc t (some pp) n = some (t2, r)) :
    Impl.WF t2 ∧
    (r = none → t2 = t) ∧
    (∀ q, r = some q → q % 8 = 0 ∧
      ∃ d, blkAt t2.blocks Impl.heap_base (q - Impl.wsize) = some d ∧ d.alloc = true ∧
        d.bytes.take (min (old.size - Impl.dsize) n) =
          old.bytes.take (min (old.size - Impl.dsize) n)) := by
  obtain ⟨hini, hsz, hbl, hbud⟩ := hwf
  have hwf' : Impl.WF t := ⟨hini, hsz, hbl, hbud⟩
  have hd8 : Impl.dsize = 8 := rfl
  have hm16 : Impl.min_block_size = 16 := rfl
  have homem : old ∈ t.blocks := blkAt_mem _ _ _ _ hold
  have hosz := sizesOk_mem hsz homem
  have hobl := bytesLen_mem hbl homem
  simp only [Impl.realloc, if_neg (by omega : ¬ n = 0)] at hm
  cases hmal : Impl.malloc t n with
  | none =>
    rw [hmal] at hm
    cases hm
  | some w =>
    obtain ⟨t1, r1⟩ := w
    rw [hmal] at hm
    obtain ⟨w1, w3, w4, w5⟩ := impl_malloc_spec t n t1 r1 hwf' hn64 hmal
    cases r1 with
    | none =>
      dsimp only at hm
      injection hm with hm
      injection hm with hma hmb
      subst hma
      have hteq : t1 = t := w3 rfl
      subst hteq
      refine ⟨hwf', fun _ => rfl, ?_⟩
      intro q hq
      rw [← hmb] at hq
      cases hq
    | some np =>
      dsimp only at hm
      have hold1 : blkAt t1.blocks Impl.heap_base (pp - Impl.wsize) = some old :=
        w4 _ _ hold hoa
      rw [hold1] at hm
      dsimp only at hm
      obtain ⟨hp8, hdis, d0, hd0, hd0al, hd0n, hd0bl⟩ := w5 np rfl
      obtain ⟨w1i, w1sz, w1bl, w1bud⟩ := w1
      have w1' : Impl.WF t1 := ⟨w1i, w1sz, w1bl, w1bud⟩
      have hpos1 : ∀ x ∈ t1.blocks, 0 < x.size := by
        intro x hx
        have := sizesOk_mem w1sz hx
        omega
      have hnppp : np - Impl.wsize ≠ pp - Impl.wsize := hdis _ _ hold hoa
      have hflen : ∀ (b : Blk), blkAt t1.blocks Impl.heap_base (np - Impl.wsize) = some b →
          ((fun bs => old.bytes.take (min (old.size - Impl.dsize) n) ++
            bs.drop (min (old.size - Impl.dsize) n)) b.bytes).length = b.bytes.length := by
        intro b hb
        rw [hd0] at hb
        injection hb with hb
        subst hb
        simp only [List.length_append, List.length_take, List.length_drop]
        omega
      obtain ⟨pre0, post0, hz0⟩ := zipTo_of_blkAt t1.blocks Impl.heap_base _ d0 hd0
      rw [impl_setPayload_some t1 (np - Impl.wsize)
        (fun bs => old.bytes.take (min (old.size - Impl.dsize) n) ++
          bs.drop (min (old.size - Impl.dsize) n)) pre0 post0 d0 hz0 (hflen d0 hd0)] at hm
      dsimp only at hm
      injection hm with hm
      injection hm with hma hmb
      subst hma
      have hWF2 := impl_setBytes_WF t1 (np - Impl.wsize)
        (fun bs => old.bytes.take (min (old.size - Impl.dsize) n) ++
          bs.drop (min (old.size - Impl.dsize) n)) w1' hflen
      have hdP := impl_setBytes_self t1 (np - Impl.wsize)
        (fun bs => old.bytes.take (min (old.size - Impl.dsize) n) ++
          bs.drop (min (old.size - Impl.dsize) n)) pre0 post0 d0 hz0 hpos1
      have holdP := impl_setBytes_keep t1 (np - Impl.wsize) (pp - Impl.wsize)
        (fun bs => old.bytes.take (min (old.size - Impl.dsize) n) ++
          bs.drop (min (old.size - Impl.dsize) n)) old hpos1 hold1 (by omega)
      have hfree := impl_free_WF
        (Impl.setBytes t1 (np - Impl.wsize)
          (fun bs => old.bytes.take (min (old.size - Impl.dsize) n) ++
            bs.drop (min (old.size - Impl.dsize) n))) pp hWF2 ⟨old, holdP, hoa⟩
      refine ⟨hfree.1, ?_, ?_⟩
      · intro hr
        exact absurd (hmb.trans hr) (by simp)
      · intro q hq
        rw [← hmb] at hq
        injection hq with hq
        subst hq
        refine ⟨hp8, ?_⟩
        have hposP : ∀ x ∈ (Impl.setBytes t1 (np - Impl.wsize)
            (fun bs => old.bytes.take (min (old.size - Impl.dsize) n) ++
              bs.drop (min (old.size - Impl.dsize) n))).blocks, 0 < x.size := by
          intro x hx
          have := sizesOk_mem hWF2.2.1 hx
          omega
        have hkeepF := impl_free_keep
          (Impl.setBytes t1 (np - Impl.wsize)
            (fun bs => old.bytes.take (min (old.size - Impl.dsize) n) ++
              bs.drop (min (old.size - Impl.dsize) n))) pp (np - Impl.wsize) _
          hposP hdP hd0al hnppp
        refine ⟨_, hkeepF, hd0al, ?_⟩
        dsimp only
        refine List.take_left' ?_
        rw [List.length_take]
        omega

/-- calloc of the implicit variant returns 8-aligned payloads. -/
theorem impl_calloc_spec (t : Impl.State) (nm n : Nat) (t2 : Impl.State) (r : Option Nat)
    (hwf : Impl.WF t)
    (hm : Impl.calloc t nm n = some (t2, r)) :
    ∀ p, r = some p → p % 8 = 0 := by
  simp only [Impl.calloc] at hm
  by_cases hchk : (nm * n % 2 ^ 64) / nm ≠ n
  · rw [if_pos hchk] at hm
    injection hm with hm
    injection hm with hma hmb
    exact fun p hp => by rw [← hmb] at hp; cases hp
  · rw [if_neg hchk] at hm
    cases hmal : Impl.malloc t (nm * n % 2 ^ 64) with
    | none =>
      rw [hmal] at hm
      cases hm
    | some w =>
      obtain ⟨t1, r1⟩ := w
      rw [hmal] at hm
      have halign := impl_malloc_align t _ t1 r1 hwf hmal
      cases r1 with
      | none =>
        dsimp only at hm
        injection hm with hm
        injection hm with hma hmb
        exact fun p hp => by rw [← hmb] at hp; cases hp
      | some np =>
        dsimp only at hm
        cases hsp : Impl.setPayload t1 (np - Impl.wsize)
            (fun bs => List.replicate (nm * n % 2 ^ 64) 0 ++ bs.drop (nm * n % 2 ^ 64)) with
        | none =>
          rw [hsp] at hm
          cases hm
        | some sP =>
          rw [hsp] at hm
          dsimp only at hm
          injection hm with hm
          injection hm with hma hmb
          intro p hp
          rw [← hmb] at hp
          injection hp with hp
          subst hp
          exact halign np rfl

/-- realloc of the implicit variant returns 8-aligned payloads, for every
request size. -/
theorem impl_realloc_align (t : Impl.State) (pp n : Nat) (t2 : Impl.State) (r : Option Nat)
    (hwf : Impl.WF t) (hn : 0 < n)
    (hm : Impl.realloc t (some pp) n = some (t2, r)) :
    ∀ p, r = some p → p % 8 = 0 := by
  simp only [Impl.realloc, if_neg (by omega : ¬ n = 0)] at hm
  cases hmal : Impl.malloc t n with
  | none => rw [hmal] at hm; cases hm
  | some w =>
    obtain ⟨t1, r1⟩ := w
    rw [hmal] at hm
    have halign := impl_malloc_align t n t1 r1 hwf hmal
    cases r1 with
    | none =>
      dsimp only at hm
      injection hm with hm
      injection hm with hma hmb
      exact fun p hp => by rw [← hmb] at hp; cases hp
    | some np =>
      dsimp only at hm
      cases hob : blkAt t1.blocks Impl.heap_base (pp - Impl.wsize) with
      | none => rw [hob] at hm; cases hm
      | some ob =>
        rw [hob] at hm
        dsimp only at hm
        cases hsp : Impl.setPayload t1 (np - Impl.wsize)
            (fun bs => ob.bytes.take (min (ob.size - Impl.dsize) n) ++
              bs.drop (min (ob.size - Impl.dsize) n)) with
        | none => rw [hsp] at hm; cases hm
        | some s2 =>
          rw [hsp] at hm
          dsimp only at hm
          injection hm with hm
          injection hm with hma hmb
          intro p hp
          rw [← hmb] at hp
          injection hp with hp
          subst hp
          exact halign np rfl

/-! Class-0 size bound and well-formedness of the concrete states. -/

theorem size_le_totalSize (b : Blk) (l : List Blk) (h : b ∈ l) : b.size ≤ totalSize l := by
  induction l with
  | nil => cases h
  | cons x t ih =>
    rw [totalSize_cons]
    rcases List.mem_cons.1 h with rfl | h
    · omega
    · have := ih h
      omega

/-- Only sizes up to 32 land in class 0 (below the uint32_t truncation
threshold). -/
theorem seg_idx0_le (sz : Nat) (h1 : 1 ≤ sz) (h2 : sz < 2 ^ 32)
    (h : Seg.get_seglist_idx sz = 0) : sz ≤ 32 := by
  obtain ⟨e, heq, hup, hlow⟩ := get_seglist_idx_eq sz h1 h2
  rw [heq] at h
  by_cases he5 : e ≤ 5
  · have : (2 : Nat) ^ e ≤ 2 ^ 5 := Nat.pow_le_pow_right (by norm_num) he5
    omega
  · rw [if_neg he5] at h
    split_ifs at h <;> omega

set_option maxRecDepth 2048

theorem seg0_blocks_eq : seg0.blocks = [⟨4096, false, List.replicate 4084 0⟩] := rfl

theorem impl0_blocks_eq : impl0.blocks = [⟨4096, false, List.replicate 4088 0⟩] := rfl

theorem segS_blocks_eq : segS.blocks =
    [⟨40, true, (List.replicate 4084 0).take 28⟩,
     ⟨4056, false, List.replicate 4044 0⟩] := rfl

theorem implS_blocks_eq : implS.blocks =
    [⟨32, true, (List.replicate 4088 0).take 24⟩,
     ⟨4064, false, List.replicate 4056 0⟩] := rfl

theorem seg0_WF : Seg.WF seg0 := by
  refine ⟨rfl, rfl, by decide, ?_, by decide, by decide, by decide⟩
  rw [seg0_blocks_eq]
  simp only [Seg.bytesLenOkB, List.all_cons, List.all_nil, List.length_replicate,
    List.length_take, Bool.and_true]
  decide

theorem impl0_WF : Impl.WF impl0 := by
  refine ⟨rfl, by decide, ?_, by decide⟩
  rw [impl0_blocks_eq]
  simp only [Seg.bytesLenOkB, List.all_cons, List.all_nil, List.length_replicate,
    List.length_take, Bool.and_true]
  decide

theorem segS_WF : Seg.WF segS := by
  refine ⟨rfl, rfl, by decide, ?_, by decide, by decide, by decide⟩
  rw [segS_blocks_eq]
  simp only [Seg.bytesLenOkB, List.all_cons, List.all_nil, List.length_replicate,
    List.length_take, Bool.and_true]
  decide

theorem implS_WF : Impl.WF implS := by
  refine ⟨rfl, by decide, ?_, by decide⟩
  rw [implS_blocks_eq]
  simp only [Seg.bytesLenOkB, List.all_cons, List.all_nil, List.length_replicate,
    List.length_take, Bool.and_true]
  decide

/-- C2 (corrected: allocate, free and callocate preserve the
no-adjacent-free invariant on a well-formed heap - immediate coalescing -
but the reallocate in-place shrink path violates it by inserting the split
remainder without coalescing; see the counterexample). -/
theorem C2_noAdj_after_malloc_free_calloc (s : Seg.State)
    (hwf : Seg.WF s) (hna : noAdjFreeB s.blocks = true) :
    (∀ p, noAdjFreeB (Seg.free s p).blocks = true) ∧
    (∀ n s2 r, Seg.malloc s n = some (s2, r) → noAdjFreeB s2.blocks = true) ∧
    (∀ nm n s2 r, Seg.calloc s nm n = some (s2, r) → noAdjFreeB s2.blocks = true) := by
  refine ⟨fun p => seg_free_noAdj s p hna, ?_, ?_⟩
  · intro n s2 r hm
    exact (seg_malloc_spec s n s2 r hwf hm).2.1 hna
  · intro nm n s2 r hm
    exact (seg_calloc_spec s nm n s2 r hwf hm).2.1 hna

/-- C2 witness: the fresh segregated heap is well formed, satisfies the
invariant, and free preserves it there. -/
theorem C2_witness :
    Seg.WF seg0 ∧ noAdjFreeB seg0.blocks = true ∧
    (∀ p, noAdjFreeB (Seg.free seg0 p).blocks = true) :=
  ⟨seg0_WF, by decide,
    (C2_noAdj_after_malloc_free_calloc seg0 seg0_WF (by decide)).1⟩

/-- C10 (confirmed): in a well-formed segregated heap every block listed in
size class 0 is free of size exactly min_block_size = 32 (sizes are
8-multiples of at least 32 and the class function sends only sizes up to 32
to class 0); well-formedness - hence the invariant - is preserved by the
four public operations on valid arguments. -/
theorem C10_class0_min_size (s : Seg.State) (hwf : Seg.WF s) :
    (∀ a ∈ s.seglist.getD 0 [], ∃ b, blkAt s.blocks Seg.heap_base a = some b ∧
      b.alloc = false ∧ b.size = Seg.min_block_size) ∧
    (∀ pp old, blkAt s.blocks Seg.heap_base (pp - Seg.dsize) = some old →
      old.alloc = true → Seg.WF (Seg.free s (some pp))) ∧
    (∀ n s2 r, Seg.malloc s n = some (s2, r) → Seg.WF s2) ∧
    (∀ pp n old s2 r, 0 < n → blkAt s.blocks Seg.heap_base (pp - Seg.dsize) = some old →
      old.alloc = true → Seg.realloc s (some pp) n = some (s2, r) → Seg.WF s2) ∧
    (∀ nm n s2 r, Seg.calloc s nm n = some (s2, r) → Seg.WF s2) := by
  obtain ⟨hini, hlen, hsz, hbl, hbud, hlisted, hnodup⟩ := hwf
  have hwf' : Seg.WF s := ⟨hini, hlen, hsz, hbl, hbud, hlisted, hnodup⟩
  refine ⟨?_, ?_, ?_, ?_, ?_⟩
  · intro a ha
    have hv := hlisted 0 (by omega) a ha
    rw [listedEntryOk_iff] at hv
    obtain ⟨b, hb, hbal, hbidx⟩ := hv
    refine ⟨b, hb, hbal, ?_⟩
    have hbsz := sizesOk_mem hsz (blkAt_mem _ _ _ _ hb)
    have hble : b.size ≤ totalSize s.blocks :=
      size_le_totalSize b s.blocks (blkAt_mem _ _ _ _ hb)
    have hm : Seg.min_block_size = 32 := rfl
    have h32 := seg_idx0_le b.size (by omega) (by omega) hbidx
    omega
  · intro pp old hb hoa
    exact (seg_free_WF s pp hwf' ⟨old, hb, hoa⟩).1
  · intro n s2 r hm
    exact (seg_malloc_spec s n s2 r hwf' hm).1
  · intro pp n old s2 r hn hb hoa hm
    exact (seg_realloc_spec s pp n old s2 r hwf' hn hb hoa hm).1
  · intro nm n s2 r hm
    exact (seg_calloc_spec s nm n s2 r hwf' hm).1

/-- C10 witness: the fresh segregated heap is well formed and its class-0
list (empty there) satisfies the size characterisation. -/
theorem C10_witness :
    Seg.WF seg0 ∧
    (∀ a ∈ seg0.seglist.getD 0 [], ∃ b, blkAt seg0.blocks Seg.heap_base a = some b ∧
      b.alloc = false ∧ b.size = Seg.min_block_size) :=
  ⟨seg0_WF, (C10_class0_min_size seg0 seg0_WF).1⟩

/-- C4 (corrected: block sizes are multiples of 8, not 16, so the payload
pointers returned by successful allocate, reallocate and callocate calls
are 8-byte aligned in both variants - 16-byte alignment fails, see the
counterexample). -/
theorem C4_payload_alignment :
    (∀ s n p, Seg.WF s → retPtr (Seg.malloc s n) = some (some p) → p % 8 = 0) ∧
    (∀ s pp n old p, Seg.WF s → 0 < n →
      blkAt s.blocks Seg.heap_base (pp - Seg.dsize) = some old → old.alloc = true →
      retPtr (Seg.realloc s (some pp) n) = some (some p) → p % 8 = 0) ∧
    (∀ s nm n p, Seg.WF s → retPtr (Seg.calloc s nm n) = some (some p) → p % 8 = 0) ∧
    (∀ t n p, Impl.WF t → retPtr (Impl.malloc t n) = some (some p) → p % 8 = 0) ∧
    (∀ t pp n old p, Impl.WF t → 0 < n →
      blkAt t.blocks Impl.heap_base (pp - Impl.wsize) = some old → old.alloc = true →
      retPtr (Impl.realloc t (some pp) n) = some (some p) → p % 8 = 0) ∧
    (∀ t nm n p, Impl.WF t → retPtr (Impl.calloc t nm n) = some (some p) → p % 8 = 0) := by
  refine ⟨?_, ?_, ?_, ?_, ?_, ?_⟩
  · intro s n p hwf hr
    cases hm : Seg.malloc s n with
    | none => rw [hm] at hr; cases hr
    | some w =>
      obtain ⟨s2, r⟩ := w
      rw [hm, show retPtr (some (s2, r)) = some r from rfl] at hr
      injection hr with hr
      subst hr
      exact ((seg_malloc_spec s n s2 _ hwf hm).2.2.2.2 p rfl).1
  · intro s pp n old p hwf hn hb hoa hr
    cases hm : Seg.realloc s (some pp) n with
    | none => rw [hm] at hr; cases hr
    | some w =>
      obtain ⟨s2, r⟩ := w
      rw [hm, show retPtr (some (s2, r)) = some r from rfl] at hr
      injection hr with hr
      subst hr
      exact ((seg_realloc_spec s pp n old s2 _ hwf hn hb hoa hm).2.2 p rfl).1
  · intro s nm n p hwf hr
    cases hm : Seg.calloc s nm n with
    | none => rw [hm] at hr; cases hr
    | some w =>
      obtain ⟨s2, r⟩ := w
      rw [hm, show retPtr (some (s2, r)) = some r from rfl] at hr
      injection hr with hr
      subst hr
      exact (seg_calloc_spec s nm n s2 _ hwf hm).2.2 p rfl
  · intro t n p hwf hr
    cases hm : Impl.malloc t n with
    | none => rw [hm] at hr; cases hr
    | some w =>
      obtain ⟨t2, r⟩ := w
      rw [hm, show retPtr (some (t2, r)) = some r from rfl] at hr
      injection hr with hr
      subst hr
      exact impl_malloc_align t n t2 _ hwf hm p rfl
  · intro t pp n old p hwf hn hb hoa hr
    cases hm : Impl.realloc t (some pp) n with
    | none => rw [hm] at hr; cases hr
    | some w =>
      obtain ⟨t2, r⟩ := w
      rw [hm, show retPtr (some (t2, r)) = some r from rfl] at hr
      injection hr with hr
      subst hr
      exact impl_realloc_align t pp n t2 _ hwf hn hm p rfl
  · intro t nm n p hwf hr
    cases hm : Impl.calloc t nm n with
    | none => rw [hm] at hr; cases hr
    | some w =>
      obtain ⟨t2, r⟩ := w
      rw [hm, show retPtr (some (t2, r)) = some r from rfl] at hr
      injection hr with hr
      subst hr
      exact impl_calloc_spec t nm n t2 _ hwf hm p rfl

/-- C4 witness: concrete aligned payloads for the six operation/variant
combinations. -/
theorem C4_witness :
    Seg.WF seg0 ∧ Impl.WF impl0 ∧ Seg.WF segS ∧ Impl.WF implS ∧
    retPtr (Seg.malloc seg0 21) = some (some 552) ∧ (552 : Nat) % 8 = 0 ∧
    retPtr (Seg.realloc segS (some 552) 100) = some (some 592) ∧ (592 : Nat) % 8 = 0 ∧
    retPtr (Seg.calloc seg0 3 8) = some (some 552) ∧
    retPtr (Impl.malloc impl0 21) = some (some 16) ∧ (16 : Nat) % 8 = 0 ∧
    retPtr (Impl.realloc implS (some 16) 100) = some (some 48) ∧ (48 : Nat) % 8 = 0 ∧
    retPtr (Impl.calloc impl0 3 8) = some (some 16) :=
  ⟨seg0_WF, impl0_WF, segS_WF, implS_WF,
   rfl, C4_payload_alignment.1 seg0 21 552 seg0_WF rfl,
   rfl, C4_payload_alignment.2.1 segS 552 100 _ 592 segS_WF (by omega) rfl rfl rfl,
   rfl,
   rfl, C4_payload_alignment.2.2.2.1 impl0 21 16 impl0_WF rfl,
   rfl, C4_payload_alignment.2.2.2.2.1 implS 16 100 _ 48 implS_WF (by omega) rfl rfl rfl,
   rfl⟩

/-- C7 counterexample: at n = 2^64 - 12 the segregated adjusted-size
computation round_up(n + tsize, 8) wraps in size_t to 0 and is clamped to
min_block_size = 32, so realloc's in-place shrink path splits the 64-byte
block and truncates its 52-byte payload to 20 bytes while reporting
success: the first min(old payload size, n) = 52 payload bytes are not
preserved (only 20 bytes remain after the call). -/
theorem C7_counterexample :
    (blkAt segC.blocks Seg.heap_base (552 - Seg.dsize)).map
      (fun b => (b.size, b.alloc, (b.bytes.take (min 52 (2 ^ 64 - 12))).length)) =
      some (64, true, 52) ∧
    (Seg.realloc segC (some 552) (2 ^ 64 - 12)).map
      (fun y => (y.2, (blkAt y.1.blocks Seg.heap_base (552 - Seg.dsize)).map
        (fun d => (d.bytes.take (min 52 (2 ^ 64 - 12))).length))) =
      some (some 552, some 20) ∧
    (20 : Nat) ≠ 52 := by
  refine ⟨rfl, rfl, by decide⟩

/-- C7 (corrected): when the request size n is small enough that the
size_t adjusted-size arithmetic does not wrap (n + 20 ≤ 2^64 for the
segregated variant, whose overhead is tsize = 12, and n + 16 ≤ 2^64 for
the implicit one, whose overhead is dsize = 8), a successful reallocate on
a well-formed heap keeps the first min(old payload size, n) payload bytes
of the block, and a NULL return leaves the heap untouched, in both
variants; without the bound the segregated shrink path truncates the
payload while reporting success. -/
theorem C7_realloc_preserves_prefix :
    (∀ s pp n old s2 r, Seg.WF s → 0 < n → n + 20 ≤ 2 ^ 64 →
      blkAt s.blocks Seg.heap_base (pp - Seg.dsize) = some old → old.alloc = true →
      Seg.realloc s (some pp) n = some (s2, r) →
      (r = none → s2 = s) ∧
      (∀ q, r = some q → ∃ d, blkAt s2.blocks Seg.heap_base (q - Seg.dsize) = some d ∧
        d.alloc = true ∧
        d.bytes.take (min (old.size - Seg.tsize) n) =
          old.bytes.take (min (old.size - Seg.tsize) n))) ∧
    (∀ t pp n old t2 r, Impl.WF t → 0 < n → n + 16 ≤ 2 ^ 64 →
      blkAt t.blocks Impl.heap_base (pp - Impl.wsize) = some old → old.alloc = true →
      Impl.realloc t (some pp) n = some (t2, r) →
      (r = none → t2 = t) ∧
      (∀ q, r = some q → ∃ d, blkAt t2.blocks Impl.heap_base (q - Impl.wsize) = some d ∧
        d.alloc = true ∧
        d.bytes.take (min (old.size - Impl.dsize) n) =
          old.bytes.take (min (old.size - Impl.dsize) n))) := by
  constructor
  · intro s pp n old s2 r hwf hn hn64 hb hoa hm
    obtain ⟨_, h2, h3⟩ := seg_realloc_spec s pp n old s2 r hwf hn hb hoa hm
    refine ⟨h2, fun q hq => ?_⟩
    obtain ⟨_, d, hd, hal, hpre⟩ := h3 q hq
    exact ⟨d, hd, hal, hpre hn64⟩
  · intro t pp n old t2 r hwf hn hn64 hb hoa hm
    obtain ⟨_, h2, h3⟩ := impl_realloc_spec t pp n old t2 r hwf hn hn64 hb hoa hm
    exact ⟨h2, fun q hq => (h3 q hq).2⟩

/-- C7 witness: a concrete growing reallocation on both heaps. -/
theorem C7_witness :
    Seg.WF segS ∧ Impl.WF implS ∧ (0 : Nat) < 100 ∧
    (100 : Nat) + 20 ≤ 2 ^ 64 ∧ (100 : Nat) + 16 ≤ 2 ^ 64 ∧
    (∃ old s2 r, blkAt segS.blocks Seg.heap_base (552 - Seg.dsize) = some old ∧
      old.alloc = true ∧ Seg.realloc segS (some 552) 100 = some (s2, r) ∧
      ((r = none → s2 = segS) ∧
       (∀ q, r = some q → ∃ d, blkAt s2.blocks Seg.heap_base (q - Seg.dsize) = some d ∧
         d.alloc = true ∧
         d.bytes.take (min (old.size - Seg.tsize) 100) =
           old.bytes.take (min (old.size - Seg.tsize) 100)))) ∧
    (∃ old t2 r, blkAt implS.blocks Impl.heap_base (16 - Impl.wsize) = some old ∧
      old.alloc = true ∧ Impl.realloc implS (some 16) 100 = some (t2, r) ∧
      ((r = none → t2 = implS) ∧
       (∀ q, r = some q → ∃ d, blkAt t2.blocks Impl.heap_base (q - Impl.wsize) = some d ∧
         d.alloc = true ∧
         d.bytes.take (min (old.size - Impl.dsize) 100) =
           old.bytes.take (min (old.size - Impl.dsize) 100)))) :=
  ⟨segS_WF, implS_WF, by omega, by norm_num, by norm_num,
   ⟨_, _, _, rfl, rfl, rfl,
     C7_realloc_preserves_prefix.1 segS 552 100 _ _ _ segS_WF (by omega) (by norm_num)
       rfl rfl rfl⟩,
   ⟨_, _, _, rfl, rfl, rfl,
     C7_realloc_preserves_prefix.2 implS 16 100 _ _ _ implS_WF (by omega) (by norm_num)
       rfl rfl rfl⟩⟩
